import Mathlib

/-!
# flist-tui: a shallow embedding of `main.go` and its verified properties

The program lists a directory, sorts the entries (folders first, then by name),
formats each entry as a row of five display strings, measures the column widths
ignoring colour sequences, and prints a bordered table.

Conventions of the embedding:
* a Go `string` is a list of bytes (`len` counts bytes, `<` compares bytes);
* `int`/`int64` values are `Int` (or `Nat` where the value is a length);
* a run-time panic is the result `none`;
* standard output is the byte string written so far;
* the wall clock read by `time.Since` is an explicit argument `now`.
-/

namespace Flist

/-! ## Strings -/

/-- One byte of a Go string. -/
abbrev Byte := Fin 256

/-- A Go `string` value: a finite sequence of bytes. `len` is the number of
bytes, `==` is byte-wise equality, `+` is concatenation. -/
abbrev GoString := List Byte

/-- UTF-8 encoding of one code point, as the Go compiler stores the characters of
a string literal. -/
def utf8Encode (c : Nat) : GoString :=
  if c < 0x80 then [Fin.ofNat c]
  else if c < 0x800 then [Fin.ofNat (0xC0 + c / 64), Fin.ofNat (0x80 + c % 64)]
  else if c < 0x10000 then
    [Fin.ofNat (0xE0 + c / 4096), Fin.ofNat (0x80 + c / 64 % 64), Fin.ofNat (0x80 + c % 64)]
  else
    [Fin.ofNat (0xF0 + c / 262144), Fin.ofNat (0x80 + c / 4096 % 64),
      Fin.ofNat (0x80 + c / 64 % 64), Fin.ofNat (0x80 + c % 64)]

/-- The bytes of a string literal of the source. -/
def lit (s : String) : GoString := s.data.flatMap (fun c => utf8Encode c.toNat)

/-- Go's `<` on strings: byte-wise lexicographic order, a proper prefix being smaller. -/
def strLt : GoString → GoString → Bool
  | [], [] => false
  | [], _ :: _ => true
  | _ :: _, [] => false
  | a :: as, b :: bs => if a < b then true else if b < a then false else strLt as bs

/-- The byte `'0' + d` of a decimal digit. -/
def digitByte (d : Nat) : Byte := Fin.ofNat (48 + d % 10)

/-- Decimal digits of a natural number, most significant first (`fuel` bounds the
number of digits; `n + 1` always suffices). -/
def decimalDigits : Nat → Nat → GoString → GoString
  | 0, _, acc => acc
  | fuel + 1, n, acc =>
    if n < 10 then digitByte n :: acc
    else decimalDigits fuel (n / 10) (digitByte n :: acc)

/-- The verb `%d` of `fmt` applied to a natural number. -/
def fmtNat (n : Nat) : GoString := decimalDigits (n + 1) n []

/-- The verb `%d` of `fmt`: decimal, with a leading minus sign for negative values. -/
def fmtInt (i : Int) : GoString :=
  if i < 0 then lit "-" ++ fmtNat i.natAbs else fmtNat i.natAbs

/-! ## Entries and their order -/

/-- A `time.Time` as `time.Unix` and `time.Now` receive it: the instant in nanoseconds
since the Unix epoch (an `int64` of seconds and the nanoseconds within the second),
together with the offset east of UTC, in seconds, that its location has at that
instant. The library keeps the seconds counted from year 1, see `Time.sec`. -/
structure Time where
  unixNano : Int
  zoneOffset : Int
deriving DecidableEq, Repr

/-- The struct `fileEntry` of the source. -/
structure fileEntry where
  name : GoString
  typ : GoString
  size : Int
  modified : Time
deriving DecidableEq, Repr

/-- The comparator passed to `sort.SliceStable` in `main`, on the two elements
`files[i]` and `files[j]`. -/
def less (fi fj : fileEntry) : Bool :=
  if fi.typ = lit "folder" ∧ fj.typ ≠ lit "folder" then true
  else if fi.typ ≠ lit "folder" ∧ fj.typ = lit "folder" then false
  else strLt fi.name fj.name

/-- Inner loop of the library's insertion sort: the new element `x` is swapped with
its predecessor for as long as `lessFn x predecessor` holds. The already sorted
prefix is passed last element first and is returned in that form. -/
def sinkLeft {α : Type} (lessFn : α → α → Bool) (x : α) : List α → List α
  | [] => [x]
  | p :: ps => if lessFn x p then p :: sinkLeft lessFn x ps else x :: p :: ps

/-- The library function `sort.SliceStable(x, less)`, embedded as the stable insertion
sort that the Go library itself runs on every block of the slice
(`for i := a+1; i < b; i++ { for j := i; j > a && less(j, j-1); j-- { swap(j, j-1) } }`).
The comparator of `main` is a strict weak order, and for such an order the contract of
the library function (sorted, equal elements in their original order) has exactly one
solution (`SliceStable_unique`), so the choice of algorithm does not show in the
result. -/
def SliceStable {α : Type} (x : List α) (lessFn : α → α → Bool) : List α :=
  (x.foldl (fun done e => sinkLeft lessFn e done) []).reverse

/-- The sorting step of `main`: `sort.SliceStable(files, func(i, j int) bool ...)`. -/
def sortFiles (files : List fileEntry) : List fileEntry := SliceStable files less

/-! ## Colour sequences and visual width -/

/-- The global `colorBlue` (used for folders). -/
def colorBlue : GoString := lit "\x1b[1;92m"

/-- The global `colorYellow` (used for files). -/
def colorYellow : GoString := lit "\x1b[1;97m"

/-- The global `colorReset`. -/
def colorReset : GoString := lit "\x1b[0m"

/-- Membership in the character class `[0-9;]` of `ansiRegexp`. -/
def isParamByte (c : Byte) : Bool := (0x30 ≤ c.val && c.val ≤ 0x39) || c.val == 0x3b

/-- The match of `ansiRegexp`, the pattern `\x1b\[[0-9;]*m`, anchored at the start of
`s`: the number of bytes matched, if there is a match. The star is greedy; since `m`
is outside the class `[0-9;]`, giving back repetitions can never produce a match, so
the match at a position is unique. -/
def ansiMatchLen : GoString → Option Nat
  | e :: b :: rest =>
    if e.val = 0x1b ∧ b.val = 0x5b then
      let n := (rest.takeWhile isParamByte).length
      match rest.drop n with
      | m :: _ => if m.val = 0x6d then some (n + 3) else none
      | [] => none
    else none
  | _ => none

/-- The call `ansiRegexp.ReplaceAllString(s, "")`: scanning from the left, every
leftmost match is deleted and the scan resumes right after it; a byte at which no
match starts is kept. `skip` is the number of bytes of the current match that are
still to be deleted. -/
def replaceAllAnsi : Nat → GoString → GoString
  | _, [] => []
  | skip + 1, _ :: rest => replaceAllAnsi skip rest
  | 0, c :: rest =>
    match ansiMatchLen (c :: rest) with
    | some n => replaceAllAnsi (n - 1) rest
    | none => c :: replaceAllAnsi 0 rest

/-- The function `visualLength` of the source. -/
def visualLength (s : GoString) : Nat := (replaceAllAnsi 0 s).length

/-- A byte that cannot continue a colour sequence begun before it: it is none of `[`,
`m`, a digit or `;`. -/
def Inert (c : Byte) : Prop := c.val ≠ 0x5b ∧ c.val ≠ 0x6d ∧ isParamByte c = false

/-! ## The table -/

/-- The global `header`. -/
def header : List GoString :=
  [lit "#", lit "name", lit "type", lit "size", lit "modified"]

/-- The initial value of the global `colWidths`: `make([]int, len(header))`. -/
def colWidthsInit : List Nat := List.replicate header.length 0

/-- The first loop of the measure phase: `colWidths[i] = len(h)` for every header
label. -/
def measureHeader (colWidths : List Nat) : List Nat :=
  header.enum.foldl (fun w ih => w.set ih.1 ih.2.length) colWidths

/-- The inner loop of the measure phase over the cells of one row, from column `i` on.
Reading `colWidths[i]` beyond the end of the width table panics. -/
def measureCells : Nat → List GoString → List Nat → Option (List Nat)
  | _, [], colWidths => some colWidths
  | i, col :: cols, colWidths =>
    if h : i < colWidths.length then
      let vlen := visualLength col
      if vlen > colWidths[i] then measureCells (i + 1) cols (colWidths.set i vlen)
      else measureCells (i + 1) cols colWidths
    else none

/-- The outer loop of the measure phase over all rows. -/
def measureRows : List (List GoString) → List Nat → Option (List Nat)
  | [], colWidths => some colWidths
  | row :: rows, colWidths => (measureCells 0 row colWidths).bind (measureRows rows)

/-- The measure phase of `main`: both loops, starting from the initial width table. -/
def measure (rows : List (List GoString)) : Option (List Nat) :=
  measureRows rows (measureHeader colWidthsInit)

/-- The non-panicking core of `strings.Repeat`: `count` copies of `s`. -/
def repeatString (s : GoString) (count : Nat) : GoString := (List.replicate count s).flatten

/-- The function `strings.Repeat(s, count)`; it panics when `count` is negative. -/
def stringsRepeat (s : GoString) (count : Int) : Option GoString :=
  if count < 0 then none else some (repeatString s count.toNat)

/-- The size in bytes of the first rune of a non-empty string as `utf8` decodes it;
an invalid or truncated encoding counts as one byte. -/
def runeSize : GoString → Nat
  | [] => 0
  | c :: rest =>
    let cont := fun (b : Byte) => 0x80 ≤ b.val && b.val ≤ 0xBF
    let within := fun (lo hi : Nat) (b : Byte) => lo ≤ b.val && b.val ≤ hi
    let two := fun (lo hi : Nat) =>
      match rest with
      | b1 :: _ => if within lo hi b1 then 2 else 1
      | _ => 1
    let three := fun (lo hi : Nat) =>
      match rest with
      | b1 :: b2 :: _ => if within lo hi b1 && cont b2 then 3 else 1
      | _ => 1
    let four := fun (lo hi : Nat) =>
      match rest with
      | b1 :: b2 :: b3 :: _ => if within lo hi b1 && cont b2 && cont b3 then 4 else 1
      | _ => 1
    if c.val < 0x80 then 1
    else if c.val < 0xC2 then 1
    else if c.val ≤ 0xDF then two 0x80 0xBF
    else if c.val = 0xE0 then three 0xA0 0xBF
    else if c.val = 0xED then three 0x80 0x9F
    else if c.val ≤ 0xEF then three 0x80 0xBF
    else if c.val = 0xF0 then four 0x90 0xBF
    else if c.val ≤ 0xF3 then four 0x80 0xBF
    else if c.val = 0xF4 then four 0x80 0x8F
    else 1

/-- The function `utf8.RuneCountInString`; `skip` is the number of bytes of the current
rune still to be passed over. -/
def runeCount : Nat → GoString → Nat
  | _, [] => 0
  | skip + 1, _ :: rest => runeCount skip rest
  | 0, c :: rest => 1 + runeCount (runeSize (c :: rest) - 1) rest

/-- The verb `%-*s` of `fmt` with a non-negative width: the string, left-aligned,
followed by spaces up to `width` runes. -/
def fmtPadRight (width : Nat) (s : GoString) : GoString :=
  s ++ repeatString (lit " ") (width - runeCount 0 s)

/-- The loop of `printTableHeader` that builds `borderTop` and `borderMid`. The
count `w+2` passed to `strings.Repeat` is never negative. -/
def headerBorders (colWidths : List Nat) : GoString × GoString :=
  let done := colWidths.enum.foldl
    (fun (acc : GoString × GoString) (iw : Nat × Nat) =>
      let borderTop := acc.1 ++ repeatString (lit "─") (iw.2 + 2)
      let borderMid := acc.2 ++ repeatString (lit "─") (iw.2 + 2)
      if (iw.1 : Int) < (colWidths.length : Int) - 1 then
        (borderTop ++ lit "┬", borderMid ++ lit "┼")
      else (borderTop, borderMid))
    (lit "╭", lit "├")
  (done.1 ++ lit "╮", done.2 ++ lit "┤")

/-- The cells of the header line: `fmt.Printf(" %-*s │", colWidths[i], h)` for every
label, from column `i` on. Reading `colWidths[i]` out of range panics. -/
def printHeaderCells (colWidths : List Nat) : Nat → List GoString → Option GoString
  | _, [] => some []
  | i, h :: hs =>
    match colWidths[i]? with
    | none => none
    | some w =>
      (printHeaderCells colWidths (i + 1) hs).map
        (fun more => lit " " ++ fmtPadRight w h ++ lit " │" ++ more)

/-- The function `printTableHeader`: what it appends to standard output. -/
def printTableHeader (colWidths : List Nat) (out : GoString) : Option GoString :=
  (printHeaderCells colWidths 0 header).map (fun cells =>
    out ++ (headerBorders colWidths).1 ++ lit "\n"
      ++ lit "│" ++ cells ++ lit "\n"
      ++ (headerBorders colWidths).2 ++ lit "\n")

/-- The two `%s` arguments of the `Printf` call of `printTableRows` for the cell `col`
of column `i`, written one after the other: the cell followed by
`strings.Repeat(" ", padding)` with `padding := colWidths[i] - visualLength(col)`.
Reading `colWidths[i]` out of range panics, and so does a negative `padding`. -/
def padCell (colWidths : List Nat) (i : Nat) (col : GoString) : Option GoString :=
  match colWidths[i]? with
  | none => none
  | some w =>
    let padding : Int := (w : Int) - (visualLength col : Int)
    (stringsRepeat (lit " ") padding).map (fun pad => col ++ pad)

/-- The cells of one data line of `printTableRows`, from column `i` on:
`fmt.Printf(" %s%s │", col, strings.Repeat(" ", padding))` for every cell. -/
def printRowCells (colWidths : List Nat) : Nat → List GoString → Option GoString
  | _, [] => some []
  | i, col :: cols =>
    match padCell colWidths i col with
    | none => none
    | some cell =>
      (printRowCells colWidths (i + 1) cols).map
        (fun more => lit " " ++ cell ++ lit " │" ++ more)

/-- The function `printTableRows`: what it appends to standard output. -/
def printTableRows (colWidths : List Nat) : List (List GoString) → GoString → Option GoString
  | [], out => some out
  | row :: rows, out =>
    match printRowCells colWidths 0 row with
    | none => none
    | some cells => printTableRows colWidths rows (out ++ lit "│" ++ cells ++ lit "\n")

/-- The loop of `printTableFooter` that builds `borderBot`. -/
def footerBorder (colWidths : List Nat) : GoString :=
  let done := colWidths.enum.foldl
    (fun (borderBot : GoString) (iw : Nat × Nat) =>
      let borderBot := borderBot ++ repeatString (lit "─") (iw.2 + 2)
      if (iw.1 : Int) < (colWidths.length : Int) - 1 then borderBot ++ lit "┴"
      else borderBot)
    (lit "╰")
  done ++ lit "╯"

/-- The function `printTableFooter`: what it appends to standard output. -/
def printTableFooter (colWidths : List Nat) (out : GoString) : Option GoString :=
  some (out ++ footerBorder colWidths ++ lit "\n")

/-- The three print calls that end `main`, on an empty standard output. -/
def printTable (colWidths : List Nat) (rows : List (List GoString)) : Option GoString :=
  ((printTableHeader colWidths []).bind (printTableRows colWidths rows)).bind
    (printTableFooter colWidths)

/-- The measure phase followed by the print phase, as at the end of `main`. -/
def renderTable (rows : List (List GoString)) : Option GoString :=
  (measure rows).bind (fun colWidths => printTable colWidths rows)

/-- Two rows as the formatter builds them, for a folder `b` and a file `a.txt`; used
to instantiate the general statements. -/
def sampleRows : List (List GoString) :=
  [[lit "0", colorBlue ++ lit "b" ++ colorReset, lit "folder", lit "4.0 kB", lit "3 hours ago"],
   [lit "1", colorYellow ++ lit "a.txt" ++ colorReset, lit "file", lit "512 B", lit "just now"]]

/-- The text made of the given lines, each one ended by a newline, as a sequence of
`fmt.Println` calls writes it. -/
def joinLines (lines : List GoString) : GoString :=
  (lines.map (fun line => line ++ lit "\n")).flatten

/-- The lines of a text: the maximal newline-free segments before each newline byte
(a last segment without a closing newline is counted when it is not empty). `cur` is
the segment read so far. -/
def splitLines : GoString → GoString → List GoString
  | cur, [] => if cur = [] then [] else [cur]
  | cur, c :: rest =>
    if c.val = 0x0a then cur :: splitLines [] rest else splitLines (cur ++ [c]) rest

/-- One row whose name cell (for a file named `a`, newline, `b`) contains a newline
byte. -/
def newlineRows : List (List GoString) :=
  [[lit "0", colorYellow ++ lit "a\nb" ++ colorReset, lit "file", lit "0 B", lit "just now"]]

/-- A string without a newline byte. -/
def NewlineFree (s : GoString) : Prop := ∀ b ∈ s, b.val ≠ 0x0a

/-! ## Floating point

`humanSize` and `humanTime` compute with `float64`. Only finite, non-negative values
occur there (the first branch of either function takes every negative argument), all
of them far from the overflow and underflow thresholds, so a value is embedded as a
pair `mant * 2 ^ exp` and every operation returns the exact result rounded to a
53-bit significand, ties to even, as IEEE 754 prescribes. -/

/-- A finite non-negative `float64` value: `mant * 2 ^ exp`. -/
structure Float64 where
  mant : Nat
  exp : Int
deriving DecidableEq, Repr

/-- The number of binary digits of `n` (`fuel` bounds the number of digits). -/
def bitLen : Nat → Nat → Nat
  | 0, _ => 0
  | fuel + 1, n => if n = 0 then 0 else bitLen fuel (n / 2) + 1

/-- The fraction `n / d` divided by `2 ^ e`, as a numerator and a denominator. -/
def scaleFrac (n d : Nat) (e : Int) : Nat × Nat :=
  if 0 ≤ e then (n, d * 2 ^ e.toNat) else (n * 2 ^ (-e).toNat, d)

/-- The integer nearest to `num / den`, a tie going to the even neighbour. -/
def roundHalfEven (num den : Nat) : Nat :=
  let q := num / den
  let r := num % den
  if den < 2 * r ∨ (2 * r = den ∧ q % 2 = 1) then q + 1 else q

/-- The binary exponent `e` of the unit in the last place of the `float64` nearest to
the positive fraction `n / d`: the one for which `n / d / 2 ^ e` has exactly 53 binary
digits before the point. -/
def float64Exp (n d : Nat) : Int :=
  let e0 : Int := (bitLen n n : Int) - (bitLen d d : Int) - 52
  let s0 := scaleFrac n d e0
  if s0.1 / s0.2 < 2 ^ 52 then e0 - 1 else e0

/-- The `float64` nearest to the fraction `n / d`, ties to even: `n / d / 2 ^ e` is
rounded to an integer significand. -/
def roundToFloat64 (n d : Nat) : Float64 :=
  if n = 0 then ⟨0, 0⟩
  else
    let s := scaleFrac n d (float64Exp n d)
    ⟨roundHalfEven s.1 s.2, float64Exp n d⟩

namespace Float64

/-- The conversion `float64(i)` of a non-negative integer. -/
def ofInt (i : Int) : Float64 := roundToFloat64 i.toNat 1

/-- The quotient `x / c` of a `float64` by a constant `c` that is a positive integer
exactly representable as `float64`. -/
def divConst (x : Float64) (c : Nat) : Float64 :=
  if 0 ≤ x.exp then roundToFloat64 (x.mant * 2 ^ x.exp.toNat) c
  else roundToFloat64 x.mant (c * 2 ^ (-x.exp).toNat)

/-- The sum `x + y` of two `float64` values. -/
def add (x y : Float64) : Float64 :=
  let e := min x.exp y.exp
  let m := x.mant * 2 ^ (x.exp - e).toNat + y.mant * 2 ^ (y.exp - e).toNat
  if 0 ≤ e then roundToFloat64 (m * 2 ^ e.toNat) 1 else roundToFloat64 m (2 ^ (-e).toNat)

/-- The conversion `int(x)`: the fractional part is discarded. -/
def toInt (x : Float64) : Int :=
  if 0 ≤ x.exp then (x.mant * 2 ^ x.exp.toNat : Nat) else (x.mant / 2 ^ (-x.exp).toNat : Nat)

/-- The value of `x`, as a rational number. -/
def toRat (x : Float64) : ℚ := (x.mant : ℚ) * (2 : ℚ) ^ x.exp

/-- The number of tenths shown by the verb `%.1f`: the exact decimal expansion of the
value rounded to one digit after the point, an exact tie going to the even digit. -/
def tenths (x : Float64) : Nat :=
  if 0 ≤ x.exp then 10 * x.mant * 2 ^ x.exp.toNat
  else roundHalfEven (10 * x.mant) (2 ^ (-x.exp).toNat)

end Float64

/-- The text of a number of tenths: integer part, a point, one digit. -/
def fmtTenths (t : Nat) : GoString := fmtNat (t / 10) ++ lit "." ++ [digitByte (t % 10)]

/-- The verb `%.1f` of `fmt` applied to a `float64`. -/
def fmtFloat1 (x : Float64) : GoString := fmtTenths x.tenths

/-! ## Human-readable sizes -/

/-- The function `humanSize` of the source. -/
def humanSize (bytes : Int) : GoString :=
  if bytes < 1024 then fmtInt bytes ++ lit " B"
  else if bytes < 1024 * 1024 then
    fmtFloat1 ((Float64.ofInt bytes).divConst 1024) ++ lit " kB"
  else if bytes < 1024 * 1024 * 1024 then
    fmtFloat1 ((Float64.ofInt bytes).divConst (1024 * 1024)) ++ lit " MB"
  else
    fmtFloat1 ((Float64.ofInt bytes).divConst (1024 * 1024 * 1024)) ++ lit " GB"

/-! ## Human-readable times -/

/-- The constant `time.Minute`, in nanoseconds. -/
def Minute : Int := 60 * 1000000000

/-- The constant `time.Hour`, in nanoseconds. -/
def Hour : Int := 60 * Minute

/-- The result of an `int64` computation whose exact value is `x`: the value is kept
modulo `2 ^ 64`, in the range from `-2 ^ 63` to `2 ^ 63 - 1`. -/
def wrapInt64 (x : Int) : Int := (x + 2 ^ 63) % 2 ^ 64 - 2 ^ 63

/-- The constant `unixToInternal` of package `time`: the seconds from January 1 of
year 1 to the Unix epoch. -/
def unixToInternal : Int := (1969 * 365 + 1969 / 4 - 1969 / 100 + 1969 / 400) * 86400

/-- The method `Time.sec`: the seconds since January 1 of year 1, an `int64` that
`time.Unix` and `time.Now` compute as the Unix seconds plus `unixToInternal`. -/
def Time.sec (t : Time) : Int := wrapInt64 (t.unixNano / 1000000000 + unixToInternal)

/-- The method `Time.nsec`: the nanoseconds within the second, from 0 to 999999999. -/
def Time.nsec (t : Time) : Int := t.unixNano % 1000000000

/-- The instants that the library stores without wrap-around: the seconds since
January 1 of year 1 fit in an `int64`, which for an `int64` of Unix seconds means at
most 9223371974719179007. -/
def Time.representable (t : Time) : Prop :=
  -(2 ^ 63) ≤ t.unixNano / 1000000000 + unixToInternal ∧
    t.unixNano / 1000000000 + unixToInternal < 2 ^ 63

instance (t : Time) : Decidable t.representable :=
  inferInstanceAs (Decidable (_ ∧ _))

/-- The method `Time.addSec` for a time without monotonic clock reading, on its
seconds `ext`: the sum `ext + d`, replaced by the largest `int64` or its negation when
the sum overflows. -/
def addSec (ext d : Int) : Int :=
  let sum := wrapInt64 (ext + d)
  if (ext < sum ↔ 0 < d) then sum
  else if 0 < d then 2 ^ 63 - 1
  else -(2 ^ 63 - 1)

/-- The method `Time.Add` for a time without monotonic clock reading; the result is
given by its seconds since year 1 and its nanoseconds. The division and the
remainder of Go truncate toward zero. -/
def Time.Add (t : Time) (d : Int) : Int × Int :=
  let dsec := d.tdiv 1000000000
  let nsec := t.nsec + d.tmod 1000000000
  if 1000000000 ≤ nsec then (addSec t.sec (dsec + 1), nsec - 1000000000)
  else if nsec < 0 then (addSec t.sec (dsec - 1), nsec + 1000000000)
  else (addSec t.sec dsec, nsec)

/-- The method `Time.Sub` when `u` has no monotonic clock reading: the duration
`d = (t.sec - u.sec) * Second + (t.nsec - u.nsec)` computed in `int64`, returned when
`u.Add(d).Equal(t)`; otherwise the smallest `Duration` when `t.Before(u)` and the
largest one if not. -/
def Time.Sub (t u : Time) : Int :=
  let d := wrapInt64 (wrapInt64 (wrapInt64 (t.sec - u.sec) * 1000000000) + (t.nsec - u.nsec))
  if u.Add d = (t.sec, t.nsec) then d
  else if t.sec < u.sec ∨ (t.sec = u.sec ∧ t.nsec < u.nsec) then -(2 ^ 63)
  else 2 ^ 63 - 1

/-- The call `time.Since(t)`, which is `time.Now().Sub(t)`, with the clock reading
`now` made explicit. -/
def timeSince (now t : Time) : Int := now.Sub t

/-- The method `Duration.Minutes` for a non-negative duration:
`min := d / Minute; nsec := d % Minute; float64(min) + float64(nsec)/(60*1e9)`. -/
def durationMinutes (d : Int) : Float64 :=
  let min := d.tdiv Minute
  let nsec := d.tmod Minute
  (Float64.ofInt min).add ((Float64.ofInt nsec).divConst (60 * 1000000000))

/-- The method `Duration.Hours` for a non-negative duration:
`hour := d / Hour; nsec := d % Hour; float64(hour) + float64(nsec)/(60*60*1e9)`. -/
def durationHours (d : Int) : Float64 :=
  let hour := d.tdiv Hour
  let nsec := d.tmod Hour
  (Float64.ofInt hour).add ((Float64.ofInt nsec).divConst (60 * 60 * 1000000000))

/-- The civil date (year, month 1..12, day 1..31) of a day number counted from
1970-01-01, in the proleptic Gregorian calendar. -/
def civilFromDays (days : Int) : Int × Nat × Nat :=
  let z := days + 719468
  let era := z / 146097
  let doe := (z - era * 146097).toNat
  let yoe := (doe - doe / 1460 + doe / 36524 - doe / 146096) / 365
  let doy := doe - (365 * yoe + yoe / 4 - yoe / 100)
  let mp := (5 * doy + 2) / 153
  let d := doy - (153 * mp + 2) / 5 + 1
  let m := if mp < 10 then mp + 3 else mp - 9
  let y : Int := (yoe : Int) + era * 400
  (if m ≤ 2 then y + 1 else y, m, d)

/-- The three-letter English abbreviation of month `m` (layout element `Jan`). -/
def monthAbbrev (m : Nat) : GoString :=
  (["Jan", "Feb", "Mar", "Apr", "May", "Jun", "Jul", "Aug", "Sep", "Oct", "Nov", "Dec"].map
    lit).getD (m - 1) []

/-- A natural number in decimal, padded with zeros on the left to at least `width`
digits. -/
def zeroPad (width n : Nat) : GoString :=
  List.replicate (width - (fmtNat n).length) (digitByte 0) ++ fmtNat n

/-- The sum `unixToInternal + internalToAbsolute` of package `time`: the seconds from
January 1 of the absolute zero year -292277022399 to the Unix epoch. -/
def unixToAbsolute : Int := unixToInternal + 292277022400 * 31556952

/-- The method `Time.unixSec`: `t.sec() + internalToUnix`, in `int64`. -/
def Time.unixSec (t : Time) : Int := wrapInt64 (t.sec - unixToInternal)

/-- The method `Time.abs`: the seconds of `t` in its location counted from the
absolute zero year, as a `uint64`: the zone offset and then the constant are added in
`int64` and the sum is converted. -/
def Time.abs (t : Time) : Int :=
  wrapInt64 (wrapInt64 (t.unixSec + t.zoneOffset) + unixToAbsolute) % 2 ^ 64

/-- The instants whose seconds in their location, counted from the absolute zero
year, fit in a `uint64` without wrap-around: the date shown for them is their own. -/
def Time.dateRepresentable (t : Time) : Prop :=
  0 ≤ t.unixNano / 1000000000 + t.zoneOffset + unixToAbsolute ∧
    t.unixNano / 1000000000 + t.zoneOffset + unixToAbsolute < 2 ^ 64

instance (t : Time) : Decidable t.dateRepresentable :=
  inferInstanceAs (Decidable (_ ∧ _))

/-- The call `t.Format("Jan 02, 2006")`: month abbreviation, two-digit day, a comma
and the year in at least four digits, for the civil date that the library derives from
`t.abs()`: the days since the absolute zero year, here counted from 1970-01-01. -/
def formatDate (t : Time) : GoString :=
  let ymd := civilFromDays (t.abs / 86400 - unixToAbsolute / 86400)
  let year := if ymd.1 < 0 then lit "-" ++ zeroPad 4 ymd.1.natAbs else zeroPad 4 ymd.1.natAbs
  monthAbbrev ymd.2.1 ++ lit " " ++ zeroPad 2 ymd.2.2 ++ lit ", " ++ year

/-- The function `humanTime` of the source, with the clock reading `now` made
explicit. -/
def humanTime (now t : Time) : GoString :=
  let diff := timeSince now t
  if diff < Minute then lit "just now"
  else if diff < Hour then fmtInt (durationMinutes diff).toInt ++ lit " minutes ago"
  else if diff < 24 * Hour then fmtInt (durationHours diff).toInt ++ lit " hours ago"
  else if diff < 30 * 24 * Hour then
    fmtInt ((durationHours diff).divConst 24).toInt ++ lit " days ago"
  else formatDate t

/-! ## Reading the directory and building the rows -/

/-- The part of an `fs.FileInfo` that `readDir` uses: `Size()` and `ModTime()`. -/
structure FileInfo where
  size : Int
  modTime : Time
deriving DecidableEq, Repr

/-- An `os.DirEntry` as `readDir` sees it: `Name()`, `IsDir()`, and the outcome of
`Info()`, which is `none` when the metadata cannot be retrieved. -/
structure DirEntry where
  name : GoString
  isDir : Bool
  info : Option FileInfo
deriving DecidableEq, Repr

/-- The body of the loop of `readDir` for one directory entry: a child whose `Info()`
fails is skipped (`continue`), any other child is appended to `list`. -/
def readDirStep (list : List fileEntry) (entry : DirEntry) : List fileEntry :=
  match entry.info with
  | none => list
  | some info =>
    let ftype := if entry.isDir then lit "folder" else lit "file"
    list ++ [{ name := entry.name, typ := ftype, size := info.size, modified := info.modTime }]

/-- The function `readDir` of the source. The argument is what `os.ReadDir(path)`
returned: the entries and, when the listing failed, the text of the error. The result
is what was written to standard error and the returned list. -/
def readDir (listing : List DirEntry × Option GoString) : GoString × List fileEntry :=
  match listing.2 with
  | some err => (lit "error: " ++ err ++ lit "\n", [])
  | none => ([], listing.1.foldl readDirStep [])

/-- The row that the formatting loop of `main` builds for the entry `f` at position
`i`; `now` is the clock reading of the `time.Since` call made for this row. -/
def formatRow (now : Time) (i : Nat) (f : fileEntry) : List GoString :=
  let rawName :=
    if f.typ = lit "folder" then colorBlue ++ f.name ++ colorReset
    else colorYellow ++ f.name ++ colorReset
  [fmtInt (i : Int), rawName, f.typ, humanSize f.size, humanTime now f.modified]

/-- The formatting loop of `main`: `rows = append(rows, row)` for every entry, starting
from the empty global `rows`. `clock i` is the clock reading while row `i` is built. -/
def formatRows (clock : Nat → Time) (files : List fileEntry) : List (List GoString) :=
  files.enum.foldl (fun rows ifl => rows ++ [formatRow (clock ifl.1) ifl.1 ifl.2]) []

/-- The rows of `main` for a directory listing: read, sort, format. -/
def mainRows (clock : Nat → Time) (listing : List DirEntry × Option GoString) :
    List (List GoString) :=
  formatRows clock (sortFiles (readDir listing).2)

/-- The function `main` of the source for a directory listing: what is written to
standard error, and what is written to standard output (`none` for a panic). -/
def mainOutput (clock : Nat → Time) (listing : List DirEntry × Option GoString) :
    GoString × Option GoString :=
  ((readDir listing).1, renderTable (mainRows clock listing))

/-- A directory child named `a.txt`: a file of 512 bytes modified at `t`. -/
def childFile (t : Time) : DirEntry :=
  { name := lit "a.txt", isDir := false, info := some { size := 512, modTime := t } }

/-- A directory child named `b`: a folder of the given size and modification time. -/
def childFolder (size : Int) (t : Time) : DirEntry :=
  { name := lit "b", isDir := true, info := some { size := size, modTime := t } }

/-- A listing of three children, the middle one with failing metadata retrieval. -/
def sampleListing : List DirEntry :=
  [childFile ⟨1700000000000000000, 0⟩,
   { name := lit "gone", isDir := false, info := none },
   childFolder 4096 ⟨1600000000000000000, 7200⟩]

/-- The result of `os.ReadDir` for a path that cannot be opened and whose name contains
a newline byte: no entries and the error text. -/
def failedListing : List DirEntry × Option GoString :=
  ([], some (lit "open a\nb: no such file or directory"))

/-- Three entries with pairwise different names, in the order of an enumeration. -/
def sampleFiles : List fileEntry :=
  [{ name := lit "a.txt", typ := lit "file", size := 512, modified := ⟨1700000000000000000, 0⟩ },
   { name := lit "b", typ := lit "folder", size := 4096, modified := ⟨1600000000000000000, 0⟩ },
   { name := lit "Makefile", typ := lit "file", size := 90, modified := ⟨1650000000000000000, 0⟩ }]

/-! ## Facts about the string order -/

theorem strLt_irrefl (a : GoString) : strLt a a = false := by
  induction a with
  | nil => rfl
  | cons x xs ih => simp [strLt, ih]

theorem strLt_asymm : ∀ (a b : GoString), strLt a b = true → strLt b a = false
  | [], [], _ => rfl
  | [], _ :: _, _ => rfl
  | _ :: _, [], h => by simp [strLt] at h
  | x :: xs, y :: ys, h => by
    rcases lt_trichotomy x y with hxy | hxy | hxy
    · simp [strLt, hxy, lt_asymm hxy]
    · subst hxy
      simp only [strLt, lt_irrefl, if_false] at h ⊢
      exact strLt_asymm xs ys h
    · simp [strLt, hxy, lt_asymm hxy] at h

theorem strLt_trans : ∀ (a b c : GoString),
    strLt a b = true → strLt b c = true → strLt a c = true
  | [], [], _, h, _ => by simp [strLt] at h
  | [], _ :: _, [], _, h => by simp [strLt] at h
  | [], _ :: _, _ :: _, _, _ => rfl
  | _ :: _, [], _, h, _ => by simp [strLt] at h
  | _ :: _, _ :: _, [], _, h => by simp [strLt] at h
  | x :: xs, y :: ys, z :: zs, h1, h2 => by
    rcases lt_trichotomy x y with hxy | hxy | hxy
    · rcases lt_trichotomy y z with hyz | hyz | hyz
      · simp [strLt, lt_trans hxy hyz]
      · subst hyz; simp [strLt, hxy]
      · simp [strLt, hyz, lt_asymm hyz] at h2
    · subst hxy
      rcases lt_trichotomy x z with hxz | hxz | hxz
      · simp [strLt, hxz]
      · subst hxz
        simp only [strLt, lt_irrefl, if_false] at h1 h2 ⊢
        exact strLt_trans xs ys zs h1 h2
      · simp [strLt, hxz, lt_asymm hxz] at h2
    · simp [strLt, hxy, lt_asymm hxy] at h1

theorem strLt_connex : ∀ (a b : GoString),
    strLt a b = false → strLt b a = false → a = b
  | [], [], _, _ => rfl
  | [], _ :: _, h, _ => by simp [strLt] at h
  | _ :: _, [], _, h => by simp [strLt] at h
  | x :: xs, y :: ys, h1, h2 => by
    rcases lt_trichotomy x y with hxy | hxy | hxy
    · simp [strLt, hxy] at h1
    · subst hxy
      simp only [strLt, lt_irrefl, if_false] at h1 h2
      rw [strLt_connex xs ys h1 h2]
    · simp [strLt, hxy] at h2

/-! ## Facts about the comparator -/

theorem less_eq_true_iff (a b : fileEntry) :
    less a b = true ↔
      (a.typ = lit "folder" ∧ b.typ ≠ lit "folder") ∨
        ((a.typ = lit "folder" ↔ b.typ = lit "folder") ∧ strLt a.name b.name = true) := by
  unfold less
  by_cases ha : a.typ = lit "folder" <;> by_cases hb : b.typ = lit "folder" <;> simp [ha, hb]

theorem less_asymm (a b : fileEntry) (h : less a b = true) : less b a = false := by
  rw [← Bool.not_eq_true, less_eq_true_iff]
  rw [less_eq_true_iff] at h
  rintro (⟨hb, ha⟩ | ⟨hiff2, hba⟩)
  · rcases h with ⟨ha', _⟩ | ⟨hiff, _⟩
    · exact ha ha'
    · exact ha (hiff.mpr hb)
  · rcases h with ⟨ha', hb'⟩ | ⟨_, hab⟩
    · exact hb' (hiff2.mpr ha')
    · rw [strLt_asymm _ _ hab] at hba
      exact Bool.false_ne_true hba

theorem less_negtrans (a b c : fileEntry) (h1 : less a b = false) (h2 : less b c = false) :
    less a c = false := by
  rw [← Bool.not_eq_true, less_eq_true_iff] at h1 h2 ⊢
  rw [not_or] at h1 h2
  obtain ⟨h1k, h1n⟩ := h1
  obtain ⟨h2k, h2n⟩ := h2
  have key : ∀ (hab : a.typ = lit "folder" ↔ b.typ = lit "folder")
      (hbc : b.typ = lit "folder" ↔ c.typ = lit "folder"),
      strLt a.name c.name = true → False := by
    intro hab hbc hac
    have e1 : strLt a.name b.name = false := by
      rw [← Bool.not_eq_true]
      exact fun h => h1n ⟨hab, h⟩
    have e2 : strLt b.name c.name = false := by
      rw [← Bool.not_eq_true]
      exact fun h => h2n ⟨hbc, h⟩
    by_cases hba : strLt b.name a.name = true
    · rw [strLt_trans _ _ _ hba hac] at e2
      exact Bool.noConfusion e2
    · rw [Bool.not_eq_true] at hba
      rw [strLt_connex _ _ e1 hba] at hac
      rw [hac] at e2
      exact Bool.noConfusion e2
  rintro (⟨ha, hc⟩ | ⟨hiff, hac⟩)
  · by_cases hb : b.typ = lit "folder"
    · exact h2k ⟨hb, hc⟩
    · exact h1k ⟨ha, hb⟩
  · by_cases ha : a.typ = lit "folder"
    · have hc : c.typ = lit "folder" := hiff.mp ha
      by_cases hb : b.typ = lit "folder"
      · exact key ⟨fun _ => hb, fun _ => ha⟩ ⟨fun _ => hc, fun _ => hb⟩ hac
      · exact h1k ⟨ha, hb⟩
    · have hc : ¬ c.typ = lit "folder" := fun hc => ha (hiff.mpr hc)
      by_cases hb : b.typ = lit "folder"
      · exact h2k ⟨hb, hc⟩
      · exact key ⟨fun h => absurd h ha, fun h => absurd h hb⟩
          ⟨fun h => absurd h hb, fun h => absurd h hc⟩ hac

/-! ## Facts about the stable sort -/

section StableSort

variable {α : Type} (lessFn : α → α → Bool)

theorem sinkLeft_perm (x : α) (l : List α) : (sinkLeft lessFn x l).Perm (x :: l) := by
  induction l with
  | nil => exact List.Perm.refl _
  | cons p ps ih =>
    unfold sinkLeft
    split
    · exact (List.Perm.cons p ih).trans (List.Perm.swap x p ps)
    · exact List.Perm.refl _

theorem foldl_sinkLeft_perm (l acc : List α) :
    (l.foldl (fun done e => sinkLeft lessFn e done) acc).Perm (l ++ acc) := by
  induction l generalizing acc with
  | nil => exact List.Perm.refl _
  | cons x xs ih =>
    rw [List.foldl_cons]
    refine (ih _).trans ?_
    refine (List.Perm.append_left xs (sinkLeft_perm lessFn x acc)).trans ?_
    exact List.perm_middle

theorem SliceStable_perm (l : List α) : (SliceStable l lessFn).Perm l := by
  unfold SliceStable
  refine (List.reverse_perm _).trans ?_
  simpa using foldl_sinkLeft_perm lessFn l []

theorem sinkLeft_descending
    (hasymm : ∀ a b, lessFn a b = true → lessFn b a = false)
    (hneg : ∀ a b c, lessFn a b = false → lessFn b c = false → lessFn a c = false)
    (x : α) (l : List α) (hl : l.Pairwise (fun a b => lessFn a b = false)) :
    (sinkLeft lessFn x l).Pairwise (fun a b => lessFn a b = false) := by
  induction l with
  | nil => simp [sinkLeft]
  | cons p ps ih =>
    rw [List.pairwise_cons] at hl
    unfold sinkLeft
    by_cases hxp : lessFn x p = true
    · rw [if_pos hxp, List.pairwise_cons]
      refine ⟨?_, ih hl.2⟩
      intro y hy
      have hy2 := (sinkLeft_perm lessFn x ps).mem_iff.mp hy
      rw [List.mem_cons] at hy2
      rcases hy2 with rfl | hy2
      · exact hasymm _ _ hxp
      · exact hl.1 y hy2
    · rw [if_neg hxp, List.pairwise_cons]
      rw [Bool.not_eq_true] at hxp
      refine ⟨?_, List.pairwise_cons.mpr hl⟩
      intro y hy
      rw [List.mem_cons] at hy
      rcases hy with rfl | hy
      · exact hxp
      · exact hneg _ _ _ hxp (hl.1 y hy)

theorem foldl_sinkLeft_descending
    (hasymm : ∀ a b, lessFn a b = true → lessFn b a = false)
    (hneg : ∀ a b c, lessFn a b = false → lessFn b c = false → lessFn a c = false)
    (l acc : List α) (hacc : acc.Pairwise (fun a b => lessFn a b = false)) :
    (l.foldl (fun done e => sinkLeft lessFn e done) acc).Pairwise
      (fun a b => lessFn a b = false) := by
  induction l generalizing acc with
  | nil => exact hacc
  | cons x xs ih =>
    rw [List.foldl_cons]
    exact ih _ (sinkLeft_descending lessFn hasymm hneg x acc hacc)

theorem SliceStable_sorted
    (hasymm : ∀ a b, lessFn a b = true → lessFn b a = false)
    (hneg : ∀ a b c, lessFn a b = false → lessFn b c = false → lessFn a c = false)
    (l : List α) : (SliceStable l lessFn).Pairwise (fun a b => lessFn b a = false) := by
  unfold SliceStable
  rw [List.pairwise_reverse]
  exact foldl_sinkLeft_descending lessFn hasymm hneg l [] List.Pairwise.nil

theorem sinkLeft_filter (q : α → Bool)
    (hq : ∀ a b, q a = true → q b = true → lessFn a b = false)
    (x : α) (l : List α) :
    (sinkLeft lessFn x l).reverse.filter q = (l.reverse ++ [x]).filter q := by
  induction l with
  | nil => simp [sinkLeft]
  | cons p ps ih =>
    unfold sinkLeft
    by_cases hxp : lessFn x p = true
    · rw [if_pos hxp, List.reverse_cons, List.filter_append, ih]
      simp only [List.filter_append, List.reverse_cons, List.append_assoc]
      congr 1
      by_cases qx : q x = true
      · by_cases qp : q p = true
        · rw [hq x p qx qp] at hxp
          exact absurd hxp Bool.false_ne_true
        · simp [List.filter, qx, qp]
      · simp [List.filter, qx]
    · rw [if_neg hxp]
      simp

theorem foldl_sinkLeft_filter (q : α → Bool)
    (hq : ∀ a b, q a = true → q b = true → lessFn a b = false)
    (l acc : List α) :
    (l.foldl (fun done e => sinkLeft lessFn e done) acc).reverse.filter q =
      (acc.reverse ++ l).filter q := by
  induction l generalizing acc with
  | nil => simp
  | cons x xs ih =>
    rw [List.foldl_cons, ih, List.filter_append, sinkLeft_filter lessFn q hq]
    rw [List.filter_append, List.filter_append, List.append_assoc, ← List.filter_append]
    rfl

theorem SliceStable_filter (q : α → Bool)
    (hq : ∀ a b, q a = true → q b = true → lessFn a b = false)
    (l : List α) : (SliceStable l lessFn).filter q = l.filter q := by
  unfold SliceStable
  rw [foldl_sinkLeft_filter lessFn q hq]
  simp

end StableSort

/-! ## A stable sort is determined by its contract -/

section StableUnique

variable {α : Type} (lessFn : α → α → Bool)

theorem filter_class_cons_pos (e x : α) (l : List α)
    (h : (!lessFn e x && !lessFn x e) = true) :
    (x :: l).filter (fun y => !lessFn e y && !lessFn y e) =
      x :: l.filter (fun y => !lessFn e y && !lessFn y e) := by
  rw [List.filter_cons, if_pos h]

theorem filter_class_cons_neg (e x : α) (l : List α)
    (h : ¬ (!lessFn e x && !lessFn x e) = true) :
    (x :: l).filter (fun y => !lessFn e y && !lessFn y e) =
      l.filter (fun y => !lessFn e y && !lessFn y e) := by
  rw [List.filter_cons, if_neg h]

/-- Two sorted lists in which every class of mutually indistinguishable elements
appears in the same order are equal: for a strict weak order the contract of a stable
sort determines its result, whatever algorithm computes it. -/
theorem sorted_stable_unique
    (hasymm : ∀ a b, lessFn a b = true → lessFn b a = false) :
    ∀ (l1 l2 : List α),
      l1.Pairwise (fun a b => lessFn b a = false) →
      l2.Pairwise (fun a b => lessFn b a = false) →
      (∀ e, l1.filter (fun x => !lessFn e x && !lessFn x e) =
        l2.filter (fun x => !lessFn e x && !lessFn x e)) →
      l1 = l2 := by
  have hirr : ∀ a, lessFn a a = false := by
    intro a
    by_contra h
    rw [Bool.not_eq_false] at h
    rw [hasymm a a h] at h
    exact Bool.false_ne_true h
  have hself : ∀ a, (!lessFn a a && !lessFn a a) = true := by
    intro a
    rw [hirr a]
    rfl
  intro l1
  induction l1 with
  | nil =>
    intro l2 _ _ hf
    cases l2 with
    | nil => rfl
    | cons b l2 =>
      have := hf b
      rw [filter_class_cons_pos lessFn _ _ _ (hself b)] at this
      exact List.noConfusion this
  | cons a l1 ih =>
    intro l2 h1 h2 hf
    cases l2 with
    | nil =>
      have := hf a
      rw [filter_class_cons_pos lessFn _ _ _ (hself a)] at this
      exact List.noConfusion this
    | cons b l2 =>
      rw [List.pairwise_cons] at h1 h2
      have hab : (!lessFn a b && !lessFn b a) = true := by
        by_contra hn
        rw [Bool.not_eq_true] at hn
        have hn' : (!lessFn b a && !lessFn a b) = false := by rw [Bool.and_comm]; exact hn
        have ha := hf a
        rw [filter_class_cons_pos lessFn _ _ _ (hself a), filter_class_cons_neg lessFn _ _ _ (by rw [hn]; exact Bool.false_ne_true)] at ha
        have hamem : a ∈ l2 := by
          have : a ∈ List.filter (fun x => !lessFn a x && !lessFn x a) l2 := by
            rw [← ha]
            exact List.mem_cons_self _ _
          exact (List.mem_filter.mp this).1
        have hb := hf b
        rw [filter_class_cons_pos lessFn _ _ _ (hself b),
          filter_class_cons_neg lessFn _ _ _ (by rw [hn']; exact Bool.false_ne_true)] at hb
        have hbmem : b ∈ l1 := by
          have : b ∈ List.filter (fun x => !lessFn b x && !lessFn x b) l1 := by
            rw [hb]
            exact List.mem_cons_self _ _
          exact (List.mem_filter.mp this).1
        have e1 := h2.1 a hamem
        have e2 := h1.1 b hbmem
        rw [e1, e2] at hn
        exact Bool.noConfusion hn
      have ha := hf a
      rw [filter_class_cons_pos lessFn _ _ _ (hself a), filter_class_cons_pos lessFn _ _ _ hab] at ha
      have heq : a = b := (List.cons.inj ha).1
      subst heq
      have htail : ∀ e, l1.filter (fun x => !lessFn e x && !lessFn x e) =
          l2.filter (fun x => !lessFn e x && !lessFn x e) := by
        intro e
        have he := hf e
        by_cases hc : (!lessFn e a && !lessFn a e) = true
        · rw [filter_class_cons_pos lessFn _ _ _ hc, filter_class_cons_pos lessFn _ _ _ hc] at he
          exact (List.cons.inj he).2
        · rw [filter_class_cons_neg lessFn _ _ _ hc, filter_class_cons_neg lessFn _ _ _ hc] at he
          exact he
      rw [ih l2 h1.2 h2.2 htail]

/-- Every list that meets the contract of `sort.SliceStable` for the input `l` (it is
sorted and keeps each class of indistinguishable elements in input order) is the list
the embedding returns. -/
theorem SliceStable_unique
    (hasymm : ∀ a b, lessFn a b = true → lessFn b a = false)
    (hneg : ∀ a b c, lessFn a b = false → lessFn b c = false → lessFn a c = false)
    (l out : List α)
    (hsorted : out.Pairwise (fun a b => lessFn b a = false))
    (hstable : ∀ e, out.filter (fun x => !lessFn e x && !lessFn x e) =
      l.filter (fun x => !lessFn e x && !lessFn x e)) :
    out = SliceStable l lessFn := by
  refine sorted_stable_unique lessFn hasymm out _ hsorted
    (SliceStable_sorted lessFn hasymm hneg l) (fun e => ?_)
  rw [hstable e]
  refine (SliceStable_filter lessFn _ ?_ l).symm
  intro a b ha hb
  simp only [Bool.and_eq_true, Bool.not_eq_true'] at ha hb
  exact hneg a e b ha.2 hb.1

end StableUnique

/-! ## The sorting step of `main` -/

theorem less_eq_false_iff_both (a b : fileEntry) :
    (less a b = false ∧ less b a = false) ↔
      ((a.typ = lit "folder" ↔ b.typ = lit "folder") ∧ a.name = b.name) := by
  constructor
  · rintro ⟨hab, hba⟩
    rw [← Bool.not_eq_true, less_eq_true_iff, not_or] at hab hba
    have hk : a.typ = lit "folder" ↔ b.typ = lit "folder" := by
      constructor
      · intro ha
        by_contra hb
        exact hab.1 ⟨ha, hb⟩
      · intro hb
        by_contra ha
        exact hba.1 ⟨hb, ha⟩
    refine ⟨hk, strLt_connex _ _ ?_ ?_⟩
    · rw [← Bool.not_eq_true]
      exact fun h => hab.2 ⟨hk, h⟩
    · rw [← Bool.not_eq_true]
      exact fun h => hba.2 ⟨hk.symm, h⟩
  · rintro ⟨hk, hn⟩
    have irr : strLt b.name b.name = false := strLt_irrefl _
    constructor <;> rw [← Bool.not_eq_true, less_eq_true_iff, not_or]
    · refine ⟨fun h => h.2 (hk.mp h.1), ?_⟩
      rintro ⟨_, h⟩
      rw [hn, irr] at h
      exact Bool.noConfusion h
    · refine ⟨fun h => h.2 (hk.mpr h.1), ?_⟩
      rintro ⟨_, h⟩
      rw [hn, irr] at h
      exact Bool.noConfusion h

/-- C1: in the sorted output every folder precedes every entry that is not a folder
(so no file is ever followed by a folder), and whenever two entries of the same kind
occur one before the other, the name of the later one is not byte-wise smaller than
the name of the earlier one. -/
theorem sortFiles_folders_first_then_by_name (files : List fileEntry) :
    (sortFiles files).Pairwise (fun a b =>
      (b.typ = lit "folder" → a.typ = lit "folder") ∧
      ((a.typ = lit "folder" ↔ b.typ = lit "folder") → strLt b.name a.name = false)) := by
  have h := SliceStable_sorted less less_asymm less_negtrans files
  refine List.Pairwise.imp ?_ h
  intro a b hba
  rw [← Bool.not_eq_true, less_eq_true_iff, not_or] at hba
  refine ⟨fun hb => ?_, fun hk => ?_⟩
  · by_contra ha
    exact hba.1 ⟨hb, ha⟩
  · rw [← Bool.not_eq_true]
    exact fun hlt => hba.2 ⟨hk.symm, hlt⟩

/-- C2: the sorted list has the length of the input and is a permutation of it; every
entry occurs in it exactly as often as in the input. -/
theorem sortFiles_length_perm (files : List fileEntry) :
    (sortFiles files).length = files.length ∧
    (sortFiles files).Perm files ∧
    ∀ e : fileEntry, (sortFiles files).count e = files.count e := by
  have h : (sortFiles files).Perm files := SliceStable_perm less files
  exact ⟨h.length_eq, h, fun e => h.count_eq e⟩

/-- C3: the sort is stable. For every entry `e`, the entries that the comparator does
not distinguish from `e` appear in the output in exactly the order (and number) in
which they appear in the input, whatever their size and modification time; and the
comparator fails to distinguish two entries exactly when they agree on being a
folder and have the same name. -/
theorem sortFiles_stable (files : List fileEntry) :
    (∀ e : fileEntry,
      (sortFiles files).filter (fun x => !less e x && !less x e) =
        files.filter (fun x => !less e x && !less x e)) ∧
    (∀ a b : fileEntry, (less a b = false ∧ less b a = false) ↔
      ((a.typ = lit "folder" ↔ b.typ = lit "folder") ∧ a.name = b.name)) := by
  refine ⟨fun e => ?_, less_eq_false_iff_both⟩
  refine SliceStable_filter less _ ?_ files
  intro a b ha hb
  simp only [Bool.and_eq_true, Bool.not_eq_true'] at ha hb
  exact less_negtrans a e b ha.2 hb.1

/-! ## Deleting colour sequences -/

theorem takeWhile_param_append (c : Byte) (hc : isParamByte c = false)
    (rest t : GoString) :
    (rest ++ c :: t).takeWhile isParamByte = rest.takeWhile isParamByte := by
  induction rest with
  | nil => simp [List.takeWhile, hc]
  | cons x xs ih =>
    by_cases hx : isParamByte x = true
    · simp [List.takeWhile, hx, ih]
    · simp [List.takeWhile, hx]

theorem length_takeWhile_le (p : Byte → Bool) (l : GoString) :
    (l.takeWhile p).length ≤ l.length := by
  induction l with
  | nil => simp
  | cons x xs ih =>
    by_cases hx : p x = true
    · simp [List.takeWhile, hx, ih]
    · simp [List.takeWhile, hx]

theorem ansiMatchLen_append (c : Byte) (hc : Inert c) (t : GoString) :
    ∀ s : GoString, s ≠ [] → ansiMatchLen (s ++ c :: t) = ansiMatchLen s
  | [], h => absurd rfl h
  | [e], _ => by
    have h1 := hc.1
    simp [ansiMatchLen, h1]
  | e :: b :: rest, _ => by
    have hlen := length_takeWhile_le isParamByte rest
    simp only [List.cons_append, ansiMatchLen]
    by_cases h : e.val = 0x1b ∧ b.val = 0x5b
    · rw [if_pos h, if_pos h, takeWhile_param_append c hc.2.2,
        List.drop_append_of_le_length hlen]
      cases hd : rest.drop (rest.takeWhile isParamByte).length with
      | nil => simp [hc.2.1]
      | cons m r => simp
    · rw [if_neg h, if_neg h]

theorem ansiMatchLen_bounds (s : GoString) (n : Nat) (h : ansiMatchLen s = some n) :
    1 ≤ n ∧ n ≤ s.length := by
  match s, h with
  | e :: b :: rest, h =>
    simp only [ansiMatchLen] at h
    split_ifs at h with h1
    cases hd : rest.drop (rest.takeWhile isParamByte).length with
    | nil => rw [hd] at h; simp at h
    | cons m r =>
      rw [hd] at h
      simp only at h
      split_ifs at h
      have hlt : (rest.takeWhile isParamByte).length < rest.length := by
        by_contra hge
        rw [List.drop_eq_nil_of_le (Nat.le_of_not_lt hge)] at hd
        exact List.noConfusion hd
      injection h with h
      simp only [List.length_cons]
      omega

theorem replaceAllAnsi_of_none (c : Byte) (rest : GoString)
    (h : ansiMatchLen (c :: rest) = none) :
    replaceAllAnsi 0 (c :: rest) = c :: replaceAllAnsi 0 rest := by
  simp only [replaceAllAnsi, h]

theorem replaceAllAnsi_of_some (c : Byte) (rest : GoString) (n : Nat)
    (h : ansiMatchLen (c :: rest) = some n) :
    replaceAllAnsi 0 (c :: rest) = replaceAllAnsi (n - 1) rest := by
  simp only [replaceAllAnsi, h]

theorem replaceAllAnsi_succ_cons (k : Nat) (c : Byte) (rest : GoString) :
    replaceAllAnsi (k + 1) (c :: rest) = replaceAllAnsi k rest := by
  simp only [replaceAllAnsi]

theorem replaceAllAnsi_append (c : Byte) (hc : Inert c) (t : GoString) :
    ∀ (s : GoString) (k : Nat), k ≤ s.length →
      replaceAllAnsi k (s ++ c :: t) = replaceAllAnsi k s ++ replaceAllAnsi 0 (c :: t)
  | [], k, hk => by
    have : k = 0 := by simpa using hk
    subst this
    simp [replaceAllAnsi]
  | a :: s, k + 1, hk => by
    rw [List.cons_append, replaceAllAnsi_succ_cons, replaceAllAnsi_succ_cons]
    exact replaceAllAnsi_append c hc t s k (by simpa using hk)
  | a :: s, 0, _ => by
    have hm := ansiMatchLen_append c hc t (a :: s) (List.cons_ne_nil _ _)
    rw [List.cons_append] at hm ⊢
    cases hn : ansiMatchLen (a :: s) with
    | none =>
      rw [hn] at hm
      rw [replaceAllAnsi_of_none _ _ hm, replaceAllAnsi_of_none _ _ hn, List.cons_append,
        replaceAllAnsi_append c hc t s 0 (Nat.zero_le _)]
    | some n =>
      rw [hn] at hm
      have hb := ansiMatchLen_bounds _ _ hn
      have hb2 : n - 1 ≤ s.length := by
        have := hb.2
        simp only [List.length_cons] at this
        omega
      rw [replaceAllAnsi_of_some _ _ _ hm, replaceAllAnsi_of_some _ _ _ hn]
      exact replaceAllAnsi_append c hc t s (n - 1) hb2

theorem visualLength_append_inert (c : Byte) (hc : Inert c) (s t : GoString) :
    visualLength (s ++ c :: t) = visualLength s + visualLength (c :: t) := by
  unfold visualLength
  rw [replaceAllAnsi_append c hc t s 0 (Nat.zero_le _), List.length_append]

theorem visualLength_colorBlue_append (s : GoString) :
    visualLength (colorBlue ++ s) = visualLength s := rfl

theorem visualLength_colorYellow_append (s : GoString) :
    visualLength (colorYellow ++ s) = visualLength s := rfl

theorem visualLength_append_colorReset (s : GoString) :
    visualLength (s ++ colorReset) = visualLength s := by
  have h : colorReset = (0x1b : Byte) :: lit "[0m" := by decide
  rw [h, visualLength_append_inert _ ⟨by decide, by decide, by decide⟩ s]
  rfl

/-- C6: for every name, also one that contains escape bytes or pieces of colour
sequences, wrapping it between the folder colour (or the file colour) and the reset
sequence leaves its visual width unchanged. -/
theorem visualLength_colored_name (name : GoString) :
    visualLength (colorBlue ++ name ++ colorReset) = visualLength name ∧
    visualLength (colorYellow ++ name ++ colorReset) = visualLength name := by
  constructor
  · rw [List.append_assoc, visualLength_colorBlue_append, visualLength_append_colorReset]
  · rw [List.append_assoc, visualLength_colorYellow_append, visualLength_append_colorReset]

/-! ## The measure phase -/

theorem measureHeader_init : measureHeader colWidthsInit = [1, 4, 4, 4, 8] := by decide

theorem visualLength_header :
    header.map visualLength = [1, 4, 4, 4, 8] := by decide

theorem measureCells_five (a b c d e : GoString) (w0 w1 w2 w3 w4 : Nat) :
    measureCells 0 [a, b, c, d, e] [w0, w1, w2, w3, w4] =
      some [max w0 (visualLength a), max w1 (visualLength b), max w2 (visualLength c),
        max w3 (visualLength d), max w4 (visualLength e)] := by
  simp only [measureCells, List.length_cons, List.length_nil, Nat.zero_add, Nat.reduceAdd,
    Nat.lt_add_one, Nat.reduceLT, dite_true, List.getElem_cons_zero, List.getElem_cons_succ,
    List.set_cons_zero, List.set_cons_succ, gt_iff_lt]
  split_ifs <;> simp <;> omega

theorem list_eq_five {α : Type} (l : List α) (h : l.length = 5) :
    ∃ a b c d e, l = [a, b, c, d, e] := by
  rcases l with _ | ⟨a, _ | ⟨b, _ | ⟨c, _ | ⟨d, _ | ⟨e, _ | ⟨f, l⟩⟩⟩⟩⟩⟩
  all_goals simp at h
  exact ⟨a, b, c, d, e, rfl⟩

theorem measureRows_spec : ∀ (rows : List (List GoString)) (w : List Nat),
    w.length = 5 → (∀ row ∈ rows, row.length = 5) →
    ∃ w', measureRows rows w = some w' ∧ w'.length = 5 ∧
      ∀ i, i < 5 →
        w.getD i 0 ≤ w'.getD i 0 ∧
        (∀ row ∈ rows, visualLength (row.getD i []) ≤ w'.getD i 0) ∧
        (w'.getD i 0 = w.getD i 0 ∨ ∃ row ∈ rows, w'.getD i 0 = visualLength (row.getD i []))
  | [], w, hw, _ => ⟨w, rfl, hw, fun i _ => ⟨le_refl _, by simp, Or.inl rfl⟩⟩
  | row :: rows, w, hw, hrows => by
    obtain ⟨a, b, c, d, e, rfl⟩ := list_eq_five row (hrows row (List.mem_cons_self _ _))
    obtain ⟨w0, w1, w2, w3, w4, rfl⟩ := list_eq_five w hw
    obtain ⟨w', hw', hlen, hspec⟩ := measureRows_spec rows
      [max w0 (visualLength a), max w1 (visualLength b), max w2 (visualLength c),
        max w3 (visualLength d), max w4 (visualLength e)] rfl
      (fun r hr => hrows r (List.mem_cons_of_mem _ hr))
    refine ⟨w', ?_, hlen, ?_⟩
    · rw [measureRows, measureCells_five, Option.some_bind, hw']
    · intro i hi
      obtain ⟨h1, h2, h3⟩ := hspec i hi
      have hstep : ([max w0 (visualLength a), max w1 (visualLength b),
          max w2 (visualLength c), max w3 (visualLength d),
          max w4 (visualLength e)] : List Nat).getD i 0 =
          max (([w0, w1, w2, w3, w4] : List Nat).getD i 0)
            (visualLength (([a, b, c, d, e] : List GoString).getD i [])) := by
        interval_cases i <;> rfl
      rw [hstep] at h1 h3
      refine ⟨le_trans (le_max_left _ _) h1, ?_, ?_⟩
      · intro r hr
        rw [List.mem_cons] at hr
        rcases hr with rfl | hr
        · exact le_trans (le_max_right _ _) h1
        · exact h2 r hr
      · rcases h3 with h3 | ⟨r, hr, h3⟩
        · rcases max_choice (([w0, w1, w2, w3, w4] : List Nat).getD i 0)
            (visualLength (([a, b, c, d, e] : List GoString).getD i [])) with hm | hm
          · left; rw [h3, hm]
          · right; exact ⟨_, List.mem_cons_self _ _, by rw [h3, hm]⟩
        · right; exact ⟨r, List.mem_cons_of_mem _ hr, h3⟩

/-- C7: after the measure phase on rows of five cells, the width table has five
entries and, for each column `i`, `colWidths[i]` is the maximum of the visual width
of header label `i` and the visual widths of cell `i` of all rows: it is at least
each of them and equal to one of them. For no rows it is the table of the header
widths, 1, 4, 4, 4, 8. -/
theorem measure_is_column_maximum (rows : List (List GoString))
    (h5 : ∀ row ∈ rows, row.length = 5) :
    (∃ colWidths, measure rows = some colWidths ∧ colWidths.length = 5 ∧
      ∀ i, i < 5 →
        visualLength (header.getD i []) ≤ colWidths.getD i 0 ∧
        (∀ row ∈ rows, visualLength (row.getD i []) ≤ colWidths.getD i 0) ∧
        (colWidths.getD i 0 = visualLength (header.getD i []) ∨
          ∃ row ∈ rows, colWidths.getD i 0 = visualLength (row.getD i []))) ∧
    measure [] = some [1, 4, 4, 4, 8] := by
  refine ⟨?_, by decide⟩
  obtain ⟨w', hw', hlen, hspec⟩ := measureRows_spec rows (measureHeader colWidthsInit)
    (by decide) h5
  refine ⟨w', hw', hlen, fun i hi => ?_⟩
  have hh : (measureHeader colWidthsInit).getD i 0 = visualLength (header.getD i []) := by
    interval_cases i <;> decide
  rw [← hh]
  exact hspec i hi

/-- Witness for C7: a table of two rows. -/
theorem measure_is_column_maximum_witness :
    (∀ row ∈ sampleRows, row.length = 5) ∧
    ((∃ colWidths, measure sampleRows = some colWidths ∧ colWidths.length = 5 ∧
      ∀ i, i < 5 →
        visualLength (header.getD i []) ≤ colWidths.getD i 0 ∧
        (∀ row ∈ sampleRows, visualLength (row.getD i []) ≤ colWidths.getD i 0) ∧
        (colWidths.getD i 0 = visualLength (header.getD i []) ∨
          ∃ row ∈ sampleRows, colWidths.getD i 0 = visualLength (row.getD i []))) ∧
    measure [] = some [1, 4, 4, 4, 8]) :=
  ⟨by decide, measure_is_column_maximum sampleRows (by decide)⟩

/-! ## The print phase -/

theorem replaceAllAnsi_cons_of_ne_esc (c : Byte) (hc : c.val ≠ 0x1b) (t : GoString) :
    replaceAllAnsi 0 (c :: t) = c :: replaceAllAnsi 0 t := by
  apply replaceAllAnsi_of_none
  cases t with
  | nil => rfl
  | cons b rest => simp [ansiMatchLen, hc]

theorem visualLength_cons_of_ne_esc (c : Byte) (hc : c.val ≠ 0x1b) (t : GoString) :
    visualLength (c :: t) = visualLength t + 1 := by
  unfold visualLength
  rw [replaceAllAnsi_cons_of_ne_esc c hc t, List.length_cons]

theorem lit_space : lit " " = [(0x20 : Byte)] := by decide

theorem lit_space_bar : lit " │" = [(0x20 : Byte), 0xE2, 0x94, 0x82] := by decide

theorem lit_bar : lit "│" = [(0xE2 : Byte), 0x94, 0x82] := by decide

theorem repeatString_zero (s : GoString) : repeatString s 0 = [] := rfl

theorem repeatString_succ (s : GoString) (n : Nat) :
    repeatString s (n + 1) = s ++ repeatString s n := by
  simp [repeatString, List.replicate_succ]

theorem repeatString_space_succ (n : Nat) :
    repeatString (lit " ") (n + 1) = (0x20 : Byte) :: repeatString (lit " ") n := by
  rw [repeatString_succ]
  rfl

theorem visualLength_spaces_append (t : GoString) (n : Nat) :
    visualLength (repeatString (lit " ") n ++ t) = n + visualLength t := by
  induction n with
  | zero => simp [repeatString_zero]
  | succ n ih =>
    rw [repeatString_space_succ, List.cons_append,
      visualLength_cons_of_ne_esc _ (by decide), ih]
    omega

theorem visualLength_space_bar_append (t : GoString) :
    visualLength (lit " │" ++ t) = 4 + visualLength t := by
  rw [lit_space_bar]
  simp only [List.cons_append, List.nil_append]
  rw [visualLength_cons_of_ne_esc _ (by decide), visualLength_cons_of_ne_esc _ (by decide),
    visualLength_cons_of_ne_esc _ (by decide), visualLength_cons_of_ne_esc _ (by decide)]
  omega

theorem visualLength_nil : visualLength [] = 0 := rfl

theorem visualLength_padded (col t : GoString) (n : Nat) :
    visualLength (col ++ (repeatString (lit " ") n ++ (lit " │" ++ t))) =
      visualLength col + n + 4 + visualLength t := by
  have htail : visualLength (repeatString (lit " ") n ++ (lit " │" ++ t)) =
      n + 4 + visualLength t := by
    rw [visualLength_spaces_append, visualLength_space_bar_append]
    omega
  have hhead : ∃ T, repeatString (lit " ") n ++ (lit " │" ++ t) = (0x20 : Byte) :: T := by
    cases n with
    | zero => exact ⟨_, by rw [repeatString_zero, lit_space_bar]; rfl⟩
    | succ n => exact ⟨_, by rw [repeatString_space_succ]; rfl⟩
  obtain ⟨T, hT⟩ := hhead
  rw [hT] at htail ⊢
  rw [visualLength_append_inert _ ⟨by decide, by decide, by decide⟩, htail]
  omega

theorem visualLength_append_spaces (col : GoString) (n : Nat) :
    visualLength (col ++ repeatString (lit " ") n) = visualLength col + n := by
  cases n with
  | zero => rw [repeatString_zero, List.append_nil, Nat.add_zero]
  | succ n =>
    have h := visualLength_spaces_append [] (n + 1)
    rw [List.append_nil, repeatString_space_succ, visualLength_nil] at h
    rw [repeatString_space_succ,
      visualLength_append_inert _ ⟨by decide, by decide, by decide⟩, h]

theorem padCell_of_fit (colWidths : List Nat) (i w : Nat) (col : GoString)
    (hw : colWidths[i]? = some w) (hfit : visualLength col ≤ w) :
    padCell colWidths i col =
      some (col ++ repeatString (lit " ") (w - visualLength col)) := by
  unfold padCell
  rw [hw]
  have hnn : ¬ ((w : Int) - (visualLength col : Int) < 0) := by omega
  have hnat : ((w : Int) - (visualLength col : Int)).toNat = w - visualLength col := by omega
  simp only [stringsRepeat, if_neg hnn, Option.map_some', hnat]

theorem printRowCells_of_fit (colWidths : List Nat) :
    ∀ (cols : List GoString) (i : Nat),
      i + cols.length ≤ colWidths.length →
      (∀ j, j < cols.length → visualLength (cols.getD j []) ≤ colWidths.getD (i + j) 0) →
      ∃ cells, printRowCells colWidths i cols = some cells ∧
        visualLength cells = (((colWidths.drop i).take cols.length).map (· + 5)).sum
  | [], i, _, _ => ⟨[], rfl, by simp [visualLength_nil]⟩
  | col :: cols, i, hlen, hfit => by
    simp only [List.length_cons] at hlen hfit
    have hi : i < colWidths.length := by omega
    have hw : colWidths[i]? = some colWidths[i] := List.getElem?_eq_getElem hi
    have hcol : visualLength col ≤ colWidths[i] := by
      have := hfit 0 (by omega)
      simpa [List.getD_eq_getElem?_getD, hw] using this
    obtain ⟨more, hmore, hvl⟩ := printRowCells_of_fit colWidths cols (i + 1) (by omega)
      (fun j hj => by
        have := hfit (j + 1) (by omega)
        simpa [Nat.add_assoc, Nat.add_comm 1 j] using this)
    refine ⟨lit " " ++ (col ++ repeatString (lit " ") (colWidths[i] - visualLength col))
      ++ lit " │" ++ more, ?_, ?_⟩
    · rw [printRowCells, padCell_of_fit colWidths i _ col hw hcol, hmore]
      rfl
    · have hshape : lit " " ++ (col ++ repeatString (lit " ") (colWidths[i] - visualLength col))
          ++ lit " │" ++ more =
          (0x20 : Byte) :: (col ++ (repeatString (lit " ") (colWidths[i] - visualLength col)
            ++ (lit " │" ++ more))) := by
        simp [lit_space]
      rw [hshape, visualLength_cons_of_ne_esc _ (by decide), visualLength_padded, hvl,
        List.drop_eq_getElem_cons hi]
      simp only [List.length_cons, List.take_succ_cons, List.map_cons, List.sum_cons]
      omega

theorem fmtPadRight_eq (w : Nat) (h : GoString) (hr : runeCount 0 h = visualLength h) :
    fmtPadRight w h = h ++ repeatString (lit " ") (w - visualLength h) := by
  rw [fmtPadRight, hr]

theorem printHeaderCells_eq_printRowCells (colWidths : List Nat) :
    ∀ (hs : List GoString) (i : Nat),
      i + hs.length ≤ colWidths.length →
      (∀ j, j < hs.length → visualLength (hs.getD j []) ≤ colWidths.getD (i + j) 0) →
      (∀ h ∈ hs, runeCount 0 h = visualLength h) →
      printHeaderCells colWidths i hs = printRowCells colWidths i hs
  | [], _, _, _, _ => rfl
  | h :: hs, i, hlen, hfit, hrune => by
    simp only [List.length_cons] at hlen hfit
    have hi : i < colWidths.length := by omega
    have hw : colWidths[i]? = some colWidths[i] := List.getElem?_eq_getElem hi
    have hcol : visualLength h ≤ colWidths[i] := by
      have := hfit 0 (by omega)
      simpa [List.getD_eq_getElem?_getD, hw] using this
    have ih := printHeaderCells_eq_printRowCells colWidths hs (i + 1) (by omega)
      (fun j hj => by
        have := hfit (j + 1) (by omega)
        simpa [Nat.add_assoc, Nat.add_comm 1 j] using this)
      (fun h' hh' => hrune h' (List.mem_cons_of_mem _ hh'))
    rw [printHeaderCells, printRowCells, padCell_of_fit colWidths i _ h hw hcol, hw, ih]
    simp only [fmtPadRight_eq _ _ (hrune h (List.mem_cons_self _ _))]

theorem runeCount_header : ∀ h ∈ header, runeCount 0 h = visualLength h := by decide

theorem getD_five {α : Type} (a b c d e x : α) (i : Nat) (hi : i < 5) :
    ([a, b, c, d, e] : List α).getD i x = ([a, b, c, d, e] : List α).get ⟨i, hi⟩ := by
  interval_cases i <;> rfl

theorem list_five_ext (l l' : List Nat) (hl : l.length = 5) (hl' : l'.length = 5)
    (h : ∀ i, i < 5 → l.getD i 0 = l'.getD i 0) : l = l' := by
  obtain ⟨a, b, c, d, e, rfl⟩ := list_eq_five l hl
  obtain ⟨a', b', c', d', e', rfl⟩ := list_eq_five l' hl'
  have h0 := h 0 (by omega)
  have h1 := h 1 (by omega)
  have h2 := h 2 (by omega)
  have h3 := h 3 (by omega)
  have h4 := h 4 (by omega)
  simp only [List.getD_cons_zero, List.getD_cons_succ] at h0 h1 h2 h3 h4
  rw [h0, h1, h2, h3, h4]

theorem measure_of_uniform (colWidths : List Nat) (hlen : colWidths.length = 5)
    (hhdr : ∀ i, i < 5 → visualLength (header.getD i []) ≤ colWidths.getD i 0)
    (table : List (List GoString)) (hne : table ≠ [])
    (huni : ∀ row ∈ table, row.length = 5 ∧
      ∀ i, i < 5 → visualLength (row.getD i []) = colWidths.getD i 0) :
    measure table = some colWidths := by
  obtain ⟨w, hw, hwlen, hspec⟩ := measureRows_spec table (measureHeader colWidthsInit)
    (by decide) (fun row hrow => (huni row hrow).1)
  have : w = colWidths := by
    refine list_five_ext w colWidths hwlen hlen (fun i hi => ?_)
    obtain ⟨_, h2, h3⟩ := hspec i hi
    obtain ⟨r, hr⟩ := List.exists_mem_of_ne_nil table hne
    have hge : colWidths.getD i 0 ≤ w.getD i 0 := by
      rw [← (huni r hr).2 i hi]
      exact h2 r hr
    rcases h3 with h3 | ⟨r', hr', h3⟩
    · have hh : (measureHeader colWidthsInit).getD i 0 = visualLength (header.getD i []) := by
        interval_cases i <;> decide
      have := hhdr i hi
      omega
    · rw [h3, (huni r' hr').2 i hi]
  rw [measure, hw, this]

theorem measure_spec (rows : List (List GoString)) (h5 : ∀ row ∈ rows, row.length = 5) :
    ∃ colWidths, measure rows = some colWidths ∧ colWidths.length = 5 ∧
      ∀ i, i < 5 →
        visualLength (header.getD i []) ≤ colWidths.getD i 0 ∧
        (∀ row ∈ rows, visualLength (row.getD i []) ≤ colWidths.getD i 0) := by
  obtain ⟨w', hw', hlen, hspec⟩ := measureRows_spec rows (measureHeader colWidthsInit)
    (by decide) h5
  refine ⟨w', hw', hlen, fun i hi => ?_⟩
  have hh : (measureHeader colWidthsInit).getD i 0 = visualLength (header.getD i []) := by
    interval_cases i <;> decide
  rw [← hh]
  exact ⟨(hspec i hi).1, (hspec i hi).2.1⟩

theorem visualLength_bar_append (t : GoString) :
    visualLength (lit "│" ++ t) = 3 + visualLength t := by
  rw [lit_bar]
  simp only [List.cons_append, List.nil_append]
  rw [visualLength_cons_of_ne_esc _ (by decide), visualLength_cons_of_ne_esc _ (by decide),
    visualLength_cons_of_ne_esc _ (by decide)]
  omega

theorem visualLength_header_cell (w i : Nat) (hi : i < 5)
    (hfit : visualLength (header.getD i []) ≤ w) :
    visualLength (fmtPadRight w (header.getD i [])) = w := by
  have hr : runeCount 0 (header.getD i []) = visualLength (header.getD i []) := by
    interval_cases i <;> decide
  rw [fmtPadRight_eq _ _ hr, visualLength_append_spaces]
  omega

theorem padCell_fills (colWidths : List Nat) (i : Nat) (hi : i < colWidths.length)
    (col : GoString) (hfit : visualLength col ≤ colWidths.getD i 0) :
    ∃ cell, padCell colWidths i col = some cell ∧ visualLength cell = colWidths.getD i 0 := by
  have hw : colWidths[i]? = some (colWidths.getD i 0) := by
    rw [List.getD_eq_getElem?_getD, List.getElem?_eq_getElem hi]
    rfl
  refine ⟨_, padCell_of_fit colWidths i _ col hw hfit, ?_⟩
  rw [visualLength_append_spaces]
  omega

theorem take_five_of_length (l : List Nat) (h : l.length = 5) :
    (l.drop 0).take 5 = l := by
  rw [List.drop_zero, ← h, List.take_length]

/-- C8: with the widths computed by the measure phase from rows of five cells,
(1) every printed header cell and (2) every printed data cell (content followed by its
padding) has the column width as visual width; (3) measuring the table of the printed
header cells and the printed data cells again yields the same widths; (4) the header
line and every data line have the same total visual width. -/
theorem printed_cells_fill_columns (rows : List (List GoString))
    (h5 : ∀ row ∈ rows, row.length = 5) :
    ∃ colWidths, measure rows = some colWidths ∧
      (∀ i, i < 5 →
        visualLength (fmtPadRight (colWidths.getD i 0) (header.getD i [])) =
          colWidths.getD i 0) ∧
      (∀ row ∈ rows, ∀ i, i < 5 →
        ∃ cell, padCell colWidths i (row.getD i []) = some cell ∧
          visualLength cell = colWidths.getD i 0) ∧
      measure ((header.enum.map (fun ih => fmtPadRight (colWidths.getD ih.1 0) ih.2)) ::
        rows.map (fun row => row.enum.filterMap (fun ic => padCell colWidths ic.1 ic.2))) =
          some colWidths ∧
      (∃ hcells, printHeaderCells colWidths 0 header = some hcells ∧
        visualLength (lit "│" ++ hcells) = 3 + (colWidths.map (· + 5)).sum ∧
        ∀ row ∈ rows, ∃ cells, printRowCells colWidths 0 row = some cells ∧
          visualLength (lit "│" ++ cells) = visualLength (lit "│" ++ hcells)) := by
  obtain ⟨cw, hm, hlen, hspec⟩ := measure_spec rows h5
  have hhead : ∀ i, i < 5 →
      visualLength (fmtPadRight (cw.getD i 0) (header.getD i [])) = cw.getD i 0 :=
    fun i hi => visualLength_header_cell _ i hi (hspec i hi).1
  have hcell : ∀ row ∈ rows, ∀ i, i < 5 →
      ∃ cell, padCell cw i (row.getD i []) = some cell ∧
        visualLength cell = cw.getD i 0 :=
    fun row hrow i hi => padCell_fills cw i (by omega) _ ((hspec i hi).2 row hrow)
  refine ⟨cw, hm, hhead, hcell, ?_, ?_⟩
  · refine measure_of_uniform cw hlen (fun i hi => (hspec i hi).1) _ (List.cons_ne_nil _ _) ?_
    intro r hr
    rw [List.mem_cons] at hr
    rcases hr with rfl | hr
    · refine ⟨rfl, fun i hi => ?_⟩
      have := hhead i hi
      interval_cases i <;> exact this
    · rw [List.mem_map] at hr
      obtain ⟨row, hrow, rfl⟩ := hr
      obtain ⟨a, b, c, d, e, rfl⟩ := list_eq_five row (h5 row hrow)
      obtain ⟨ca, ha, hva⟩ := hcell _ hrow 0 (by omega)
      obtain ⟨cb, hb, hvb⟩ := hcell _ hrow 1 (by omega)
      obtain ⟨cc, hc, hvc⟩ := hcell _ hrow 2 (by omega)
      obtain ⟨cd, hd, hvd⟩ := hcell _ hrow 3 (by omega)
      obtain ⟨ce, he, hve⟩ := hcell _ hrow 4 (by omega)
      simp only [List.getD_cons_zero, List.getD_cons_succ] at ha hb hc hd he
      have hrow' : ([a, b, c, d, e] : List GoString).enum.filterMap
          (fun ic => padCell cw ic.1 ic.2) = [ca, cb, cc, cd, ce] := by
        simp [List.enum, List.enumFrom, List.filterMap, ha, hb, hc, hd, he]
      rw [hrow']
      refine ⟨rfl, fun i hi => ?_⟩
      interval_cases i <;> assumption
  · have hsum : ∀ n, n = 5 → (((cw.drop 0).take n).map (· + 5)).sum = (cw.map (· + 5)).sum := by
      intro n hn
      rw [hn, take_five_of_length cw hlen]
    obtain ⟨hcells, hh, hvl⟩ := printRowCells_of_fit cw header 0 (by rw [hlen]; decide)
      (fun j hj => by
        have hj5 : j < 5 := hj
        rw [Nat.zero_add]
        exact (hspec j hj5).1)
    rw [hsum header.length rfl] at hvl
    refine ⟨hcells, ?_, ?_, ?_⟩
    · rw [printHeaderCells_eq_printRowCells cw header 0 (by rw [hlen]; decide)
        (fun j hj => by
          have hj5 : j < 5 := hj
          rw [Nat.zero_add]
          exact (hspec j hj5).1) runeCount_header]
      exact hh
    · rw [visualLength_bar_append, hvl]
    · intro row hrow
      have hl := h5 row hrow
      obtain ⟨cells, hc, hv⟩ := printRowCells_of_fit cw row 0 (by omega)
        (fun j hj => by
          rw [Nat.zero_add]
          exact (hspec j (by omega)).2 row hrow)
      rw [hsum row.length hl] at hv
      exact ⟨cells, hc, by rw [visualLength_bar_append, visualLength_bar_append, hv, hvl]⟩

/-- Witness for C8: the table of two sample rows. -/
theorem printed_cells_fill_columns_witness :
    (∀ row ∈ sampleRows, row.length = 5) ∧
    ∃ colWidths, measure sampleRows = some colWidths ∧
      (∀ i, i < 5 →
        visualLength (fmtPadRight (colWidths.getD i 0) (header.getD i [])) =
          colWidths.getD i 0) ∧
      (∀ row ∈ sampleRows, ∀ i, i < 5 →
        ∃ cell, padCell colWidths i (row.getD i []) = some cell ∧
          visualLength cell = colWidths.getD i 0) ∧
      measure ((header.enum.map (fun ih => fmtPadRight (colWidths.getD ih.1 0) ih.2)) ::
        sampleRows.map (fun row => row.enum.filterMap (fun ic => padCell colWidths ic.1 ic.2))) =
          some colWidths ∧
      (∃ hcells, printHeaderCells colWidths 0 header = some hcells ∧
        visualLength (lit "│" ++ hcells) = 3 + (colWidths.map (· + 5)).sum ∧
        ∀ row ∈ sampleRows, ∃ cells, printRowCells colWidths 0 row = some cells ∧
          visualLength (lit "│" ++ cells) = visualLength (lit "│" ++ hcells)) :=
  ⟨by decide, printed_cells_fill_columns sampleRows (by decide)⟩

/-! ## Border lines -/

theorem headerBorders_five (w0 w1 w2 w3 w4 : Nat) :
    headerBorders [w0, w1, w2, w3, w4] =
      (lit "╭" ++ repeatString (lit "─") (w0 + 2) ++ lit "┬"
          ++ repeatString (lit "─") (w1 + 2) ++ lit "┬"
          ++ repeatString (lit "─") (w2 + 2) ++ lit "┬"
          ++ repeatString (lit "─") (w3 + 2) ++ lit "┬"
          ++ repeatString (lit "─") (w4 + 2) ++ lit "╮",
        lit "├" ++ repeatString (lit "─") (w0 + 2) ++ lit "┼"
          ++ repeatString (lit "─") (w1 + 2) ++ lit "┼"
          ++ repeatString (lit "─") (w2 + 2) ++ lit "┼"
          ++ repeatString (lit "─") (w3 + 2) ++ lit "┼"
          ++ repeatString (lit "─") (w4 + 2) ++ lit "┤") := rfl

theorem footerBorder_five (w0 w1 w2 w3 w4 : Nat) :
    footerBorder [w0, w1, w2, w3, w4] =
      lit "╰" ++ repeatString (lit "─") (w0 + 2) ++ lit "┴"
          ++ repeatString (lit "─") (w1 + 2) ++ lit "┴"
          ++ repeatString (lit "─") (w2 + 2) ++ lit "┴"
          ++ repeatString (lit "─") (w3 + 2) ++ lit "┴"
          ++ repeatString (lit "─") (w4 + 2) ++ lit "╯" := rfl

theorem length_repeatString (s : GoString) (n : Nat) :
    (repeatString s n).length = n * s.length := by
  induction n with
  | zero => simp [repeatString_zero]
  | succ n ih => rw [repeatString_succ, List.length_append, ih]; ring

theorem runeCount_glyph_append (b1 b2 : Byte) (hb1 : 0x80 ≤ b1.val ∧ b1.val ≤ 0xBF)
    (hb2 : 0x80 ≤ b2.val ∧ b2.val ≤ 0xBF) (t : GoString) :
    runeCount 0 ((0xE2 : Byte) :: b1 :: b2 :: t) = 1 + runeCount 0 t := by
  have h226 : ((0xE2 : Byte) : Nat) = 226 := rfl
  have hs : runeSize ((0xE2 : Byte) :: b1 :: b2 :: t) = 3 := by
    simp [runeSize, h226, hb1.1, hb1.2, hb2.1, hb2.2]
  simp only [runeCount, hs]

theorem lit_hbar : lit "─" = [(0xE2 : Byte), 0x94, 0x80] := by decide

theorem runeCount_hbars_append (n : Nat) (t : GoString) :
    runeCount 0 (repeatString (lit "─") n ++ t) = n + runeCount 0 t := by
  induction n with
  | zero => simp [repeatString_zero]
  | succ n ih =>
    rw [repeatString_succ, List.append_assoc, lit_hbar]
    simp only [List.cons_append, List.nil_append]
    rw [runeCount_glyph_append _ _ (by decide) (by decide), ← lit_hbar, ih]
    omega

/-- C10: for every table of five column widths, each border line is a left corner,
then for each column a run of exactly `width + 2` horizontal-line characters with one
junction between consecutive columns (four junctions, none after the last column),
then a right corner. The top border uses `╭ ┬ ╮`, the separator `├ ┼ ┤`, the bottom
border `╰ ┴ ╯`; the three lines are pairwise different and have the same number of
characters (and of bytes). -/
theorem border_lines_shape (w0 w1 w2 w3 w4 : Nat) :
    (headerBorders [w0, w1, w2, w3, w4]).1 =
      lit "╭" ++ repeatString (lit "─") (w0 + 2) ++ lit "┬"
        ++ repeatString (lit "─") (w1 + 2) ++ lit "┬"
        ++ repeatString (lit "─") (w2 + 2) ++ lit "┬"
        ++ repeatString (lit "─") (w3 + 2) ++ lit "┬"
        ++ repeatString (lit "─") (w4 + 2) ++ lit "╮" ∧
    (headerBorders [w0, w1, w2, w3, w4]).2 =
      lit "├" ++ repeatString (lit "─") (w0 + 2) ++ lit "┼"
        ++ repeatString (lit "─") (w1 + 2) ++ lit "┼"
        ++ repeatString (lit "─") (w2 + 2) ++ lit "┼"
        ++ repeatString (lit "─") (w3 + 2) ++ lit "┼"
        ++ repeatString (lit "─") (w4 + 2) ++ lit "┤" ∧
    footerBorder [w0, w1, w2, w3, w4] =
      lit "╰" ++ repeatString (lit "─") (w0 + 2) ++ lit "┴"
        ++ repeatString (lit "─") (w1 + 2) ++ lit "┴"
        ++ repeatString (lit "─") (w2 + 2) ++ lit "┴"
        ++ repeatString (lit "─") (w3 + 2) ++ lit "┴"
        ++ repeatString (lit "─") (w4 + 2) ++ lit "╯" ∧
    (headerBorders [w0, w1, w2, w3, w4]).1 ≠ (headerBorders [w0, w1, w2, w3, w4]).2 ∧
    (headerBorders [w0, w1, w2, w3, w4]).2 ≠ footerBorder [w0, w1, w2, w3, w4] ∧
    (headerBorders [w0, w1, w2, w3, w4]).1 ≠ footerBorder [w0, w1, w2, w3, w4] ∧
    runeCount 0 (headerBorders [w0, w1, w2, w3, w4]).1 =
      (w0 + 2) + (w1 + 2) + (w2 + 2) + (w3 + 2) + (w4 + 2) + 6 ∧
    runeCount 0 (headerBorders [w0, w1, w2, w3, w4]).2 =
      (w0 + 2) + (w1 + 2) + (w2 + 2) + (w3 + 2) + (w4 + 2) + 6 ∧
    runeCount 0 (footerBorder [w0, w1, w2, w3, w4]) =
      (w0 + 2) + (w1 + 2) + (w2 + 2) + (w3 + 2) + (w4 + 2) + 6 ∧
    ((headerBorders [w0, w1, w2, w3, w4]).1).length =
      ((headerBorders [w0, w1, w2, w3, w4]).2).length ∧
    ((headerBorders [w0, w1, w2, w3, w4]).2).length =
      (footerBorder [w0, w1, w2, w3, w4]).length := by
  have hT : lit "╭" = [(0xE2 : Byte), 0x95, 0xAD] := by decide
  have hM : lit "├" = [(0xE2 : Byte), 0x94, 0x9C] := by decide
  have hB : lit "╰" = [(0xE2 : Byte), 0x95, 0xB0] := by decide
  have hTj : lit "┬" = [(0xE2 : Byte), 0x94, 0xAC] := by decide
  have hMj : lit "┼" = [(0xE2 : Byte), 0x94, 0xBC] := by decide
  have hBj : lit "┴" = [(0xE2 : Byte), 0x94, 0xB4] := by decide
  have hTr : lit "╮" = [(0xE2 : Byte), 0x95, 0xAE] := by decide
  have hMr : lit "┤" = [(0xE2 : Byte), 0x94, 0xA4] := by decide
  have hBr : lit "╯" = [(0xE2 : Byte), 0x95, 0xAF] := by decide
  have hnil : runeCount 0 [] = 0 := rfl
  have g94 : ∀ (b : Byte), 0x80 ≤ b.val ∧ b.val ≤ 0xBF → ∀ t : GoString,
      runeCount 0 ((0xE2 : Byte) :: 0x94 :: b :: t) = 1 + runeCount 0 t :=
    fun b hb t => runeCount_glyph_append 0x94 b (by decide) hb t
  have g95 : ∀ (b : Byte), 0x80 ≤ b.val ∧ b.val ≤ 0xBF → ∀ t : GoString,
      runeCount 0 ((0xE2 : Byte) :: 0x95 :: b :: t) = 1 + runeCount 0 t :=
    fun b hb t => runeCount_glyph_append 0x95 b (by decide) hb t
  rw [headerBorders_five, footerBorder_five]
  refine ⟨rfl, rfl, rfl, ?_, ?_, ?_, ?_, ?_, ?_, ?_, ?_⟩
  · rw [hT, hM]
    intro h
    simp at h
  · rw [hM, hB]
    intro h
    simp at h
  · rw [hT, hB]
    intro h
    simp at h
  · simp only [List.append_assoc]
    rw [hT, hTj, hTr]
    simp only [List.cons_append, List.nil_append]
    simp only [g95 0xAD (by decide), g94 0xAC (by decide), g95 0xAE (by decide),
      runeCount_hbars_append, hnil]
    omega
  · simp only [List.append_assoc]
    rw [hM, hMj, hMr]
    simp only [List.cons_append, List.nil_append]
    simp only [g94 0x9C (by decide), g94 0xBC (by decide), g94 0xA4 (by decide),
      runeCount_hbars_append, hnil]
    omega
  · simp only [List.append_assoc]
    rw [hB, hBj, hBr]
    simp only [List.cons_append, List.nil_append]
    simp only [g95 0xB0 (by decide), g94 0xB4 (by decide), g95 0xAF (by decide),
      runeCount_hbars_append, hnil]
    omega
  · simp only [List.length_append, hT, hM, hTj, hMj, hTr, hMr, List.length_cons,
      List.length_nil]
  · simp only [List.length_append, hB, hM, hBj, hMj, hBr, hMr, List.length_cons,
      List.length_nil]

/-! ## The printed text, line by line -/

theorem joinLines_nil : joinLines [] = [] := rfl

theorem joinLines_cons (line : GoString) (lines : List GoString) :
    joinLines (line :: lines) = line ++ lit "\n" ++ joinLines lines := by
  simp [joinLines]

theorem joinLines_append (l1 l2 : List GoString) :
    joinLines (l1 ++ l2) = joinLines l1 ++ joinLines l2 := by
  simp [joinLines]

theorem printTableRows_spec (colWidths : List Nat) :
    ∀ (rows : List (List GoString)) (out : GoString),
      (∀ row ∈ rows, ∃ cells, printRowCells colWidths 0 row = some cells) →
      ∃ rowLines,
        List.Forall₂ (fun row line =>
          ∃ cells, printRowCells colWidths 0 row = some cells ∧ line = lit "│" ++ cells)
          rows rowLines ∧
        printTableRows colWidths rows out = some (out ++ joinLines rowLines)
  | [], out, _ => ⟨[], List.Forall₂.nil, by simp [printTableRows, joinLines_nil]⟩
  | row :: rows, out, h => by
    obtain ⟨cells, hcells⟩ := h row (List.mem_cons_self _ _)
    obtain ⟨rowLines, hrel, hout⟩ := printTableRows_spec colWidths rows
      (out ++ lit "│" ++ cells ++ lit "\n") (fun r hr => h r (List.mem_cons_of_mem _ hr))
    refine ⟨(lit "│" ++ cells) :: rowLines, List.Forall₂.cons ⟨cells, hcells, rfl⟩ hrel, ?_⟩
    rw [printTableRows, hcells]
    simp only []
    rw [hout]
    simp only [joinLines_cons, List.append_assoc]

theorem splitLines_cons_newline (cur rest : GoString) :
    splitLines cur ((0x0a : Byte) :: rest) = cur :: splitLines [] rest := rfl

theorem splitLines_cons_other (c : Byte) (hc : c.val ≠ 0x0a) (cur rest : GoString) :
    splitLines cur (c :: rest) = splitLines (cur ++ [c]) rest := by
  rw [splitLines, if_neg hc]

theorem splitLines_line (line : GoString) (hline : ∀ b ∈ line, b.val ≠ 0x0a) :
    ∀ (cur rest : GoString),
      splitLines cur (line ++ lit "\n" ++ rest) = (cur ++ line) :: splitLines [] rest := by
  induction line with
  | nil =>
    intro cur rest
    have : lit "\n" = [(0x0a : Byte)] := by decide
    rw [this, List.nil_append, List.singleton_append, splitLines_cons_newline,
      List.append_nil]
  | cons c line ih =>
    intro cur rest
    have hc : c.val ≠ 0x0a := hline c (List.mem_cons_self _ _)
    have := ih (fun b hb => hline b (List.mem_cons_of_mem _ hb)) (cur ++ [c]) rest
    rw [List.cons_append, List.cons_append, splitLines_cons_other c hc, this,
      List.append_assoc]
    rfl

theorem splitLines_joinLines :
    ∀ (lines : List GoString), (∀ line ∈ lines, ∀ b ∈ line, b.val ≠ 0x0a) →
      splitLines [] (joinLines lines) = lines
  | [], _ => rfl
  | line :: lines, h => by
    rw [joinLines_cons, splitLines_line line (h line (List.mem_cons_self _ _)),
      splitLines_joinLines lines (fun l hl => h l (List.mem_cons_of_mem _ hl))]
    rfl

theorem mem_repeatString (s : GoString) (b : Byte) :
    ∀ n, b ∈ repeatString s n → b ∈ s
  | 0, h => by simp [repeatString_zero] at h
  | n + 1, h => by
    rw [repeatString_succ, List.mem_append] at h
    rcases h with h | h
    · exact h
    · exact mem_repeatString s b n h

theorem printRowCells_no_newline (colWidths : List Nat) :
    ∀ (cols : List GoString) (i : Nat) (cells : GoString),
      printRowCells colWidths i cols = some cells →
      (∀ col ∈ cols, ∀ b ∈ col, b.val ≠ 0x0a) → ∀ b ∈ cells, b.val ≠ 0x0a
  | [], _, cells, h, _ => by
    simp only [printRowCells, Option.some.injEq] at h
    subst h
    simp
  | col :: cols, i, cells, h, hcols => by
    rw [printRowCells] at h
    cases hp : padCell colWidths i col with
    | none => rw [hp] at h; exact Option.noConfusion h
    | some cell =>
      rw [hp] at h
      cases hm : printRowCells colWidths (i + 1) cols with
      | none => rw [hm] at h; exact Option.noConfusion h
      | some more =>
        rw [hm] at h
        simp only [Option.map_some', Option.some.injEq] at h
        subst h
        have ih := printRowCells_no_newline colWidths cols (i + 1) more hm
          (fun c hc => hcols c (List.mem_cons_of_mem _ hc))
        have hcell : ∀ b ∈ cell, b.val ≠ 0x0a := by
          unfold padCell at hp
          cases hw : colWidths[i]? with
          | none => rw [hw] at hp; exact Option.noConfusion hp
          | some w =>
            rw [hw] at hp
            simp only [stringsRepeat] at hp
            by_cases hneg : (w : Int) - (visualLength col : Int) < 0
            · rw [if_pos hneg] at hp
              simp at hp
            · rw [if_neg hneg] at hp
              simp only [Option.map_some', Option.some.injEq] at hp
              subst hp
              intro b hb
              rw [List.mem_append] at hb
              rcases hb with hb | hb
              · exact hcols col (List.mem_cons_self _ _) b hb
              · have := mem_repeatString _ _ _ hb
                rw [lit_space, List.mem_singleton] at this
                subst this
                decide
        intro b hb
        simp only [List.mem_append] at hb
        rcases hb with ((hb | hb) | hb) | hb
        · rw [lit_space, List.mem_singleton] at hb
          subst hb
          decide
        · exact hcell b hb
        · rw [lit_space_bar] at hb
          simp only [List.mem_cons, List.mem_singleton, List.not_mem_nil, or_false] at hb
          rcases hb with rfl | rfl | rfl | rfl <;> decide
        · exact ih b hb

theorem newlineFree_append (a b : GoString) (ha : NewlineFree a) (hb : NewlineFree b) :
    NewlineFree (a ++ b) := by
  intro x hx
  rw [List.mem_append] at hx
  rcases hx with hx | hx
  · exact ha x hx
  · exact hb x hx

theorem newlineFree_of_all (s : GoString) (h : s.all (fun b => b.val != 0x0a) = true) :
    NewlineFree s := by
  intro b hb
  have := List.all_eq_true.mp h b hb
  simpa using this

theorem newlineFree_hbars (n : Nat) : NewlineFree (repeatString (lit "─") n) := by
  intro x hx
  have := mem_repeatString _ _ _ hx
  rw [lit_hbar] at this
  simp only [List.mem_cons, List.mem_singleton, List.not_mem_nil, or_false] at this
  rcases this with rfl | rfl | rfl <;> decide

theorem newlineFree_borders (colWidths : List Nat) (hlen : colWidths.length = 5) :
    NewlineFree (headerBorders colWidths).1 ∧ NewlineFree (headerBorders colWidths).2 ∧
      NewlineFree (footerBorder colWidths) := by
  obtain ⟨w0, w1, w2, w3, w4, rfl⟩ := list_eq_five colWidths hlen
  rw [headerBorders_five, footerBorder_five]
  refine ⟨?_, ?_, ?_⟩
  all_goals
    repeat' apply newlineFree_append
    all_goals first
      | exact newlineFree_hbars _
      | exact newlineFree_of_all _ (by decide)

theorem forall₂_mem_right {α β : Type} (R : α → β → Prop) (l1 : List α) (l2 : List β)
    (h : List.Forall₂ R l1 l2) : ∀ y ∈ l2, ∃ x ∈ l1, R x y := by
  induction h with
  | nil => intro y hy; exact absurd hy (List.not_mem_nil y)
  | cons hab _ ih =>
    intro y hy
    rw [List.mem_cons] at hy
    rcases hy with rfl | hy
    · exact ⟨_, List.mem_cons_self _ _, hab⟩
    · obtain ⟨x, hx, hxy⟩ := ih y hy
      exact ⟨x, List.mem_cons_of_mem _ hx, hxy⟩

theorem newlineFree_bar_cells (colWidths : List Nat) (cols : List GoString)
    (cells : GoString) (h : printRowCells colWidths 0 cols = some cells)
    (hcols : ∀ col ∈ cols, NewlineFree col) : NewlineFree (lit "│" ++ cells) := by
  refine newlineFree_append _ _ (newlineFree_of_all _ (by decide)) ?_
  exact printRowCells_no_newline colWidths cols 0 cells h hcols

theorem renderTable_spec (rows : List (List GoString)) (h5 : ∀ row ∈ rows, row.length = 5) :
    ∃ colWidths hcells rowLines,
      measure rows = some colWidths ∧ colWidths.length = 5 ∧
      printHeaderCells colWidths 0 header = some hcells ∧
      printRowCells colWidths 0 header = some hcells ∧
      List.Forall₂ (fun row line =>
        ∃ cells, printRowCells colWidths 0 row = some cells ∧ line = lit "│" ++ cells)
        rows rowLines ∧
      renderTable rows = some (joinLines
        ([(headerBorders colWidths).1, lit "│" ++ hcells, (headerBorders colWidths).2]
          ++ rowLines ++ [footerBorder colWidths])) := by
  obtain ⟨cw, hm, hlen, hspec⟩ := measure_spec rows h5
  have hfitH : ∀ j, j < header.length →
      visualLength (header.getD j []) ≤ cw.getD (0 + j) 0 := fun j hj => by
    have hj5 : j < 5 := hj
    rw [Nat.zero_add]
    exact (hspec j hj5).1
  obtain ⟨hcells, hh, _⟩ := printRowCells_of_fit cw header 0 (by rw [hlen]; decide) hfitH
  have hh' : printHeaderCells cw 0 header = some hcells := by
    rw [printHeaderCells_eq_printRowCells cw header 0 (by rw [hlen]; decide) hfitH
      runeCount_header]
    exact hh
  have hrowsOk : ∀ row ∈ rows, ∃ cells, printRowCells cw 0 row = some cells := by
    intro row hrow
    have hl := h5 row hrow
    obtain ⟨cells, hc, _⟩ := printRowCells_of_fit cw row 0 (by omega)
      (fun j hj => by
        rw [Nat.zero_add]
        exact (hspec j (by omega)).2 row hrow)
    exact ⟨cells, hc⟩
  obtain ⟨rowLines, hrel, hout⟩ := printTableRows_spec cw rows
    (joinLines [(headerBorders cw).1, lit "│" ++ hcells, (headerBorders cw).2]) hrowsOk
  refine ⟨cw, hcells, rowLines, hm, hlen, hh', hh, hrel, ?_⟩
  have hhead : printTableHeader cw [] =
      some (joinLines [(headerBorders cw).1, lit "│" ++ hcells, (headerBorders cw).2]) := by
    rw [printTableHeader, hh']
    simp [joinLines]
  rw [renderTable, hm, Option.some_bind, printTable, hhead, Option.some_bind, hout,
    Option.some_bind, printTableFooter]
  simp only [joinLines_append, joinLines_cons, joinLines_nil, List.append_assoc,
    List.append_nil, List.cons_append, List.nil_append]

theorem newlineFree_table_of_all (rows : List (List GoString))
    (h : rows.all (fun row => row.all (fun cell => cell.all (fun b => b.val != 0x0a))) = true) :
    ∀ row ∈ rows, ∀ cell ∈ row, NewlineFree cell := by
  intro row hrow cell hcell
  have h1 := List.all_eq_true.mp h row hrow
  have h2 := List.all_eq_true.mp h1 cell hcell
  exact newlineFree_of_all cell h2

/-- C9, as stated, fails: a single row whose name cell contains a newline byte is
rendered as a text of six lines, not of `1 + 4`. -/
theorem renderTable_newline_six_lines :
    (∀ row ∈ newlineRows, row.length = 5) ∧
    (renderTable newlineRows).map (fun out => (splitLines [] out).length) = some 6 ∧
    newlineRows.length + 4 = 5 := by
  refine ⟨by decide, by decide, rfl⟩

/-- C9, amended: for rows of five cells the printed text is the concatenation of
`n + 4` newline-terminated pieces in this order: the top border, the header line, the
separator, one piece per row in the order of the rows (piece `k + 3` is row `k`), and
the bottom border. When no cell contains a newline byte, these pieces are exactly the
lines of the text, which then has exactly `n + 4` lines. -/
theorem renderTable_lines (rows : List (List GoString))
    (h5 : ∀ row ∈ rows, row.length = 5) :
    ∃ colWidths hcells rowLines lines,
      measure rows = some colWidths ∧
      printHeaderCells colWidths 0 header = some hcells ∧
      List.Forall₂ (fun row line =>
        ∃ cells, printRowCells colWidths 0 row = some cells ∧ line = lit "│" ++ cells)
        rows rowLines ∧
      lines = [(headerBorders colWidths).1, lit "│" ++ hcells, (headerBorders colWidths).2]
        ++ rowLines ++ [footerBorder colWidths] ∧
      lines.length = rows.length + 4 ∧
      renderTable rows = some (joinLines lines) ∧
      ((∀ row ∈ rows, ∀ cell ∈ row, NewlineFree cell) →
        splitLines [] (joinLines lines) = lines) := by
  obtain ⟨cw, hcells, rowLines, hm, hlen, hh, hhr, hrel, hout⟩ := renderTable_spec rows h5
  refine ⟨cw, hcells, rowLines, _, hm, hh, hrel, rfl, ?_, hout, ?_⟩
  · have := hrel.length_eq
    simp only [List.length_append, List.length_cons, List.length_nil]
    omega
  · intro hfree
    obtain ⟨hb1, hb2, hb3⟩ := newlineFree_borders cw hlen
    apply splitLines_joinLines
    intro line hline
    simp only [List.mem_append, List.mem_cons, List.mem_singleton, List.not_mem_nil,
      or_false] at hline
    rcases hline with ((rfl | rfl | rfl) | hline) | rfl
    · exact hb1
    · exact newlineFree_bar_cells cw header hcells hhr
        (fun h hh => newlineFree_of_all h (by
          revert h hh
          decide))
    · exact hb2
    · obtain ⟨row, hrow, cells, hcells', rfl⟩ := forall₂_mem_right _ rows rowLines hrel line hline
      exact newlineFree_bar_cells cw row cells hcells' (hfree row hrow)
    · exact hb3

/-- Witness for C9 (amended): the table of two sample rows, whose cells contain no
newline byte. -/
theorem renderTable_lines_witness :
    (∀ row ∈ sampleRows, row.length = 5) ∧
    (∀ row ∈ sampleRows, ∀ cell ∈ row, NewlineFree cell) ∧
    ∃ colWidths hcells rowLines lines,
      measure sampleRows = some colWidths ∧
      printHeaderCells colWidths 0 header = some hcells ∧
      List.Forall₂ (fun row line =>
        ∃ cells, printRowCells colWidths 0 row = some cells ∧ line = lit "│" ++ cells)
        sampleRows rowLines ∧
      lines = [(headerBorders colWidths).1, lit "│" ++ hcells, (headerBorders colWidths).2]
        ++ rowLines ++ [footerBorder colWidths] ∧
      lines.length = sampleRows.length + 4 ∧
      renderTable sampleRows = some (joinLines lines) ∧
      ((∀ row ∈ sampleRows, ∀ cell ∈ row, NewlineFree cell) →
        splitLines [] (joinLines lines) = lines) :=
  ⟨by decide, newlineFree_table_of_all sampleRows (by decide),
    renderTable_lines sampleRows (by decide)⟩

/-! ## Rounding to `float64` -/

theorem bitLen_zero (fuel : Nat) : bitLen fuel 0 = 0 := by
  cases fuel <;> simp [bitLen]

theorem bitLen_spec : ∀ (fuel n : Nat), n ≤ fuel → 0 < n →
    2 ^ (bitLen fuel n - 1) ≤ n ∧ n < 2 ^ bitLen fuel n ∧ 0 < bitLen fuel n
  | 0, n, hle, hpos => by omega
  | fuel + 1, n, hle, hpos => by
    have hne : n ≠ 0 := by omega
    simp only [bitLen, if_neg hne]
    by_cases h2 : n / 2 = 0
    · have h1 : n = 1 := by omega
      subst h1
      simp [bitLen_zero]
    · obtain ⟨ih1, ih2, ih3⟩ := bitLen_spec fuel (n / 2) (by omega) (by omega)
      have hk : bitLen fuel (n / 2) = (bitLen fuel (n / 2) - 1) + 1 := by omega
      refine ⟨?_, ?_, by omega⟩
      · rw [Nat.add_sub_cancel, hk, pow_succ]
        omega
      · rw [pow_succ]
        omega

theorem roundHalfEven_bounds (num den : Nat) :
    num / den ≤ roundHalfEven num den ∧ roundHalfEven num den ≤ num / den + 1 ∧
      (num % den = 0 → 0 < den → roundHalfEven num den = num / den) := by
  unfold roundHalfEven
  refine ⟨?_, ?_, ?_⟩
  · simp only []; split_ifs <;> omega
  · simp only []; split_ifs <;> omega
  · intro hr hd
    simp only [hr]
    rw [if_neg]
    omega

theorem roundHalfEven_error (num den : Nat) (hd : 0 < den) :
    2 * ((num : Int) - (den : Int) * (roundHalfEven num den : Int)).natAbs ≤ den := by
  have hdm := Nat.div_add_mod num den
  have hlt := Nat.mod_lt num hd
  unfold roundHalfEven
  simp only []
  split_ifs with h
  · have : (num : Int) - (den : Int) * ((num / den + 1 : Nat) : Int) =
        ((num % den : Nat) : Int) - (den : Int) := by
      push_cast
      have : (num : Int) = den * (num / den) + num % den := by exact_mod_cast hdm.symm
      linarith
    rw [this]
    omega
  · have : (num : Int) - (den : Int) * ((num / den : Nat) : Int) = ((num % den : Nat) : Int) := by
      have : (num : Int) = den * (num / den) + num % den := by exact_mod_cast hdm.symm
      push_cast
      linarith
    rw [this]
    omega

theorem roundHalfEven_scale (num den c : Nat) (hc : 0 < c) :
    roundHalfEven (num * c) (den * c) = roundHalfEven num den := by
  unfold roundHalfEven
  simp only [Nat.mul_div_mul_right _ _ hc, Nat.mul_mod_mul_right]
  have h1 : (den * c < 2 * (num % den * c)) ↔ (den < 2 * (num % den)) := by
    rw [← Nat.mul_assoc]
    exact Nat.mul_lt_mul_right hc
  have h2 : (2 * (num % den * c) = den * c) ↔ (2 * (num % den) = den) := by
    rw [← Nat.mul_assoc]
    exact Nat.mul_left_inj (by omega)
  simp only [h1, h2]

theorem roundHalfEven_one (num : Nat) : roundHalfEven num 1 = num := by
  unfold roundHalfEven
  simp only [Nat.div_one, Nat.mod_one]
  rw [if_neg]
  omega

theorem scaleFrac_spec (n d : Nat) (hd : 0 < d) (e : Int) :
    0 < (scaleFrac n d e).2 ∧
      ((scaleFrac n d e).1 : ℚ) / ((scaleFrac n d e).2 : ℚ) = (n : ℚ) / (d : ℚ) / (2 : ℚ) ^ e := by
  unfold scaleFrac
  by_cases he : 0 ≤ e
  · rw [if_pos he]
    obtain ⟨k, rfl⟩ := Int.eq_ofNat_of_zero_le he
    refine ⟨by positivity, ?_⟩
    simp only [Int.toNat_ofNat, Nat.cast_mul, Nat.cast_pow, Nat.cast_ofNat, zpow_natCast]
    rw [div_div]
  · rw [if_neg he]
    refine ⟨hd, ?_⟩
    obtain ⟨k, hk⟩ := Int.eq_ofNat_of_zero_le (show 0 ≤ -e by omega)
    have he' : e = -(k : Int) := by omega
    subst he'
    simp only [neg_neg, Int.toNat_ofNat, Nat.cast_mul, Nat.cast_pow, Nat.cast_ofNat, zpow_neg,
      zpow_natCast]
    field_simp

theorem two_zpow_pos (e : Int) : (0 : ℚ) < (2 : ℚ) ^ e := zpow_pos (by norm_num) e

theorem float64Exp_spec (n d : Nat) (hn : 0 < n) (hd : 0 < d) :
    (2 : ℚ) ^ (52 : ℕ) ≤ (n : ℚ) / (d : ℚ) / (2 : ℚ) ^ float64Exp n d ∧
      (n : ℚ) / (d : ℚ) / (2 : ℚ) ^ float64Exp n d < (2 : ℚ) ^ (53 : ℕ) := by
  obtain ⟨ha1, ha2, ha3⟩ := bitLen_spec n n (le_refl _) hn
  obtain ⟨hb1, hb2, hb3⟩ := bitLen_spec d d (le_refl _) hd
  set a := bitLen n n with ha
  set b := bitLen d d with hb
  have hnq : (0 : ℚ) < n := by exact_mod_cast hn
  have hdq : (0 : ℚ) < d := by exact_mod_cast hd
  have hX : (0 : ℚ) < (n : ℚ) / d := div_pos hnq hdq
  -- bounds of numerator and denominator by powers of two
  have hn1 : (2 : ℚ) ^ ((a : Int) - 1) ≤ n := by
    have : ((a : Int) - 1) = ((a - 1 : Nat) : Int) := by omega
    rw [this, zpow_natCast]
    exact_mod_cast ha1
  have hn2 : (n : ℚ) < (2 : ℚ) ^ (a : Int) := by
    rw [zpow_natCast]
    exact_mod_cast ha2
  have hd1 : (2 : ℚ) ^ ((b : Int) - 1) ≤ d := by
    have : ((b : Int) - 1) = ((b - 1 : Nat) : Int) := by omega
    rw [this, zpow_natCast]
    exact_mod_cast hb1
  have hd2 : (d : ℚ) < (2 : ℚ) ^ (b : Int) := by
    rw [zpow_natCast]
    exact_mod_cast hb2
  -- bounds of the quotient
  have hlo : (2 : ℚ) ^ ((a : Int) - b - 1) < (n : ℚ) / d := by
    rw [lt_div_iff₀ hdq]
    calc (2 : ℚ) ^ ((a : Int) - b - 1) * d
        < (2 : ℚ) ^ ((a : Int) - b - 1) * (2 : ℚ) ^ (b : Int) :=
          mul_lt_mul_of_pos_left hd2 (two_zpow_pos _)
      _ = (2 : ℚ) ^ ((a : Int) - 1) := by
          rw [← zpow_add₀ (by norm_num : (2 : ℚ) ≠ 0)]
          congr 1
          ring
      _ ≤ n := hn1
  have hhi : (n : ℚ) / d < (2 : ℚ) ^ ((a : Int) - b + 1) := by
    rw [div_lt_iff₀ hdq]
    calc (n : ℚ) < (2 : ℚ) ^ (a : Int) := hn2
      _ = (2 : ℚ) ^ ((a : Int) - b + 1) * (2 : ℚ) ^ ((b : Int) - 1) := by
          rw [← zpow_add₀ (by norm_num : (2 : ℚ) ≠ 0)]
          congr 1
          ring
      _ ≤ (2 : ℚ) ^ ((a : Int) - b + 1) * d :=
          mul_le_mul_of_nonneg_left hd1 (le_of_lt (two_zpow_pos _))
  -- the first candidate exponent
  set e0 : Int := (a : Int) - (b : Int) - 52 with he0
  have hy0lo : (2 : ℚ) ^ (51 : ℕ) < (n : ℚ) / d / (2 : ℚ) ^ e0 := by
    rw [lt_div_iff₀ (two_zpow_pos _), ← zpow_natCast, ← zpow_add₀ (by norm_num : (2 : ℚ) ≠ 0)]
    have : ((51 : ℕ) : Int) + e0 = (a : Int) - b - 1 := by rw [he0]; push_cast; ring
    rw [this]
    exact hlo
  have hy0hi : (n : ℚ) / d / (2 : ℚ) ^ e0 < (2 : ℚ) ^ (53 : ℕ) := by
    rw [div_lt_iff₀ (two_zpow_pos _), ← zpow_natCast, ← zpow_add₀ (by norm_num : (2 : ℚ) ≠ 0)]
    have : ((53 : ℕ) : Int) + e0 = (a : Int) - b + 1 := by rw [he0]; push_cast; ring
    rw [this]
    exact hhi
  obtain ⟨hD0, hs0⟩ := scaleFrac_spec n d hd e0
  have hD0q : (0 : ℚ) < ((scaleFrac n d e0).2 : ℚ) := by exact_mod_cast hD0
  have hfloor : (scaleFrac n d e0).1 / (scaleFrac n d e0).2 < 2 ^ 52 ↔
      (n : ℚ) / d / (2 : ℚ) ^ e0 < (2 : ℚ) ^ (52 : ℕ) := by
    rw [← hs0, Nat.div_lt_iff_lt_mul hD0, div_lt_iff₀ hD0q]
    exact_mod_cast Iff.rfl
  unfold float64Exp
  simp only []
  rw [← ha, ← hb, ← he0]
  by_cases hq0 : (scaleFrac n d e0).1 / (scaleFrac n d e0).2 < 2 ^ 52
  · rw [if_pos hq0]
    have hlt := hfloor.mp hq0
    have hsplit : (n : ℚ) / d / (2 : ℚ) ^ (e0 - 1) = 2 * ((n : ℚ) / d / (2 : ℚ) ^ e0) := by
      rw [zpow_sub_one₀ (by norm_num : (2 : ℚ) ≠ 0)]
      field_simp
      ring
    rw [hsplit]
    constructor
    · have : (2 : ℚ) ^ (52 : ℕ) = 2 * (2 : ℚ) ^ (51 : ℕ) := by norm_num
      rw [this]
      linarith
    · have : (2 : ℚ) ^ (53 : ℕ) = 2 * (2 : ℚ) ^ (52 : ℕ) := by norm_num
      rw [this]
      linarith
  · rw [if_neg hq0]
    exact ⟨not_lt.mp (fun h => hq0 (hfloor.mpr h)), hy0hi⟩

theorem roundToFloat64_spec (n d : Nat) (hn : 0 < n) (hd : 0 < d) :
    ∃ q r D : Nat, 0 < D ∧ r < D ∧ (r = 0 ∨ 0 < r) ∧
      (q : ℚ) + (r : ℚ) / (D : ℚ) = (n : ℚ) / (d : ℚ) / (2 : ℚ) ^ (roundToFloat64 n d).exp ∧
      2 ^ 52 ≤ q ∧ q < 2 ^ 53 ∧
      q ≤ (roundToFloat64 n d).mant ∧ (roundToFloat64 n d).mant ≤ q + 1 ∧
      (r = 0 → (roundToFloat64 n d).mant = q) := by
  have hn0 : n ≠ 0 := by omega
  obtain ⟨hlo, hhi⟩ := float64Exp_spec n d hn hd
  obtain ⟨hD, hs⟩ := scaleFrac_spec n d hd (float64Exp n d)
  set N := (scaleFrac n d (float64Exp n d)).1 with hN
  set D := (scaleFrac n d (float64Exp n d)).2 with hDdef
  have hDq : (0 : ℚ) < (D : ℚ) := by exact_mod_cast hD
  have hexp : (roundToFloat64 n d).exp = float64Exp n d := by
    simp only [roundToFloat64, if_neg hn0]
  have hmant : (roundToFloat64 n d).mant = roundHalfEven N D := by
    simp only [roundToFloat64, if_neg hn0]
  obtain ⟨hb1, hb2, hb3⟩ := roundHalfEven_bounds N D
  refine ⟨N / D, N % D, D, hD, Nat.mod_lt _ hD, by omega, ?_, ?_, ?_, ?_, ?_, ?_⟩
  · rw [hexp, ← hs]
    have hdm : (N : ℚ) = (D : ℚ) * ((N / D : Nat) : ℚ) + ((N % D : Nat) : ℚ) := by
      exact_mod_cast (Nat.div_add_mod N D).symm
    rw [hdm]
    field_simp
    ring
  · rw [Nat.le_div_iff_mul_le hD]
    rw [← hs, le_div_iff₀ hDq] at hlo
    exact_mod_cast hlo
  · rw [Nat.div_lt_iff_lt_mul hD]
    rw [← hs, div_lt_iff₀ hDq] at hhi
    exact_mod_cast hhi
  · rw [hmant]; exact hb1
  · rw [hmant]; exact hb2
  · intro hr
    rw [hmant]
    exact hb3 hr hD

theorem toRat_roundToFloat64_zero (d : Nat) : (roundToFloat64 0 d).toRat = 0 := by
  simp [roundToFloat64, Float64.toRat]

/-- Rounding never crosses a representable number: a `float64` value below (above) the
exact fraction is also below (above) the rounded result. -/
theorem roundToFloat64_sandwich (n d : Nat) (hd : 0 < d) (M : Nat) (E : Int)
    (hM : M ≤ 2 ^ 53) :
    ((M : ℚ) * (2 : ℚ) ^ E ≤ (n : ℚ) / d → (M : ℚ) * (2 : ℚ) ^ E ≤ (roundToFloat64 n d).toRat) ∧
    ((n : ℚ) / d ≤ (M : ℚ) * (2 : ℚ) ^ E → (roundToFloat64 n d).toRat ≤ (M : ℚ) * (2 : ℚ) ^ E) := by
  rcases Nat.eq_zero_or_pos n with hn | hn
  · subst hn
    rw [toRat_roundToFloat64_zero]
    simp only [Nat.cast_zero, zero_div]
    exact ⟨fun h => h, fun _ => mul_nonneg (Nat.cast_nonneg _) (le_of_lt (two_zpow_pos _))⟩
  obtain ⟨q, r, D, hD, hrD, hr0, hy, hq1, hq2, hm1, hm2, hm3⟩ := roundToFloat64_spec n d hn hd
  set e := (roundToFloat64 n d).exp with he
  set m := (roundToFloat64 n d).mant with hm
  have hP : (0 : ℚ) < (2 : ℚ) ^ e := two_zpow_pos e
  have hDq : (0 : ℚ) < (D : ℚ) := by exact_mod_cast hD
  have hval : (roundToFloat64 n d).toRat = (m : ℚ) * (2 : ℚ) ^ e := rfl
  have hX : (n : ℚ) / d = ((q : ℚ) + (r : ℚ) / D) * (2 : ℚ) ^ e := by
    rw [hy]
    field_simp
    ring
  have hME : (M : ℚ) * (2 : ℚ) ^ E = ((M : ℚ) * (2 : ℚ) ^ (E - e)) * (2 : ℚ) ^ e := by
    rw [mul_assoc, ← zpow_add₀ (by norm_num : (2 : ℚ) ≠ 0)]
    congr 2
    ring
  have hfrac0 : (0 : ℚ) ≤ (r : ℚ) / D := div_nonneg (Nat.cast_nonneg _) (le_of_lt hDq)
  have hfrac1 : (r : ℚ) / D < 1 := by
    rw [div_lt_one hDq]
    exact_mod_cast hrD
  have hq1q : (2 : ℚ) ^ (52 : ℕ) ≤ (q : ℚ) := by exact_mod_cast hq1
  have hm1q : (q : ℚ) ≤ (m : ℚ) := by exact_mod_cast hm1
  have hm2q : (m : ℚ) ≤ (q : ℚ) + 1 := by exact_mod_cast hm2
  have hMq : (M : ℚ) ≤ (2 : ℚ) ^ (53 : ℕ) := by exact_mod_cast hM
  rw [hval, hX, hME]
  by_cases hEe : e ≤ E
  · -- the bound is an integer multiple of the unit in the last place
    obtain ⟨k, hk⟩ := Int.eq_ofNat_of_zero_le (show 0 ≤ E - e by omega)
    rw [hk, zpow_natCast]
    have hY : (M : ℚ) * (2 : ℚ) ^ k = ((M * 2 ^ k : Nat) : ℚ) := by push_cast; ring
    rw [hY]
    constructor
    · intro h
      have h1 := le_of_mul_le_mul_right h hP
      apply mul_le_mul_of_nonneg_right _ (le_of_lt hP)
      have h2 : ((M * 2 ^ k : Nat) : ℚ) < (q : ℚ) + 1 := by linarith
      have h3 : M * 2 ^ k < q + 1 := by exact_mod_cast h2
      have h4 : M * 2 ^ k ≤ m := by omega
      exact_mod_cast h4
    · intro h
      have h1 := le_of_mul_le_mul_right h hP
      apply mul_le_mul_of_nonneg_right _ (le_of_lt hP)
      rcases hr0 with hr | hr
      · have hmq : m = q := hm3 hr
        rw [hr] at h1
        simp only [Nat.cast_zero, zero_div, add_zero] at h1
        rw [hmq]
        exact h1
      · have hpos : (0 : ℚ) < (r : ℚ) / D := div_pos (by exact_mod_cast hr) hDq
        have h2 : (q : ℚ) < ((M * 2 ^ k : Nat) : ℚ) := by linarith
        have h3 : q < M * 2 ^ k := by exact_mod_cast h2
        have h4 : m ≤ M * 2 ^ k := by omega
        exact_mod_cast h4
  · -- the bound lies below the binade of the result
    have hhalf : (2 : ℚ) ^ (E - e) ≤ (2 : ℚ) ^ (-1 : Int) :=
      zpow_le_zpow_right₀ (by norm_num) (by omega)
    have hhalf' : (2 : ℚ) ^ (-1 : Int) = 1 / 2 := by norm_num
    rw [hhalf'] at hhalf
    have hsmall : (M : ℚ) * (2 : ℚ) ^ (E - e) ≤ (2 : ℚ) ^ (52 : ℕ) := by
      calc (M : ℚ) * (2 : ℚ) ^ (E - e) ≤ (2 : ℚ) ^ (53 : ℕ) * (1 / 2) :=
            mul_le_mul hMq hhalf (le_of_lt (two_zpow_pos _)) (by positivity)
        _ = (2 : ℚ) ^ (52 : ℕ) := by norm_num
    constructor
    · intro _
      apply mul_le_mul_of_nonneg_right _ (le_of_lt hP)
      linarith
    · intro h
      have h1 := le_of_mul_le_mul_right h hP
      apply mul_le_mul_of_nonneg_right _ (le_of_lt hP)
      rcases hr0 with hr | hr
      · have hmq : m = q := hm3 hr
        rw [hr] at h1
        simp only [Nat.cast_zero, zero_div, add_zero] at h1
        rw [hmq]
        exact h1
      · have hpos : (0 : ℚ) < (r : ℚ) / D := div_pos (by exact_mod_cast hr) hDq
        linarith

theorem roundToFloat64_exact (n d : Nat) (hd : 0 < d) (M : Nat) (E : Int)
    (hM : M ≤ 2 ^ 53) (h : (n : ℚ) / d = (M : ℚ) * (2 : ℚ) ^ E) :
    (roundToFloat64 n d).toRat = (n : ℚ) / d := by
  obtain ⟨h1, h2⟩ := roundToFloat64_sandwich n d hd M E hM
  rw [h]
  exact le_antisymm (h2 (le_of_eq h)) (h1 (le_of_eq h.symm))

theorem roundToFloat64_mant_le (n d : Nat) (hd : 0 < d) :
    (roundToFloat64 n d).mant ≤ 2 ^ 53 := by
  rcases Nat.eq_zero_or_pos n with hn | hn
  · subst hn
    simp [roundToFloat64]
  · obtain ⟨q, r, D, _, _, _, _, _, hq2, _, hm2, _⟩ := roundToFloat64_spec n d hn hd
    omega

/-! ## The `float64` operations are correctly rounded -/

theorem toRat_nonneg (x : Float64) : 0 ≤ x.toRat :=
  mul_nonneg (Nat.cast_nonneg _) (le_of_lt (two_zpow_pos _))

theorem ofInt_frac (i : Int) (hi : 0 ≤ i) :
    ∃ n d : Nat, 0 < d ∧ Float64.ofInt i = roundToFloat64 n d ∧ (n : ℚ) / d = (i : ℚ) := by
  refine ⟨i.toNat, 1, by omega, rfl, ?_⟩
  have h : ((i.toNat : Nat) : Int) = i := Int.toNat_of_nonneg hi
  rw [Nat.cast_one, div_one, ← Int.cast_natCast, h]

theorem divConst_frac (x : Float64) (c : Nat) (hc : 0 < c) :
    ∃ n d : Nat, 0 < d ∧ x.divConst c = roundToFloat64 n d ∧
      (n : ℚ) / d = x.toRat / (c : ℚ) := by
  have hcq : (c : ℚ) ≠ 0 := by exact_mod_cast (by omega : c ≠ 0)
  unfold Float64.divConst Float64.toRat
  by_cases he : 0 ≤ x.exp
  · obtain ⟨k, hk⟩ := Int.eq_ofNat_of_zero_le he
    refine ⟨x.mant * 2 ^ x.exp.toNat, c, hc, by rw [if_pos he], ?_⟩
    rw [hk]
    simp only [Int.toNat_ofNat, Nat.cast_mul, Nat.cast_pow, Nat.cast_ofNat, zpow_natCast]
  · obtain ⟨k, hk⟩ := Int.eq_ofNat_of_zero_le (show 0 ≤ -x.exp by omega)
    have hk' : x.exp = -(k : Int) := by omega
    refine ⟨x.mant, c * 2 ^ (-x.exp).toNat, by positivity, by rw [if_neg he], ?_⟩
    rw [hk, hk']
    simp only [Int.toNat_ofNat, Nat.cast_mul, Nat.cast_pow, Nat.cast_ofNat, zpow_neg,
      zpow_natCast]
    field_simp
    left
    ring

theorem add_frac (x y : Float64) :
    ∃ n d : Nat, 0 < d ∧ x.add y = roundToFloat64 n d ∧ (n : ℚ) / d = x.toRat + y.toRat := by
  unfold Float64.add Float64.toRat
  set e := min x.exp y.exp with he
  obtain ⟨kx, hkx⟩ := Int.eq_ofNat_of_zero_le (show 0 ≤ x.exp - e by
    have := min_le_left x.exp y.exp; omega)
  obtain ⟨ky, hky⟩ := Int.eq_ofNat_of_zero_le (show 0 ≤ y.exp - e by
    have := min_le_right x.exp y.exp; omega)
  have hx : (2 : ℚ) ^ x.exp = (2 : ℚ) ^ kx * (2 : ℚ) ^ e := by
    rw [← zpow_natCast, ← zpow_add₀ (by norm_num : (2 : ℚ) ≠ 0)]
    congr 1
    omega
  have hy : (2 : ℚ) ^ y.exp = (2 : ℚ) ^ ky * (2 : ℚ) ^ e := by
    rw [← zpow_natCast, ← zpow_add₀ (by norm_num : (2 : ℚ) ≠ 0)]
    congr 1
    omega
  simp only []
  rw [hkx, hky, hx, hy]
  simp only [Int.toNat_ofNat]
  by_cases h0 : 0 ≤ e
  · obtain ⟨k, hk⟩ := Int.eq_ofNat_of_zero_le h0
    refine ⟨_, 1, by omega, by rw [if_pos h0], ?_⟩
    rw [hk]
    simp only [Int.toNat_ofNat, Nat.cast_mul, Nat.cast_add, Nat.cast_pow, Nat.cast_ofNat,
      zpow_natCast, Nat.cast_one, div_one]
    ring
  · obtain ⟨k, hk⟩ := Int.eq_ofNat_of_zero_le (show 0 ≤ -e by omega)
    have hk' : e = -(k : Int) := by omega
    refine ⟨_, 2 ^ (-e).toNat, by positivity, by rw [if_neg h0], ?_⟩
    rw [hk, hk']
    simp only [Int.toNat_ofNat, Nat.cast_mul, Nat.cast_add, Nat.cast_pow, Nat.cast_ofNat,
      zpow_neg, zpow_natCast]
    field_simp

theorem toInt_eq (x : Float64) (k : Nat) (h1 : (k : ℚ) ≤ x.toRat) (h2 : x.toRat < (k : ℚ) + 1) :
    x.toInt = (k : Int) := by
  unfold Float64.toRat at h1 h2
  unfold Float64.toInt
  by_cases he : 0 ≤ x.exp
  · obtain ⟨j, hj⟩ := Int.eq_ofNat_of_zero_le he
    rw [if_pos he]
    rw [hj, zpow_natCast] at h1 h2
    rw [hj, Int.toNat_ofNat]
    have h1' : k ≤ x.mant * 2 ^ j := by exact_mod_cast h1
    have h2' : x.mant * 2 ^ j < k + 1 := by exact_mod_cast h2
    have : x.mant * 2 ^ j = k := by omega
    rw [this]
  · obtain ⟨j, hj⟩ := Int.eq_ofNat_of_zero_le (show 0 ≤ -x.exp by omega)
    have hj' : x.exp = -(j : Int) := by omega
    rw [if_neg he]
    rw [hj', zpow_neg, zpow_natCast, ← div_eq_mul_inv] at h1 h2
    rw [hj, Int.toNat_ofNat]
    have hpos : (0 : ℚ) < (2 : ℚ) ^ j := by positivity
    have hposn : 0 < 2 ^ j := by positivity
    rw [le_div_iff₀ hpos] at h1
    rw [div_lt_iff₀ hpos] at h2
    have h1' : k * 2 ^ j ≤ x.mant := by exact_mod_cast h1
    have h2' : x.mant < (k + 1) * 2 ^ j := by exact_mod_cast h2
    have hdiv : x.mant / 2 ^ j = k := by
      apply Nat.div_eq_of_lt_le
      · exact h1'
      · exact h2'
    rw [hdiv]

theorem tenths_of_toRat (x : Float64) (p k : Nat)
    (h : x.toRat = (p : ℚ) / (2 : ℚ) ^ k) :
    x.tenths = roundHalfEven (10 * p) (2 ^ k) := by
  unfold Float64.toRat at h
  unfold Float64.tenths
  have hpk : (0 : ℚ) < (2 : ℚ) ^ k := by positivity
  by_cases he : 0 ≤ x.exp
  · obtain ⟨j, hj⟩ := Int.eq_ofNat_of_zero_le he
    rw [if_pos he, hj, Int.toNat_ofNat]
    rw [hj, zpow_natCast, eq_div_iff (ne_of_gt hpk)] at h
    have h' : x.mant * 2 ^ j * 2 ^ k = p := by exact_mod_cast h
    rw [← h']
    have : 10 * (x.mant * 2 ^ j * 2 ^ k) = (10 * x.mant * 2 ^ j) * 2 ^ k := by ring
    rw [this]
    have h1 := roundHalfEven_scale (10 * x.mant * 2 ^ j) 1 (2 ^ k) (by positivity)
    rw [Nat.one_mul] at h1
    rw [h1, roundHalfEven_one]
  · obtain ⟨j, hj⟩ := Int.eq_ofNat_of_zero_le (show 0 ≤ -x.exp by omega)
    have hj' : x.exp = -(j : Int) := by omega
    rw [if_neg he, hj, Int.toNat_ofNat]
    have hpj : (0 : ℚ) < (2 : ℚ) ^ j := by positivity
    rw [hj', zpow_neg, zpow_natCast, ← div_eq_mul_inv, div_eq_div_iff (ne_of_gt hpj)
      (ne_of_gt hpk)] at h
    have h' : x.mant * 2 ^ k = p * 2 ^ j := by exact_mod_cast h
    rw [← roundHalfEven_scale (10 * x.mant) (2 ^ j) (2 ^ k) (by positivity),
      ← roundHalfEven_scale (10 * p) (2 ^ k) (2 ^ j) (by positivity)]
    have e1 : 10 * x.mant * 2 ^ k = 10 * p * 2 ^ j := by
      rw [Nat.mul_assoc, h', Nat.mul_assoc]
    rw [e1, Nat.mul_comm (2 ^ j) (2 ^ k)]

/-! ## `humanSize` -/

theorem ofInt_sandwich (b : Nat) (M : Nat) (E : Int) (hM : M ≤ 2 ^ 53) :
    ((M : ℚ) * (2 : ℚ) ^ E ≤ (b : ℚ) → (M : ℚ) * (2 : ℚ) ^ E ≤ (Float64.ofInt b).toRat) ∧
    ((b : ℚ) ≤ (M : ℚ) * (2 : ℚ) ^ E → (Float64.ofInt b).toRat ≤ (M : ℚ) * (2 : ℚ) ^ E) := by
  obtain ⟨n, d, hd, heq, hval⟩ := ofInt_frac (b : Int) (Int.natCast_nonneg b)
  have hval' : (n : ℚ) / d = (b : ℚ) := by rw [hval]; simp
  rw [heq, ← hval']
  exact roundToFloat64_sandwich n d hd M E hM

theorem ofInt_exact (b : Nat) (hb : b ≤ 2 ^ 53) : (Float64.ofInt b).toRat = (b : ℚ) := by
  obtain ⟨h1, h2⟩ := ofInt_sandwich b b 0 hb
  simp only [zpow_zero, mul_one] at h1 h2
  exact le_antisymm (h2 (le_refl _)) (h1 (le_refl _))

theorem ofInt_mant_le (i : Int) : (Float64.ofInt i).mant ≤ 2 ^ 53 :=
  roundToFloat64_mant_le _ 1 (by omega)

/-- The conversion of a natural number below `2 ^ 63` yields a natural number, the
number itself when it has at most 53 binary digits, and otherwise one that differs from
it by at most 1024. -/
theorem ofInt_natural (b : Nat) (h63 : b < 2 ^ 63) :
    ∃ f : Nat, (Float64.ofInt b).toRat = (f : ℚ) ∧ (b ≤ 2 ^ 53 → f = b) ∧
      f ≤ b + 1024 ∧ b ≤ f + 1024 := by
  by_cases hb : b ≤ 2 ^ 53
  · exact ⟨b, ofInt_exact b hb, fun _ => rfl, by omega, by omega⟩
  · have hmant := ofInt_mant_le (b : Int)
    have hlow := (ofInt_sandwich b (2 ^ 53) 0 (le_refl _)).1 (by
      simp only [zpow_zero, mul_one]
      exact_mod_cast (by omega : 2 ^ 53 ≤ b))
    simp only [zpow_zero, mul_one] at hlow
    have hexp : 0 ≤ (Float64.ofInt b).exp := by
      by_contra hneg
      have hhalf : (2 : ℚ) ^ (Float64.ofInt b).exp ≤ (2 : ℚ) ^ (-1 : Int) :=
        zpow_le_zpow_right₀ (by norm_num) (by omega)
      have hhalf' : (2 : ℚ) ^ (-1 : Int) = 1 / 2 := by norm_num
      rw [hhalf'] at hhalf
      have hmq : ((Float64.ofInt b).mant : ℚ) ≤ (2 : ℚ) ^ (53 : ℕ) := by exact_mod_cast hmant
      have : (Float64.ofInt b).toRat ≤ (2 : ℚ) ^ (53 : ℕ) * (1 / 2) :=
        mul_le_mul hmq hhalf (le_of_lt (two_zpow_pos _)) (by positivity)
      have h53 : ((2 ^ 53 : Nat) : ℚ) = (2 : ℚ) ^ (53 : ℕ) := by norm_num
      rw [h53] at hlow
      have hpos : (0 : ℚ) < (2 : ℚ) ^ (53 : ℕ) := by positivity
      linarith
    obtain ⟨j, hj⟩ := Int.eq_ofNat_of_zero_le hexp
    have hf : (Float64.ofInt b).toRat = (((Float64.ofInt b).mant * 2 ^ j : Nat) : ℚ) := by
      unfold Float64.toRat
      rw [hj, zpow_natCast]
      push_cast
      ring
    refine ⟨(Float64.ofInt b).mant * 2 ^ j, hf, fun h => absurd h hb, ?_, ?_⟩
    · have hup := (ofInt_sandwich b (b / 1024 + 1) 10 (by omega)).2 (by
        have : b ≤ (b / 1024 + 1) * 2 ^ 10 := by omega
        have h2 : ((b / 1024 + 1 : Nat) : ℚ) * (2 : ℚ) ^ (10 : Int) =
            (((b / 1024 + 1) * 2 ^ 10 : Nat) : ℚ) := by push_cast; norm_num
        rw [h2]
        exact_mod_cast this)
      have h2 : ((b / 1024 + 1 : Nat) : ℚ) * (2 : ℚ) ^ (10 : Int) =
          (((b / 1024 + 1) * 2 ^ 10 : Nat) : ℚ) := by push_cast; norm_num
      rw [h2, hf] at hup
      have hup' : (Float64.ofInt b).mant * 2 ^ j ≤ (b / 1024 + 1) * 2 ^ 10 := by
        exact_mod_cast hup
      omega
    · have hdn := (ofInt_sandwich b (b / 1024) 10 (by omega)).1 (by
        have : (b / 1024) * 2 ^ 10 ≤ b := by omega
        have h2 : ((b / 1024 : Nat) : ℚ) * (2 : ℚ) ^ (10 : Int) =
            (((b / 1024) * 2 ^ 10 : Nat) : ℚ) := by push_cast; norm_num
        rw [h2]
        exact_mod_cast this)
      have h2 : ((b / 1024 : Nat) : ℚ) * (2 : ℚ) ^ (10 : Int) =
          (((b / 1024) * 2 ^ 10 : Nat) : ℚ) := by push_cast; norm_num
      rw [h2, hf] at hdn
      have hdn' : (b / 1024) * 2 ^ 10 ≤ (Float64.ofInt b).mant * 2 ^ j := by
        exact_mod_cast hdn
      omega

theorem divConst_pow2_exact (x : Float64) (hx : x.mant ≤ 2 ^ 53) (j : Nat) :
    (x.divConst (2 ^ j)).toRat = x.toRat / (2 : ℚ) ^ j := by
  obtain ⟨n, d, hd, heq, hval⟩ := divConst_frac x (2 ^ j) (by positivity)
  have hval' : (n : ℚ) / d = (x.mant : ℚ) * (2 : ℚ) ^ (x.exp - j) := by
    rw [hval]
    unfold Float64.toRat
    rw [zpow_sub₀ (by norm_num : (2 : ℚ) ≠ 0), zpow_natCast]
    push_cast
    ring
  rw [heq, roundToFloat64_exact n d hd x.mant (x.exp - j) hx hval', hval]
  push_cast
  ring

theorem tenths_size (b j : Nat) (h63 : b < 2 ^ 63) :
    ∃ f : Nat, (Float64.ofInt b).toRat = (f : ℚ) ∧ (b ≤ 2 ^ 53 → f = b) ∧
      f ≤ b + 1024 ∧ b ≤ f + 1024 ∧
      ((Float64.ofInt b).divConst (2 ^ j)).tenths = roundHalfEven (10 * f) (2 ^ j) := by
  obtain ⟨f, hf, h1, h2, h3⟩ := ofInt_natural b h63
  refine ⟨f, hf, h1, h2, h3, ?_⟩
  apply tenths_of_toRat
  rw [divConst_pow2_exact _ (ofInt_mant_le _), hf]

theorem roundHalfEven_error_rat (n den : Nat) (hd : 0 < den) :
    |((roundHalfEven (10 * n) den : Nat) : ℚ) / 10 - (n : ℚ) / (den : ℚ)| ≤ 1 / 20 := by
  have h := roundHalfEven_error (10 * n) den hd
  have hdq : (0 : ℚ) < (den : ℚ) := by exact_mod_cast hd
  set t := roundHalfEven (10 * n) den with ht
  have h1 : ((10 * n : Nat) : Int) - (den : Int) * (t : Int) ≤ (den : Int) ∧
      -(den : Int) ≤ 2 * (((10 * n : Nat) : Int) - (den : Int) * (t : Int)) := by omega
  have h2 : 2 * (((10 * n : Nat) : Int) - (den : Int) * (t : Int)) ≤ (den : Int) := by omega
  have h3 : -(den : ℚ) ≤ 2 * (10 * (n : ℚ) - (den : ℚ) * (t : ℚ)) := by exact_mod_cast h1.2
  have h4 : 2 * (10 * (n : ℚ) - (den : ℚ) * (t : ℚ)) ≤ (den : ℚ) := by exact_mod_cast h2
  have hn : (n : ℚ) = (n : ℚ) / (den : ℚ) * (den : ℚ) := by field_simp
  set x := (n : ℚ) / (den : ℚ) with hx
  have k1 : (-1 : ℚ) ≤ 2 * (10 * x - t) := by
    apply le_of_mul_le_mul_right _ hdq
    calc (-1 : ℚ) * den = -(den : ℚ) := by ring
      _ ≤ 2 * (10 * (n : ℚ) - (den : ℚ) * (t : ℚ)) := h3
      _ = 2 * (10 * x - t) * den := by rw [hn]; ring
  have k2 : 2 * (10 * x - t) ≤ (1 : ℚ) := by
    apply le_of_mul_le_mul_right _ hdq
    calc 2 * (10 * x - t) * den = 2 * (10 * (n : ℚ) - (den : ℚ) * (t : ℚ)) := by
          rw [hn]; ring
      _ ≤ (den : ℚ) := h4
      _ = 1 * den := by ring
  rw [abs_le]
  constructor <;> linarith
theorem fmtInt_natCast (b : Nat) : fmtInt (b : Int) = fmtNat b := by
  unfold fmtInt
  rw [if_neg (by omega), Int.natAbs_ofNat]

theorem humanSize_unit (b j : Nat) (h63 : b < 2 ^ 63) :
    ∃ t f : Nat, fmtFloat1 ((Float64.ofInt b).divConst (2 ^ j)) = fmtTenths t ∧
      (Float64.ofInt b).toRat = (f : ℚ) ∧ t = roundHalfEven (10 * f) (2 ^ j) ∧
      |(t : ℚ) / 10 - (f : ℚ) / ((2 ^ j : Nat) : ℚ)| ≤ 1 / 20 ∧
      (b ≤ 2 ^ 53 → f = b) ∧ f ≤ b + 1024 ∧ b ≤ f + 1024 := by
  obtain ⟨f, hf, h1, h2, h3, ht⟩ := tenths_size b j h63
  refine ⟨roundHalfEven (10 * f) (2 ^ j), f, ?_, hf, rfl, ?_, h1, h2, h3⟩
  · rw [fmtFloat1, ht]
  · exact roundHalfEven_error_rat f (2 ^ j) (by positivity)

/-- C4, as stated, fails: for the byte count 9007199308428083 (just above `2 ^ 53`)
the text is `8388608.1 GB`, and the number shown differs from the exact quotient
`b / 1024 ^ 3` by more than 0.05. -/
theorem humanSize_error_exceeds_bound :
    humanSize 9007199308428083 = lit "8388608.1 GB" ∧
    (1 : ℚ) / 20 < |(83886081 : ℚ) / 10 - (9007199308428083 : ℚ) / (1024 ^ 3 : ℚ)| := by
  refine ⟨by decide, ?_⟩
  rw [abs_of_pos (by norm_num)]
  norm_num

/-- C4, amended: for every byte count `0 ≤ b < 2 ^ 63`, `humanSize b` is the decimal
integer `b` followed by ` B` when `b < 1024`; otherwise a number with exactly one
decimal digit followed by ` kB`, ` MB` or ` GB` (chosen by `b < 1024 ^ 2`,
`b < 1024 ^ 3`, or neither). In the `kB` and `MB` branches the number shown is
`b / 1024` (resp. `b / 1024 ^ 2`) rounded to one decimal, ties to even, so it differs
from the exact quotient by at most 0.05. In the `GB` branch it is `f / 1024 ^ 3` rounded
in the same way, where `f = float64(b)` is `b` itself when `b ≤ 2 ^ 53` and differs
from `b` by at most 1024 otherwise; the number shown is within 0.05 of `f / 1024 ^ 3`.
The six sample values of the claim are rendered as stated. -/
theorem humanSize_spec (b : Nat) (h63 : b < 2 ^ 63) :
    (b < 1024 → humanSize b = fmtNat b ++ lit " B") ∧
    (1024 ≤ b → b < 1024 ^ 2 →
      ∃ t : Nat, humanSize b = fmtTenths t ++ lit " kB" ∧
        t = roundHalfEven (10 * b) 1024 ∧
        |(t : ℚ) / 10 - (b : ℚ) / 1024| ≤ 1 / 20) ∧
    (1024 ^ 2 ≤ b → b < 1024 ^ 3 →
      ∃ t : Nat, humanSize b = fmtTenths t ++ lit " MB" ∧
        t = roundHalfEven (10 * b) (1024 ^ 2) ∧
        |(t : ℚ) / 10 - (b : ℚ) / 1024 ^ 2| ≤ 1 / 20) ∧
    (1024 ^ 3 ≤ b →
      ∃ t f : Nat, humanSize b = fmtTenths t ++ lit " GB" ∧
        (Float64.ofInt b).toRat = (f : ℚ) ∧
        t = roundHalfEven (10 * f) (1024 ^ 3) ∧
        |(t : ℚ) / 10 - (f : ℚ) / 1024 ^ 3| ≤ 1 / 20 ∧
        (b ≤ 2 ^ 53 → f = b) ∧ f ≤ b + 1024 ∧ b ≤ f + 1024) ∧
    humanSize 0 = lit "0 B" ∧ humanSize 1023 = lit "1023 B" ∧
    humanSize 1024 = lit "1.0 kB" ∧ humanSize 1536 = lit "1.5 kB" ∧
    humanSize 1048576 = lit "1.0 MB" ∧ humanSize 1073741824 = lit "1.0 GB" := by
  have e10 : (2 ^ 10 : Nat) = 1024 := by norm_num
  have e20 : (2 ^ 20 : Nat) = 1024 * 1024 := by norm_num
  have e30 : (2 ^ 30 : Nat) = 1024 * 1024 * 1024 := by norm_num
  refine ⟨?_, ?_, ?_, ?_, by decide, by decide, by decide, by decide, by decide, by decide⟩
  · intro h
    have h' : (b : Int) < 1024 := by omega
    rw [humanSize, if_pos h', fmtInt_natCast]
  · intro h1 h2
    have n1 : ¬ (b : Int) < 1024 := by omega
    have p2 : (b : Int) < 1024 * 1024 := by omega
    obtain ⟨t, f, ht, _, htf, herr, hfb, _, _⟩ := humanSize_unit b 10 h63
    have hf : f = b := hfb (by omega)
    subst hf
    rw [e10] at ht htf herr
    refine ⟨t, ?_, htf, ?_⟩
    · rw [humanSize, if_neg n1, if_pos p2, ht]
    · simpa using herr
  · intro h1 h2
    have n1 : ¬ (b : Int) < 1024 := by omega
    have n2 : ¬ (b : Int) < 1024 * 1024 := by omega
    have p3 : (b : Int) < 1024 * 1024 * 1024 := by omega
    obtain ⟨t, f, ht, _, htf, herr, hfb, _, _⟩ := humanSize_unit b 20 h63
    have hf : f = b := hfb (by omega)
    subst hf
    rw [e20] at ht htf herr
    refine ⟨t, ?_, ?_, ?_⟩
    · rw [humanSize, if_neg n1, if_neg n2, if_pos p3, ht]
    · rw [htf]
      norm_num
    · have : (((1024 * 1024 : Nat) : ℚ)) = (1024 : ℚ) ^ 2 := by norm_num
      rw [this] at herr
      exact herr
  · intro h1
    have n1 : ¬ (b : Int) < 1024 := by omega
    have n2 : ¬ (b : Int) < 1024 * 1024 := by omega
    have n3 : ¬ (b : Int) < 1024 * 1024 * 1024 := by omega
    obtain ⟨t, f, ht, hfv, htf, herr, hfb, hb1, hb2⟩ := humanSize_unit b 30 h63
    rw [e30] at ht htf herr
    refine ⟨t, f, ?_, hfv, ?_, ?_, hfb, hb1, hb2⟩
    · rw [humanSize, if_neg n1, if_neg n2, if_neg n3, ht]
    · rw [htf]
      norm_num
    · have : (((1024 * 1024 * 1024 : Nat) : ℚ)) = (1024 : ℚ) ^ 3 := by norm_num
      rw [this] at herr
      exact herr

/-- Witness for C4 (amended): the byte count 1536. -/
theorem humanSize_spec_witness :
    (1536 : Nat) < 2 ^ 63 ∧
    ((1536 < 1024 → humanSize (1536 : Nat) = fmtNat 1536 ++ lit " B") ∧
    (1024 ≤ 1536 → 1536 < 1024 ^ 2 →
      ∃ t : Nat, humanSize (1536 : Nat) = fmtTenths t ++ lit " kB" ∧
        t = roundHalfEven (10 * 1536) 1024 ∧
        |(t : ℚ) / 10 - ((1536 : Nat) : ℚ) / 1024| ≤ 1 / 20) ∧
    (1024 ^ 2 ≤ 1536 → 1536 < 1024 ^ 3 →
      ∃ t : Nat, humanSize (1536 : Nat) = fmtTenths t ++ lit " MB" ∧
        t = roundHalfEven (10 * 1536) (1024 ^ 2) ∧
        |(t : ℚ) / 10 - ((1536 : Nat) : ℚ) / 1024 ^ 2| ≤ 1 / 20) ∧
    (1024 ^ 3 ≤ 1536 →
      ∃ t f : Nat, humanSize (1536 : Nat) = fmtTenths t ++ lit " GB" ∧
        (Float64.ofInt (1536 : Nat)).toRat = (f : ℚ) ∧
        t = roundHalfEven (10 * f) (1024 ^ 3) ∧
        |(t : ℚ) / 10 - (f : ℚ) / 1024 ^ 3| ≤ 1 / 20 ∧
        (1536 ≤ 2 ^ 53 → f = 1536) ∧ f ≤ 1536 + 1024 ∧ 1536 ≤ f + 1024) ∧
    humanSize 0 = lit "0 B" ∧ humanSize 1023 = lit "1023 B" ∧
    humanSize 1024 = lit "1.0 kB" ∧ humanSize 1536 = lit "1.5 kB" ∧
    humanSize 1048576 = lit "1.0 MB" ∧ humanSize 1073741824 = lit "1.0 GB") :=
  ⟨by decide, humanSize_spec 1536 (by decide)⟩

/-! ## `humanTime` -/

theorem divConst_sandwich (x : Float64) (c : Nat) (hc : 0 < c) (M : Nat) (E : Int)
    (hM : M ≤ 2 ^ 53) :
    ((M : ℚ) * (2 : ℚ) ^ E ≤ x.toRat / c → (M : ℚ) * (2 : ℚ) ^ E ≤ (x.divConst c).toRat) ∧
    (x.toRat / c ≤ (M : ℚ) * (2 : ℚ) ^ E → (x.divConst c).toRat ≤ (M : ℚ) * (2 : ℚ) ^ E) := by
  obtain ⟨n, d, hd, heq, hval⟩ := divConst_frac x c hc
  rw [heq, ← hval]
  exact roundToFloat64_sandwich n d hd M E hM

theorem add_sandwich (x y : Float64) (M : Nat) (E : Int) (hM : M ≤ 2 ^ 53) :
    ((M : ℚ) * (2 : ℚ) ^ E ≤ x.toRat + y.toRat → (M : ℚ) * (2 : ℚ) ^ E ≤ (x.add y).toRat) ∧
    (x.toRat + y.toRat ≤ (M : ℚ) * (2 : ℚ) ^ E → (x.add y).toRat ≤ (M : ℚ) * (2 : ℚ) ^ E) := by
  obtain ⟨n, d, hd, heq, hval⟩ := add_frac x y
  rw [heq, ← hval]
  exact roundToFloat64_sandwich n d hd M E hM

/-- The number `k - 2 ^ (-j)` as a significand times a power of two. -/
theorem below_int_repr (k j : Nat) (hk : 0 < k) :
    (((k * 2 ^ j - 1 : Nat) : ℚ)) * (2 : ℚ) ^ (-(j : Int)) = (k : ℚ) - 1 / (2 : ℚ) ^ j := by
  have h1 : 1 ≤ k * 2 ^ j := Nat.one_le_iff_ne_zero.mpr (by positivity)
  rw [Nat.cast_sub h1, zpow_neg, zpow_natCast]
  push_cast
  field_simp

/-- The value computed by `Duration.Minutes` and `Duration.Hours` for `d` nanoseconds and
the unit `u`: it is at least the whole number of units and stays a fixed distance
below the next whole number. -/
theorem units_bounds (d u j : Nat) (hu : 0 < u) (huj : u ≤ 2 ^ j) (hj : j ≤ 52)
    (hk : (d / u + 1) * 2 ^ j ≤ 2 ^ 53) (hu53 : u ≤ 2 ^ 53) :
    ((d / u : Nat) : ℚ) ≤
        ((Float64.ofInt (d / u : Nat)).add
          ((Float64.ofInt (d % u : Nat)).divConst u)).toRat ∧
      ((Float64.ofInt (d / u : Nat)).add
          ((Float64.ofInt (d % u : Nat)).divConst u)).toRat ≤
        ((d / u : Nat) : ℚ) + 1 - 1 / (2 : ℚ) ^ j := by
  have hpj : (0 : ℚ) < (2 : ℚ) ^ j := by positivity
  have huq : (0 : ℚ) < (u : ℚ) := by exact_mod_cast hu
  have hmod : d % u < u := Nat.mod_lt d hu
  have hdu : d / u ≤ 2 ^ 53 := by
    have : 1 ≤ 2 ^ j := Nat.one_le_two_pow
    nlinarith
  -- the two conversions are exact
  have hA : (Float64.ofInt (d / u : Nat)).toRat = ((d / u : Nat) : ℚ) := ofInt_exact _ hdu
  have hB0 : (Float64.ofInt (d % u : Nat)).toRat = ((d % u : Nat) : ℚ) :=
    ofInt_exact _ (by omega)
  -- the fraction stays below one
  have hfrac : ((d % u : Nat) : ℚ) / u ≤ 1 - 1 / (2 : ℚ) ^ j := by
    have h1 : ((d % u : Nat) : ℚ) ≤ (u : ℚ) - 1 := by
      have : d % u + 1 ≤ u := hmod
      have h' : ((d % u + 1 : Nat) : ℚ) ≤ (u : ℚ) := by exact_mod_cast this
      push_cast at h'
      linarith
    have h2 : (1 : ℚ) / (2 : ℚ) ^ j ≤ 1 / u :=
      one_div_le_one_div_of_le huq (by exact_mod_cast huj)
    calc ((d % u : Nat) : ℚ) / u ≤ ((u : ℚ) - 1) / u := div_le_div_of_nonneg_right h1 (le_of_lt huq)
      _ = 1 - 1 / u := by field_simp
      _ ≤ 1 - 1 / (2 : ℚ) ^ j := by linarith
  have hB : ((Float64.ofInt (d % u : Nat)).divConst u).toRat ≤ 1 - 1 / (2 : ℚ) ^ j := by
    have h := (divConst_sandwich (Float64.ofInt (d % u : Nat)) u hu (1 * 2 ^ j - 1) (-(j : Int))
      (by
        have : 2 ^ j ≤ 2 ^ 53 := Nat.pow_le_pow_right (by omega) (by omega)
        omega)).2
    rw [below_int_repr 1 j (by omega), hB0] at h
    simpa using h (by simpa using hfrac)
  have hB' := toRat_nonneg ((Float64.ofInt (d % u : Nat)).divConst u)
  constructor
  · have h := (add_sandwich (Float64.ofInt (d / u : Nat))
      ((Float64.ofInt (d % u : Nat)).divConst u) (d / u) 0 hdu).1
    simp only [zpow_zero, mul_one] at h
    apply h
    rw [hA]
    linarith
  · have h := (add_sandwich (Float64.ofInt (d / u : Nat))
      ((Float64.ofInt (d % u : Nat)).divConst u) ((d / u + 1) * 2 ^ j - 1) (-(j : Int))
      (le_trans (Nat.sub_le _ _) hk)).2
    have hcast : ((d / u + 1 : Nat) : ℚ) = ((d / u : Nat) : ℚ) + 1 := by
      rw [Nat.cast_add, Nat.cast_one]
    rw [below_int_repr (d / u + 1) j (Nat.succ_pos _), hcast] at h
    exact h (by rw [hA]; linarith)

/-! ## The library's subtraction of times -/

theorem unixToInternal_eq : unixToInternal = 62135596800 := by decide

theorem unixToAbsolute_eq : unixToAbsolute = 9223372028715321600 := by decide

/-- An `int64` computation whose exact value fits returns that value. -/
theorem wrapInt64_of_fits (x : Int) (h1 : -(2 ^ 63) ≤ x) (h2 : x < 2 ^ 63) :
    wrapInt64 x = x := by
  unfold wrapInt64
  omega

/-- An `int64` computation returns a value in range that differs from the exact one by
a multiple of `2 ^ 64`. -/
theorem wrapInt64_spec (x : Int) :
    ∃ k : Int, wrapInt64 x = x - k * 2 ^ 64 ∧ -(2 ^ 63) ≤ wrapInt64 x ∧ wrapInt64 x < 2 ^ 63 := by
  unfold wrapInt64
  exact ⟨(x + 2 ^ 63) / 2 ^ 64, by omega, by omega, by omega⟩

/-- Go's truncating division and remainder by the nanoseconds of a second. -/
theorem tdiv_tmod_second (d : Int) :
    d = 1000000000 * d.tdiv 1000000000 + d.tmod 1000000000 ∧
    (0 ≤ d → 0 ≤ d.tmod 1000000000 ∧ d.tmod 1000000000 < 1000000000) ∧
    (d ≤ 0 → -1000000000 < d.tmod 1000000000 ∧ d.tmod 1000000000 ≤ 0) := by
  refine ⟨(Int.tdiv_add_tmod d 1000000000).symm, ?_, ?_⟩
  · intro h
    exact ⟨Int.tmod_nonneg _ h, Int.tmod_lt_of_pos _ (by norm_num)⟩
  · intro h
    have h1 := Int.tmod_nonneg 1000000000 (show (0 : Int) ≤ -d by omega)
    have h2 := Int.tmod_lt_of_pos (-d) (show (0 : Int) < 1000000000 by norm_num)
    have h3 := Int.tdiv_add_tmod (-d) 1000000000
    have h4 := Int.tdiv_add_tmod d 1000000000
    rw [Int.neg_tdiv] at h3
    omega

/-- The seconds that `addSec` returns: the exact sum when it fits in an `int64`, the
largest `int64` or its negation when it does not. -/
theorem addSec_eq (ext d : Int) (he1 : -(2 ^ 63) ≤ ext) (he2 : ext < 2 ^ 63)
    (hd1 : -(2 ^ 63) ≤ d) (hd2 : d < 2 ^ 63) :
    addSec ext d =
      if 2 ^ 63 ≤ ext + d then 2 ^ 63 - 1
      else if ext + d < -(2 ^ 63) then -(2 ^ 63 - 1) else ext + d := by
  unfold addSec wrapInt64
  simp only []
  split_ifs <;> omega

/-- The seconds of a representable instant are its Unix seconds plus
`unixToInternal`. -/
theorem sec_of_representable (t : Time) (ht : t.representable) :
    t.sec = t.unixNano / 1000000000 + 62135596800 := by
  unfold Time.representable at ht
  unfold Time.sec
  rw [wrapInt64_of_fits _ ht.1 ht.2, unixToInternal_eq]

/-- The time that `Add` returns for a representable `u`: the instant `u + d`, its
seconds replaced by the largest `int64` or its negation when they do not fit. -/
theorem Add_eq (u : Time) (d : Int) (hu : u.representable)
    (hd1 : -(2 ^ 63) ≤ d) (hd2 : d < 2 ^ 63) :
    u.Add d =
      (if 2 ^ 63 ≤ (u.unixNano + d) / 1000000000 + 62135596800 then 2 ^ 63 - 1
        else if (u.unixNano + d) / 1000000000 + 62135596800 < -(2 ^ 63) then -(2 ^ 63 - 1)
        else (u.unixNano + d) / 1000000000 + 62135596800,
       (u.unixNano + d) % 1000000000) := by
  have hsec := sec_of_representable u hu
  unfold Time.representable at hu
  rw [unixToInternal_eq] at hu
  obtain ⟨hu1, hu2⟩ := hu
  obtain ⟨hdm, hpos, hneg⟩ := tdiv_tmod_second d
  unfold Time.Add Time.nsec
  simp only []
  rw [hsec]
  generalize d.tdiv 1000000000 = q at hdm ⊢
  generalize d.tmod 1000000000 = r at hdm hpos hneg ⊢
  have hr : -1000000000 < r ∧ r < 1000000000 := by
    rcases le_total 0 d with h | h
    · have := hpos h
      omega
    · have := hneg h
      omega
  split_ifs <;>
    (rw [addSec_eq _ _ hu1 hu2 (by omega) (by omega)]
     refine Prod.ext ?_ ?_ <;> simp only [] <;> (try split_ifs) <;> omega)

/-- The check of `Time.Sub` on integers: `d` is the `int64` value of the difference
`a - b` of two instants whose seconds fit, and the time `b + d` is compared with `a`. -/
theorem sub_check (a b d k : Int)
    (ha1 : -9223372036854775808 ≤ a / 1000000000 + 62135596800)
    (ha2 : a / 1000000000 + 62135596800 < 9223372036854775808)
    (hb1 : -9223372036854775808 ≤ b / 1000000000 + 62135596800)
    (hb2 : b / 1000000000 + 62135596800 < 9223372036854775808)
    (hd1 : -9223372036854775808 ≤ d) (hd2 : d < 9223372036854775808)
    (hk : d = a - b - k * 18446744073709551616) :
    (if ((if 9223372036854775808 ≤ (b + d) / 1000000000 + 62135596800 then
            (9223372036854775808 - 1 : Int)
          else if (b + d) / 1000000000 + 62135596800 < -9223372036854775808 then
            -(9223372036854775808 - 1)
          else (b + d) / 1000000000 + 62135596800),
          (b + d) % 1000000000) = (a / 1000000000 + 62135596800, a % 1000000000) then d
      else if a / 1000000000 + 62135596800 < b / 1000000000 + 62135596800 ∨
          (a / 1000000000 + 62135596800 = b / 1000000000 + 62135596800 ∧
            a % 1000000000 < b % 1000000000) then -9223372036854775808
      else 9223372036854775808 - 1) =
      if a - b < -9223372036854775808 then -9223372036854775808
      else if 9223372036854775808 - 1 < a - b then 9223372036854775808 - 1
      else a - b := by
  by_cases hlo : a - b < -9223372036854775808
  · rw [if_pos hlo]
    have hge : a + 18446744073709551616 ≤ b + d := by omega
    clear hk
    have hne : ¬ ((if 9223372036854775808 ≤ (b + d) / 1000000000 + 62135596800 then
            (9223372036854775808 - 1 : Int)
          else if (b + d) / 1000000000 + 62135596800 < -9223372036854775808 then
            -(9223372036854775808 - 1)
          else (b + d) / 1000000000 + 62135596800),
          (b + d) % 1000000000) = (a / 1000000000 + 62135596800, a % 1000000000) := by
      intro h
      have h1 := (Prod.mk.inj h).1
      have h2 := (Prod.mk.inj h).2
      split_ifs at h1 <;> omega
    rw [if_neg hne, if_pos (by omega)]
  · rw [if_neg hlo]
    by_cases hhi : 9223372036854775808 - 1 < a - b
    · rw [if_pos hhi]
      have hge : b + d + 18446744073709551616 ≤ a := by omega
      clear hk
      have hne : ¬ ((if 9223372036854775808 ≤ (b + d) / 1000000000 + 62135596800 then
              (9223372036854775808 - 1 : Int)
            else if (b + d) / 1000000000 + 62135596800 < -9223372036854775808 then
              -(9223372036854775808 - 1)
            else (b + d) / 1000000000 + 62135596800),
            (b + d) % 1000000000) = (a / 1000000000 + 62135596800, a % 1000000000) := by
        intro h
        have h1 := (Prod.mk.inj h).1
        have h2 := (Prod.mk.inj h).2
        split_ifs at h1 <;> omega
      rw [if_neg hne, if_neg (by omega)]
    · rw [if_neg hhi]
      have hdD : d = a - b := by omega
      have hba : b + d = a := by omega
      have c1 : ¬ 9223372036854775808 ≤ a / 1000000000 + 62135596800 := by omega
      have c2 : ¬ a / 1000000000 + 62135596800 < -9223372036854775808 := by omega
      rw [hba, if_neg c1, if_neg c2, if_pos rfl, hdD]

/-- For two representable instants `Time.Sub` returns the exact difference in
nanoseconds, replaced by the largest or smallest `Duration` when it does not fit in
an `int64`. -/
theorem Sub_eq (t u : Time) (ht : t.representable) (hu : u.representable) :
    t.Sub u =
      if t.unixNano - u.unixNano < -(2 ^ 63) then -(2 ^ 63)
      else if 2 ^ 63 - 1 < t.unixNano - u.unixNano then 2 ^ 63 - 1
      else t.unixNano - u.unixNano := by
  have hts := sec_of_representable t ht
  have hus := sec_of_representable u hu
  have ht' := ht
  have hu' := hu
  unfold Time.representable at ht' hu'
  rw [unixToInternal_eq] at ht' hu'
  unfold Time.Sub
  simp only []
  rw [hts, hus]
  unfold Time.nsec
  obtain ⟨k0, e0, _, _⟩ := wrapInt64_spec
    (t.unixNano / 1000000000 + 62135596800 - (u.unixNano / 1000000000 + 62135596800))
  generalize wrapInt64
    (t.unixNano / 1000000000 + 62135596800 - (u.unixNano / 1000000000 + 62135596800)) = d0
    at e0 ⊢
  obtain ⟨k1, e1, _, _⟩ := wrapInt64_spec (d0 * 1000000000)
  generalize wrapInt64 (d0 * 1000000000) = d1 at e1 ⊢
  obtain ⟨k2, e2, hd1, hd2⟩ :=
    wrapInt64_spec (d1 + (t.unixNano % 1000000000 - u.unixNano % 1000000000))
  generalize wrapInt64 (d1 + (t.unixNano % 1000000000 - u.unixNano % 1000000000)) = d
    at e2 hd1 hd2 ⊢
  have hk : d = t.unixNano - u.unixNano - (k0 * 1000000000 + k1 + k2) * 18446744073709551616 := by
    omega
  rw [Add_eq u d hu hd1 hd2]
  have e63 : (2 : Int) ^ 63 = 9223372036854775808 := by norm_num
  rw [e63] at ht' hu' hd1 hd2 ⊢
  exact sub_check _ _ d _ ht'.1 ht'.2 hu'.1 hu'.2 hd1 hd2 hk

/-- The seconds from the absolute zero year are the local Unix seconds plus
`unixToAbsolute`, modulo `2 ^ 64`. -/
theorem abs_eq (t : Time) :
    t.abs = (t.unixNano / 1000000000 + t.zoneOffset + 9223372028715321600) % 2 ^ 64 := by
  unfold Time.abs Time.unixSec Time.sec wrapInt64
  rw [unixToAbsolute_eq, unixToInternal_eq]
  omega

/-- For an instant whose local seconds from the absolute zero year fit in a `uint64`,
the day number from which the date is derived is the day of its local Unix seconds. -/
theorem abs_days (t : Time) (ht : t.dateRepresentable) :
    t.abs / 86400 - unixToAbsolute / 86400 =
      (t.unixNano / 1000000000 + t.zoneOffset) / 86400 := by
  unfold Time.dateRepresentable at ht
  rw [abs_eq]
  rw [unixToAbsolute_eq] at ht ⊢
  omega
theorem Minute_eq : Minute = ((60000000000 : Nat) : Int) := by norm_num [Minute]

theorem Hour_eq : Hour = ((3600000000000 : Nat) : Int) := by norm_num [Hour, Minute]

theorem durationMinutes_natCast (d : Nat) :
    durationMinutes (d : Int) =
      (Float64.ofInt (d / 60000000000 : Nat)).add
        ((Float64.ofInt (d % 60000000000 : Nat)).divConst 60000000000) := by
  unfold durationMinutes
  simp only []
  rw [Minute_eq, ← Int.ofNat_tdiv, ← Int.ofNat_tmod]

theorem durationHours_natCast (d : Nat) :
    durationHours (d : Int) =
      (Float64.ofInt (d / 3600000000000 : Nat)).add
        ((Float64.ofInt (d % 3600000000000 : Nat)).divConst 3600000000000) := by
  unfold durationHours
  simp only []
  rw [Hour_eq, ← Int.ofNat_tdiv, ← Int.ofNat_tmod]

theorem toInt_durationMinutes (d : Nat) (hd : d < 3600000000000) :
    (durationMinutes (d : Int)).toInt = ((d / 60000000000 : Nat) : Int) := by
  rw [durationMinutes_natCast]
  obtain ⟨h1, h2⟩ := units_bounds d 60000000000 36 (by norm_num) (by norm_num) (by norm_num)
    (by
      have : d / 60000000000 < 60 := Nat.div_lt_of_lt_mul (by omega)
      norm_num
      omega) (by norm_num)
  apply toInt_eq _ _ h1
  have hpos : (0 : ℚ) < 1 / (2 : ℚ) ^ 36 := by positivity
  linarith

theorem durationHours_bounds (d : Nat) (hd : d < 30 * 24 * 3600000000000) :
    ((d / 3600000000000 : Nat) : ℚ) ≤ (durationHours (d : Int)).toRat ∧
      (durationHours (d : Int)).toRat ≤
        ((d / 3600000000000 : Nat) : ℚ) + 1 - 1 / (2 : ℚ) ^ 42 := by
  rw [durationHours_natCast]
  exact units_bounds d 3600000000000 42 (by norm_num) (by norm_num) (by norm_num)
    (by
      have : d / 3600000000000 < 720 := Nat.div_lt_of_lt_mul (by omega)
      norm_num
      omega) (by norm_num)

theorem toInt_durationHours (d : Nat) (hd : d < 30 * 24 * 3600000000000) :
    (durationHours (d : Int)).toInt = ((d / 3600000000000 : Nat) : Int) := by
  obtain ⟨h1, h2⟩ := durationHours_bounds d hd
  apply toInt_eq _ _ h1
  have hpos : (0 : ℚ) < 1 / (2 : ℚ) ^ 42 := by positivity
  linarith

theorem toInt_durationDays (d : Nat) (hd : d < 30 * 24 * 3600000000000) :
    ((durationHours (d : Int)).divConst 24).toInt =
      ((d / (24 * 3600000000000) : Nat) : Int) := by
  obtain ⟨h1, h2⟩ := durationHours_bounds d hd
  set x := durationHours (d : Int) with hx
  set h := d / 3600000000000 with hh
  have hk : d / (24 * 3600000000000) = h / 24 := by
    rw [hh, Nat.div_div_eq_div_mul, Nat.mul_comm]
  set k := d / (24 * 3600000000000) with hkdef
  have hk30 : k < 30 := Nat.div_lt_of_lt_mul (by omega)
  have hlo : 24 * k ≤ h := by omega
  have hhi : h ≤ 24 * k + 23 := by omega
  have hloq : (24 : ℚ) * k ≤ (h : ℚ) := by exact_mod_cast hlo
  have hhiq : (h : ℚ) ≤ 24 * (k : ℚ) + 23 := by exact_mod_cast hhi
  have hc := divConst_sandwich x 24 (by norm_num)
  have c24 : ((24 : Nat) : ℚ) = 24 := by norm_num
  have low : (k : ℚ) ≤ (x.divConst 24).toRat := by
    have := (hc k 0 (by omega)).1
    simp only [zpow_zero, mul_one] at this
    apply this
    rw [c24, le_div_iff₀ (by norm_num)]
    linarith
  have high : (x.divConst 24).toRat ≤ (k : ℚ) + 1 - 1 / (2 : ℚ) ^ 47 := by
    have := (hc ((k + 1) * 2 ^ 47 - 1) (-(47 : Nat)) (by omega)).2
    have hcast : ((k + 1 : Nat) : ℚ) = (k : ℚ) + 1 := by rw [Nat.cast_add, Nat.cast_one]
    rw [below_int_repr (k + 1) 47 (Nat.succ_pos _), hcast] at this
    apply this
    rw [c24, div_le_iff₀ (by norm_num)]
    have e1 : (1 : ℚ) / (2 : ℚ) ^ 47 * 24 ≤ 1 / (2 : ℚ) ^ 42 := by norm_num
    linarith
  apply toInt_eq _ _ low
  have hpos : (0 : ℚ) < 1 / (2 : ℚ) ^ 47 := by positivity
  linarith

theorem timeSince_eq (now t : Time) (hnow : now.representable) (ht : t.representable)
    (h1 : -(2 ^ 63) ≤ now.unixNano - t.unixNano)
    (h2 : now.unixNano - t.unixNano ≤ 2 ^ 63 - 1) :
    timeSince now t = now.unixNano - t.unixNano := by
  unfold timeSince
  rw [Sub_eq now t hnow ht, if_neg (by omega), if_neg (by omega)]

theorem timeSince_lt_Minute (now t : Time) (hnow : now.representable)
    (ht : t.representable) (h : now.unixNano - t.unixNano < Minute) :
    timeSince now t < Minute := by
  unfold timeSince
  rw [Sub_eq now t hnow ht]
  have hM : Minute = 60000000000 := by norm_num [Minute]
  split_ifs <;> omega

theorem humanTime_of_diff (now t : Time) (d : Nat)
    (hnow : now.representable) (ht : t.representable)
    (hd : now.unixNano - t.unixNano = (d : Int)) (h30 : d < 30 * 24 * 3600000000000) :
    humanTime now t =
      if d < 60000000000 then lit "just now"
      else if d < 3600000000000 then fmtNat (d / 60000000000) ++ lit " minutes ago"
      else if d < 24 * 3600000000000 then fmtNat (d / 3600000000000) ++ lit " hours ago"
      else fmtNat (d / (24 * 3600000000000)) ++ lit " days ago" := by
  have hs : timeSince now t = (d : Int) := by
    rw [timeSince_eq now t hnow ht (by omega) (by omega), hd]
  unfold humanTime
  simp only []
  rw [hs, Minute_eq, Hour_eq]
  by_cases c1 : d < 60000000000
  · rw [if_pos c1, if_pos (by omega)]
  · rw [if_neg c1, if_neg (by omega)]
    by_cases c2 : d < 3600000000000
    · rw [if_pos c2, if_pos (by omega), toInt_durationMinutes d c2, fmtInt_natCast]
    · rw [if_neg c2, if_neg (by omega)]
      by_cases c3 : d < 24 * 3600000000000
      · rw [if_pos c3, if_pos (by omega), toInt_durationHours d h30, fmtInt_natCast]
      · rw [if_neg c3, if_neg (by omega), if_pos (by omega), toInt_durationDays d h30,
          fmtInt_natCast]

theorem humanTime_nat (now t : Time) (d : Nat)
    (hnow : now.representable) (ht : t.representable)
    (hd : now.unixNano - t.unixNano = (d : Int)) :
    (Minute ≤ (d : Int) → (d : Int) < Hour →
      humanTime now t = fmtInt ((d : Int) / Minute) ++ lit " minutes ago") ∧
    (Hour ≤ (d : Int) → (d : Int) < 24 * Hour →
      humanTime now t = fmtInt ((d : Int) / Hour) ++ lit " hours ago") ∧
    (24 * Hour ≤ (d : Int) → (d : Int) < 30 * 24 * Hour →
      humanTime now t = fmtInt ((d : Int) / (24 * Hour)) ++ lit " days ago") := by
  have e24 : 24 * Hour = ((24 * 3600000000000 : Nat) : Int) := by rw [Hour_eq]; norm_num
  rw [e24, Minute_eq, Hour_eq]
  refine ⟨fun h1 h2 => ?_, fun h1 h2 => ?_, fun h1 h2 => ?_⟩
  · rw [humanTime_of_diff now t d hnow ht hd (by omega), if_neg (by omega), if_pos (by omega),
      ← Int.natCast_div, fmtInt_natCast]
  · rw [humanTime_of_diff now t d hnow ht hd (by omega), if_neg (by omega), if_neg (by omega),
      if_pos (by omega), ← Int.natCast_div, fmtInt_natCast]
  · rw [humanTime_of_diff now t d hnow ht hd (by omega), if_neg (by omega), if_neg (by omega),
      if_neg (by omega), ← Int.natCast_div, fmtInt_natCast]

set_option maxRecDepth 100000 in
/-- C5, as stated, fails: for a file whose modification time is the Unix second
9223371974719179008, the first one whose seconds since year 1 overflow an `int64`,
and a clock reading in 2023, `d = now - modifiedAt` is negative, hence below one
minute, but `time.Since` returns the largest duration and `humanTime` returns a date,
not `just now`. -/
theorem humanTime_wrapped_not_just_now :
    (⟨1700000000000000000, 0⟩ : Time).unixNano -
        (⟨9223371974719179008000000000, 0⟩ : Time).unixNano < Minute ∧
    timeSince ⟨1700000000000000000, 0⟩ ⟨9223371974719179008000000000, 0⟩ = 2 ^ 63 - 1 ∧
    humanTime ⟨1700000000000000000, 0⟩ ⟨9223371974719179008000000000, 0⟩ =
      lit "Dec 06, 292277024627" ∧
    humanTime ⟨1700000000000000000, 0⟩ ⟨9223371974719179008000000000, 0⟩ ≠
      lit "just now" := by
  refine ⟨by decide, by decide, by decide, by decide⟩

/-- C5, amended: for a clock reading and a modification time that the library stores
without wrap-around (seconds since year 1 within `int64`, that is Unix seconds up to
9223371974719179007), with `d = now - modifiedAt` in nanoseconds, `humanTime` returns
`just now` when `d` is below one minute; `N minutes ago` with `N = ⌊d / 1 minute⌋`
when `1 minute ≤ d < 1 hour`; `N hours ago` with `N = ⌊d / 1 hour⌋` when
`1 hour ≤ d < 24 hours`; `N days ago` with `N = ⌊d / 24 hours⌋` when
`24 hours ≤ d < 30 days`. In particular 30 seconds give `just now`, 5 minutes
`5 minutes ago`, 3 hours `3 hours ago` and 10 days `10 days ago`. -/
theorem humanTime_relative (now t : Time) (hnow : now.representable)
    (ht : t.representable) :
    (now.unixNano - t.unixNano < Minute → humanTime now t = lit "just now") ∧
    (Minute ≤ now.unixNano - t.unixNano → now.unixNano - t.unixNano < Hour →
      humanTime now t =
        fmtInt ((now.unixNano - t.unixNano) / Minute) ++ lit " minutes ago") ∧
    (Hour ≤ now.unixNano - t.unixNano → now.unixNano - t.unixNano < 24 * Hour →
      humanTime now t =
        fmtInt ((now.unixNano - t.unixNano) / Hour) ++ lit " hours ago") ∧
    (24 * Hour ≤ now.unixNano - t.unixNano → now.unixNano - t.unixNano < 30 * 24 * Hour →
      humanTime now t =
        fmtInt ((now.unixNano - t.unixNano) / (24 * Hour)) ++ lit " days ago") ∧
    (now.unixNano - t.unixNano = 30 * 1000000000 → humanTime now t = lit "just now") ∧
    (now.unixNano - t.unixNano = 5 * Minute → humanTime now t = lit "5 minutes ago") ∧
    (now.unixNano - t.unixNano = 3 * Hour → humanTime now t = lit "3 hours ago") ∧
    (now.unixNano - t.unixNano = 10 * (24 * Hour) →
      humanTime now t = lit "10 days ago") := by
  have hMpos : (0 : Int) ≤ Minute := by rw [Minute_eq]; omega
  have hHpos : (0 : Int) ≤ Hour := by rw [Hour_eq]; omega
  have hMH : Minute ≤ Hour := by rw [Minute_eq, Hour_eq]; omega
  have just : now.unixNano - t.unixNano < Minute → humanTime now t = lit "just now" := by
    intro h
    unfold humanTime
    simp only []
    rw [if_pos (timeSince_lt_Minute now t hnow ht h)]
  have key : ∀ lo : Int, 0 ≤ lo → lo ≤ now.unixNano - t.unixNano →
      ∃ d : Nat, now.unixNano - t.unixNano = (d : Int) := fun lo h0 h =>
    Int.eq_ofNat_of_zero_le (le_trans h0 h)
  refine ⟨just, ?_, ?_, ?_, ?_, ?_, ?_, ?_⟩
  · intro h1 h2
    obtain ⟨d, hd⟩ := key Minute hMpos h1
    rw [hd] at h1 h2 ⊢
    exact (humanTime_nat now t d hnow ht hd).1 h1 h2
  · intro h1 h2
    obtain ⟨d, hd⟩ := key Hour hHpos h1
    rw [hd] at h1 h2 ⊢
    exact (humanTime_nat now t d hnow ht hd).2.1 h1 h2
  · intro h1 h2
    obtain ⟨d, hd⟩ := key (24 * Hour) (by omega) h1
    rw [hd] at h1 h2 ⊢
    exact (humanTime_nat now t d hnow ht hd).2.2 h1 h2
  · intro h
    apply just
    rw [h, Minute_eq]
    omega
  · intro h
    have hd : now.unixNano - t.unixNano = ((300000000000 : Nat) : Int) := by
      rw [h, Minute_eq]; norm_num
    rw [humanTime_of_diff now t _ hnow ht hd (by norm_num)]
    decide
  · intro h
    have hd : now.unixNano - t.unixNano = ((10800000000000 : Nat) : Int) := by
      rw [h, Hour_eq]; norm_num
    rw [humanTime_of_diff now t _ hnow ht hd (by norm_num)]
    decide
  · intro h
    have hd : now.unixNano - t.unixNano = ((864000000000000 : Nat) : Int) := by
      rw [h, Hour_eq]; norm_num
    rw [humanTime_of_diff now t _ hnow ht hd (by norm_num)]
    decide

/-- Witness for C5 (amended): a modification time five minutes before the clock
reading. -/
theorem humanTime_relative_witness :
    (Time.mk 1700000300000000000 0).representable ∧
      (Time.mk 1700000000000000000 3600).representable ∧
      (Time.mk 1700000300000000000 0).unixNano - (Time.mk 1700000000000000000 3600).unixNano
        = 5 * Minute ∧
      humanTime (Time.mk 1700000300000000000 0) (Time.mk 1700000000000000000 3600) =
        lit "5 minutes ago" :=
  ⟨by decide, by decide, by decide,
    (humanTime_relative (Time.mk 1700000300000000000 0)
      (Time.mk 1700000000000000000 3600) (by decide) (by decide)).2.2.2.2.2.1 (by decide)⟩

/-! ## `readDir` -/

/-- The entry that `readDir` makes of a directory child, if its metadata can be
retrieved. -/
theorem readDirStep_eq (list : List fileEntry) (entry : DirEntry) :
    readDirStep list entry =
      list ++ (entry.info.map (fun info =>
        ({ name := entry.name, typ := if entry.isDir then lit "folder" else lit "file",
           size := info.size, modified := info.modTime } : fileEntry))).toList := by
  unfold readDirStep
  cases entry.info with
  | none => simp
  | some info => rfl

theorem foldl_readDirStep (entries : List DirEntry) (list : List fileEntry) :
    entries.foldl readDirStep list =
      list ++ entries.filterMap (fun entry => entry.info.map (fun info =>
        ({ name := entry.name, typ := if entry.isDir then lit "folder" else lit "file",
           size := info.size, modified := info.modTime } : fileEntry))) := by
  induction entries generalizing list with
  | nil => simp
  | cons e es ih =>
    rw [List.foldl_cons, ih, readDirStep_eq, List.append_assoc]
    congr 1
    cases he : e.info with
    | none => simp [List.filterMap_cons, he]
    | some info => simp [List.filterMap_cons, he]

theorem readDir_ok (entries : List DirEntry) :
    readDir (entries, none) =
      ([], entries.filterMap (fun entry => entry.info.map (fun info =>
        ({ name := entry.name, typ := if entry.isDir then lit "folder" else lit "file",
           size := info.size, modified := info.modTime } : fileEntry)))) := by
  simp only [readDir, foldl_readDirStep, List.nil_append]

theorem readDir_typ (listing : List DirEntry × Option GoString) :
    ∀ f ∈ (readDir listing).2, f.typ = lit "folder" ∨ f.typ = lit "file" := by
  obtain ⟨entries, err⟩ := listing
  cases err with
  | some e =>
    intro f hf
    simp [readDir] at hf
  | none =>
    intro f hf
    rw [readDir_ok] at hf
    simp only [List.mem_filterMap, Option.map_eq_some'] at hf
    obtain ⟨entry, _, info, _, rfl⟩ := hf
    cases entry.isDir
    · right; rfl
    · left; rfl

/-- C14: when the directory listing succeeds, `readDir` writes nothing to standard
error and returns, in enumeration order, exactly one entry for each child whose
metadata retrieval succeeded (its name, the kind `folder` or `file` from the
is-directory flag, size and modification time from the metadata) and none for a child
whose retrieval failed. A failing child does not affect the children before or after
it: the result for `before ++ [child] ++ after` is the result for `before ++ after`. -/
theorem readDir_skips_failed_children (entries : List DirEntry) :
    readDir (entries, none) =
      ([], entries.filterMap (fun entry => entry.info.map (fun info =>
        ({ name := entry.name, typ := if entry.isDir then lit "folder" else lit "file",
           size := info.size, modified := info.modTime } : fileEntry)))) ∧
    (readDir (entries, none)).2.length =
      (entries.filter (fun entry => entry.info.isSome)).length ∧
    (∀ (before after : List DirEntry) (child : DirEntry), child.info = none →
      (readDir (before ++ [child] ++ after, none)).2 =
        (readDir (before, none)).2 ++ (readDir (after, none)).2) ∧
    (∀ (before after : List DirEntry) (child : DirEntry) (info : FileInfo),
      child.info = some info →
      (readDir (before ++ [child] ++ after, none)).2 =
        (readDir (before, none)).2 ++
          [{ name := child.name, typ := if child.isDir then lit "folder" else lit "file",
             size := info.size, modified := info.modTime }] ++
          (readDir (after, none)).2) := by
  refine ⟨readDir_ok entries, ?_, ?_, ?_⟩
  · rw [readDir_ok]
    simp only []
    induction entries with
    | nil => rfl
    | cons e es ih =>
      cases he : e.info with
      | none => simp [List.filterMap_cons, List.filter_cons, he, ih]
      | some info => simp [List.filterMap_cons, List.filter_cons, he, ih]
  · intro before after child hchild
    simp only [readDir_ok, List.filterMap_append, List.filterMap_cons, hchild, Option.map_none',
      List.filterMap_nil, List.append_nil]
  · intro before after child info hchild
    simp only [readDir_ok, List.filterMap_append, List.filterMap_cons, hchild, Option.map_some',
      List.filterMap_nil]

/-- Witness for C14: a listing whose middle child has no metadata. -/
theorem readDir_skips_failed_children_witness :
    (readDir (sampleListing, none)).2 =
      [{ name := lit "a.txt", typ := lit "file", size := 512,
         modified := ⟨1700000000000000000, 0⟩ },
       { name := lit "b", typ := lit "folder", size := 4096,
         modified := ⟨1600000000000000000, 7200⟩ }] := by
  rw [(readDir_skips_failed_children sampleListing).1]
  decide

/-! ## The formatting loop -/

theorem foldl_append_singleton {α β : Type} (g : α → β) (l : List α) (init : List β) :
    l.foldl (fun rows x => rows ++ [g x]) init = init ++ l.map g := by
  induction l generalizing init with
  | nil => simp
  | cons x xs ih => rw [List.foldl_cons, ih, List.append_assoc]; rfl

theorem formatRows_eq_map (clock : Nat → Time) (files : List fileEntry) :
    formatRows clock files =
      files.enum.map (fun ifl => formatRow (clock ifl.1) ifl.1 ifl.2) := by
  unfold formatRows
  rw [foldl_append_singleton (fun ifl : Nat × fileEntry => formatRow (clock ifl.1) ifl.1 ifl.2)]
  rfl

theorem formatRows_length (clock : Nat → Time) (files : List fileEntry) :
    (formatRows clock files).length = files.length := by
  rw [formatRows_eq_map, List.length_map, List.enum_length]

theorem formatRows_getElem? (clock : Nat → Time) (files : List fileEntry) (i : Nat)
    (f : fileEntry) (h : files[i]? = some f) :
    (formatRows clock files)[i]? = some (formatRow (clock i) i f) := by
  rw [formatRows_eq_map, List.getElem?_map, List.enum, List.getElem?_enumFrom, h]
  simp

theorem formatRows_five (clock : Nat → Time) (files : List fileEntry) :
    ∀ row ∈ formatRows clock files, row.length = 5 := by
  intro row hrow
  rw [formatRows_eq_map, List.mem_map] at hrow
  obtain ⟨ifl, _, rfl⟩ := hrow
  rfl

theorem formatRow_eq (now : Time) (i : Nat) (f : fileEntry) :
    formatRow now i f =
      [fmtNat i,
        (if f.typ = lit "folder" then colorBlue else colorYellow) ++ f.name ++ colorReset,
        f.typ, humanSize f.size, humanTime now f.modified] := by
  unfold formatRow
  rw [fmtInt_natCast]
  by_cases h : f.typ = lit "folder"
  · simp only [if_pos h]
  · simp only [if_neg h]

/-- C11: for every list of entries `files`, the formatting loop applied to the
sorted list builds as many rows as there are entries, and the row at position `i` is
made of five strings: the decimal rendering of `i` (counted from zero), the name of
the entry at position `i` between the colour prefix of its kind (`colorBlue` for a
folder, `colorYellow` otherwise, two different strings) and the reset sequence, its
kind label, `humanSize` of its size and `humanTime` of its modification time. The kind
label of every entry that `readDir` returns is `folder` or `file`. -/
theorem formatRows_rows (clock : Nat → Time) (files : List fileEntry) :
    (formatRows clock (sortFiles files)).length = files.length ∧
    (∀ (i : Nat) (f : fileEntry), (sortFiles files)[i]? = some f →
      (formatRows clock (sortFiles files))[i]? =
        some [fmtNat i,
          (if f.typ = lit "folder" then colorBlue else colorYellow) ++ f.name ++ colorReset,
          f.typ, humanSize f.size, humanTime (clock i) f.modified]) ∧
    colorBlue ≠ colorYellow ∧
    (∀ listing : List DirEntry × Option GoString, ∀ f ∈ (readDir listing).2,
      f.typ = lit "folder" ∨ f.typ = lit "file") := by
  refine ⟨?_, ?_, by decide, readDir_typ⟩
  · rw [formatRows_length]
    exact (SliceStable_perm less files).length_eq
  · intro i f h
    rw [formatRows_getElem? clock _ i f h, formatRow_eq]

set_option maxRecDepth 100000 in
/-- Witness for C11: the rows of the sample listing; position 1 holds the file. -/
theorem formatRows_rows_witness :
    (sortFiles (readDir (sampleListing, none)).2)[1]? =
        some { name := lit "a.txt", typ := lit "file", size := 512,
               modified := ⟨1700000000000000000, 0⟩ } ∧
      (formatRows (fun _ => ⟨1700000000000000000, 0⟩)
          (sortFiles (readDir (sampleListing, none)).2))[1]? =
        some [lit "1", colorYellow ++ lit "a.txt" ++ colorReset, lit "file", lit "512 B",
          lit "just now"] := by
  have h : (sortFiles (readDir (sampleListing, none)).2)[1]? =
      some { name := lit "a.txt", typ := lit "file", size := 512,
             modified := ⟨1700000000000000000, 0⟩ } := by decide
  refine ⟨h, ?_⟩
  rw [(formatRows_rows (fun _ => ⟨1700000000000000000, 0⟩)
    (readDir (sampleListing, none)).2).2.1 1 _ h]
  decide

/-! ## The pipeline on small listings -/

theorem humanTime_just_now (now t : Time) (hnow : now.representable)
    (ht : t.representable) (h : now.unixNano - t.unixNano < Minute) :
    humanTime now t = lit "just now" := by
  unfold humanTime
  simp only []
  rw [if_pos (timeSince_lt_Minute now t hnow ht h)]

/-- C12: for a listing that holds the file `a.txt` (512 bytes, modified less than a
minute before its row is formatted, clock reading and modification time being stored
by the library without wrap-around) and the folder `b`, in either enumeration order,
the pipeline builds exactly two rows: row 0 has index `0`, the folder-coloured name `b`
and kind `folder`; row 1 has index `1`, the file-coloured name `a.txt`, kind `file`,
size `512 B` and time `just now`. -/
theorem mainRows_folder_before_file (clock : Nat → Time) (size : Int) (tb ta : Time)
    (hclock : (clock 1).representable) (hta : ta.representable)
    (hrecent : (clock 1).unixNano - ta.unixNano < Minute) :
    mainRows clock ([childFile ta, childFolder size tb], none) =
      [[lit "0", colorBlue ++ lit "b" ++ colorReset, lit "folder", humanSize size,
          humanTime (clock 0) tb],
        [lit "1", colorYellow ++ lit "a.txt" ++ colorReset, lit "file", lit "512 B",
          lit "just now"]] ∧
    mainRows clock ([childFolder size tb, childFile ta], none) =
      [[lit "0", colorBlue ++ lit "b" ++ colorReset, lit "folder", humanSize size,
          humanTime (clock 0) tb],
        [lit "1", colorYellow ++ lit "a.txt" ++ colorReset, lit "file", lit "512 B",
          lit "just now"]] := by
  have hsort1 : sortFiles (readDir ([childFile ta, childFolder size tb], none)).2 =
      [{ name := lit "b", typ := lit "folder", size := size, modified := tb },
       { name := lit "a.txt", typ := lit "file", size := 512, modified := ta }] := rfl
  have hsort2 : sortFiles (readDir ([childFolder size tb, childFile ta], none)).2 =
      [{ name := lit "b", typ := lit "folder", size := size, modified := tb },
       { name := lit "a.txt", typ := lit "file", size := 512, modified := ta }] := rfl
  have hrows : formatRows clock
      [{ name := lit "b", typ := lit "folder", size := size, modified := tb },
       { name := lit "a.txt", typ := lit "file", size := 512, modified := ta }] =
      [[lit "0", colorBlue ++ lit "b" ++ colorReset, lit "folder", humanSize size,
          humanTime (clock 0) tb],
        [lit "1", colorYellow ++ lit "a.txt" ++ colorReset, lit "file", lit "512 B",
          lit "just now"]] := by
    rw [formatRows_eq_map]
    simp only [List.enum, List.enumFrom, List.map_cons, List.map_nil, formatRow_eq]
    rw [humanTime_just_now (clock (0 + 1)) ta hclock hta hrecent]
    have h512 : humanSize 512 = lit "512 B" := by decide
    have h0 : fmtNat 0 = lit "0" := by decide
    have h1 : fmtNat (0 + 1) = lit "1" := by decide
    rw [h512, h0, h1]
    rfl
  unfold mainRows
  rw [hsort1, hsort2, hrows]
  exact ⟨rfl, rfl⟩

/-- Witness for C12: a clock that stands still five nanoseconds after the file was
modified. -/
theorem mainRows_folder_before_file_witness :
    ((fun _ : Nat => (⟨1700000000000000005, 0⟩ : Time)) 1).representable ∧
      (⟨1700000000000000000, 0⟩ : Time).representable ∧
      ((fun _ : Nat => (⟨1700000000000000005, 0⟩ : Time)) 1).unixNano -
        (⟨1700000000000000000, 0⟩ : Time).unixNano < Minute ∧
      mainRows (fun _ => ⟨1700000000000000005, 0⟩)
          ([childFile ⟨1700000000000000000, 0⟩,
            childFolder 4096 ⟨1600000000000000000, 7200⟩], none) =
        [[lit "0", colorBlue ++ lit "b" ++ colorReset, lit "folder", humanSize 4096,
            humanTime ((fun _ : Nat => (⟨1700000000000000005, 0⟩ : Time)) 0)
              ⟨1600000000000000000, 7200⟩],
          [lit "1", colorYellow ++ lit "a.txt" ++ colorReset, lit "file", lit "512 B",
            lit "just now"]] :=
  ⟨by decide, by decide, by decide,
    (mainRows_folder_before_file (fun _ => ⟨1700000000000000005, 0⟩) 4096
      ⟨1600000000000000000, 7200⟩ ⟨1700000000000000000, 0⟩ (by decide) (by decide)
      (by decide)).1⟩

set_option maxRecDepth 100000 in
/-- The text printed for a table without rows. -/
theorem renderTable_nil :
    renderTable [] = some (joinLines
      [lit "╭───┬──────┬──────┬──────┬──────────╮",
       lit "│ # │ name │ type │ size │ modified │",
       lit "├───┼──────┼──────┼──────┼──────────┤",
       lit "╰───┴──────┴──────┴──────┴──────────╯"]) := by decide

set_option maxRecDepth 100000 in
/-- C13, as stated, fails: for a path containing a newline byte the error message takes
two lines, not one; and the table printed after a failed listing has four lines, the
third being the separator between the header line and the (absent) data rows. -/
theorem readDir_failure_lines :
    splitLines [] (mainOutput (fun _ => ⟨0, 0⟩) failedListing).1 =
      [lit "error: open a", lit "b: no such file or directory"] ∧
    (mainOutput (fun _ => ⟨0, 0⟩) failedListing).2.map (splitLines []) =
      some [lit "╭───┬──────┬──────┬──────┬──────────╮",
        lit "│ # │ name │ type │ size │ modified │",
        lit "├───┼──────┼──────┼──────┼──────────┤",
        lit "╰───┴──────┴──────┴──────┴──────────╯"] := by
  refine ⟨by decide, by decide⟩

/-- C13, amended: when the directory cannot be listed, `readDir` writes the text
`error: <cause>` followed by a newline to standard error (one line when the cause
contains no newline byte) and returns the empty list, whatever entries came with the
error; no row is built, and the table printed is the top border, the header line, the
separator line and the bottom border, with no data line. -/
theorem readDir_failure_empty_table (clock : Nat → Time) (entries : List DirEntry)
    (cause : GoString) :
    readDir (entries, some cause) = (lit "error: " ++ cause ++ lit "\n", []) ∧
    (NewlineFree cause →
      splitLines [] (readDir (entries, some cause)).1 = [lit "error: " ++ cause]) ∧
    mainRows clock (entries, some cause) = [] ∧
    (mainOutput clock (entries, some cause)).2 = some (joinLines
      [lit "╭───┬──────┬──────┬──────┬──────────╮",
       lit "│ # │ name │ type │ size │ modified │",
       lit "├───┼──────┼──────┼──────┼──────────┤",
       lit "╰───┴──────┴──────┴──────┴──────────╯"]) ∧
    splitLines [] (joinLines
      [lit "╭───┬──────┬──────┬──────┬──────────╮",
       lit "│ # │ name │ type │ size │ modified │",
       lit "├───┼──────┼──────┼──────┼──────────┤",
       lit "╰───┴──────┴──────┴──────┴──────────╯"]) =
      [lit "╭───┬──────┬──────┬──────┬──────────╮",
       lit "│ # │ name │ type │ size │ modified │",
       lit "├───┼──────┼──────┼──────┼──────────┤",
       lit "╰───┴──────┴──────┴──────┴──────────╯"] := by
  have hread : readDir (entries, some cause) = (lit "error: " ++ cause ++ lit "\n", []) := rfl
  have hrows : mainRows clock (entries, some cause) = [] := rfl
  refine ⟨hread, ?_, hrows, ?_, by decide⟩
  · intro hfree
    rw [hread]
    have h := splitLines_joinLines [lit "error: " ++ cause] (by
      intro line hline
      rw [List.mem_singleton] at hline
      subst hline
      exact newlineFree_append _ _ (newlineFree_of_all _ (by decide)) hfree)
    simpa [joinLines] using h
  · unfold mainOutput
    simp only []
    rw [hrows, renderTable_nil]

/-- Witness for C13 (amended): a failed listing with a cause without newline. -/
theorem readDir_failure_empty_table_witness :
    NewlineFree (lit "open x: no such file or directory") ∧
    splitLines [] (readDir (sampleListing, some (lit "open x: no such file or directory"))).1 =
      [lit "error: " ++ lit "open x: no such file or directory"] :=
  ⟨newlineFree_of_all _ (by decide),
    (readDir_failure_empty_table (fun _ => ⟨0, 0⟩) sampleListing
      (lit "open x: no such file or directory")).2.1 (newlineFree_of_all _ (by decide))⟩

/-! ## The row printer cannot panic -/

/-- C16: for rows of five cells and the widths computed from them by the measure
phase, the width table has five entries, every column index the row printer uses is
below five, and every pad count `colWidths[i] - visualLength(cell)` is non-negative, so
`strings.Repeat` is never called with a negative count and the width table is never
read out of range: `printTableRows` and the whole rendering return normally. -/
theorem row_printer_never_panics (rows : List (List GoString))
    (h5 : ∀ row ∈ rows, row.length = 5) :
    ∃ colWidths, measure rows = some colWidths ∧ colWidths.length = 5 ∧
      (∀ row ∈ rows, ∀ i, i < row.length →
        i < 5 ∧
        ∃ w, colWidths[i]? = some w ∧
          (0 : Int) ≤ (w : Int) - (visualLength (row.getD i []) : Int) ∧
          stringsRepeat (lit " ") ((w : Int) - (visualLength (row.getD i []) : Int)) =
            some (repeatString (lit " ") (w - visualLength (row.getD i [])))) ∧
      (∀ out, ∃ out', printTableRows colWidths rows out = some out') ∧
      (∃ text, renderTable rows = some text) := by
  obtain ⟨cw, hm, hlen, hspec⟩ := measure_spec rows h5
  refine ⟨cw, hm, hlen, ?_, ?_, ?_⟩
  · intro row hrow i hi
    have hi5 : i < 5 := by rw [← h5 row hrow]; exact hi
    have hfit := (hspec i hi5).2 row hrow
    have hw : cw[i]? = some (cw.getD i 0) := by
      rw [List.getD_eq_getElem?_getD, List.getElem?_eq_getElem (by omega)]
      rfl
    refine ⟨hi5, cw.getD i 0, hw, by omega, ?_⟩
    have hnn : ¬ ((cw.getD i 0 : Int) - (visualLength (row.getD i []) : Int) < 0) := by omega
    have hnat : ((cw.getD i 0 : Int) - (visualLength (row.getD i []) : Int)).toNat =
        cw.getD i 0 - visualLength (row.getD i []) := by omega
    rw [stringsRepeat, if_neg hnn, hnat]
  · intro out
    have hrowsOk : ∀ row ∈ rows, ∃ cells, printRowCells cw 0 row = some cells := by
      intro row hrow
      have hl := h5 row hrow
      obtain ⟨cells, hc, _⟩ := printRowCells_of_fit cw row 0 (by omega)
        (fun j hj => by
          rw [Nat.zero_add]
          exact (hspec j (by omega)).2 row hrow)
      exact ⟨cells, hc⟩
    obtain ⟨rowLines, _, hout⟩ := printTableRows_spec cw rows out hrowsOk
    exact ⟨_, hout⟩
  · obtain ⟨_, _, _, _, _, _, _, _, hout⟩ := renderTable_spec rows h5
    exact ⟨_, hout⟩

/-- Witness for C16: the table of two sample rows. -/
theorem row_printer_never_panics_witness :
    (∀ row ∈ sampleRows, row.length = 5) ∧
    ∃ colWidths, measure sampleRows = some colWidths ∧ colWidths.length = 5 ∧
      (∀ row ∈ sampleRows, ∀ i, i < row.length →
        i < 5 ∧
        ∃ w, colWidths[i]? = some w ∧
          (0 : Int) ≤ (w : Int) - (visualLength (row.getD i []) : Int) ∧
          stringsRepeat (lit " ") ((w : Int) - (visualLength (row.getD i []) : Int)) =
            some (repeatString (lit " ") (w - visualLength (row.getD i [])))) ∧
      (∀ out, ∃ out', printTableRows colWidths sampleRows out = some out') ∧
      (∃ text, renderTable sampleRows = some text) :=
  ⟨by decide, row_printer_never_panics sampleRows (by decide)⟩

/-! ## The sorted list does not depend on the enumeration order -/

theorem filter_class_eq_of_perm (l1 l2 : List fileEntry) (hperm : l1.Perm l2)
    (hnodup : (l1.map (fun f => f.name)).Nodup) (e : fileEntry) :
    l1.filter (fun x => !less e x && !less x e) =
      l2.filter (fun x => !less e x && !less x e) := by
  have hp : (l1.filter (fun x => !less e x && !less x e)).Perm
      (l2.filter (fun x => !less e x && !less x e)) := hperm.filter _
  have hname : ∀ x ∈ l1.filter (fun x => !less e x && !less x e), x.name = e.name := by
    intro x hx
    have hx2 := (List.mem_filter.mp hx).2
    simp only [Bool.and_eq_true, Bool.not_eq_true'] at hx2
    exact ((less_eq_false_iff_both e x).mp hx2).2.symm
  have hnd : ((l1.filter (fun x => !less e x && !less x e)).map (fun f => f.name)).Nodup :=
    hnodup.sublist (List.Sublist.map _ (List.filter_sublist l1))
  cases hA : l1.filter (fun x => !less e x && !less x e) with
  | nil =>
    rw [hA] at hp
    exact (List.perm_nil.mp hp.symm).symm
  | cons a rest =>
    cases rest with
    | nil =>
      rw [hA] at hp
      exact (List.perm_singleton.mp hp.symm).symm
    | cons b rest =>
      rw [hA] at hname hnd
      have ha := hname a (List.mem_cons_self _ _)
      have hb := hname b (List.mem_cons_of_mem _ (List.mem_cons_self _ _))
      simp only [List.map_cons, List.nodup_cons, List.mem_cons] at hnd
      exact absurd (Or.inl (ha.trans hb.symm)) hnd.1

theorem sortFiles_of_sorted (l : List fileEntry)
    (h : l.Pairwise (fun a b => less b a = false)) : sortFiles l = l :=
  (SliceStable_unique less less_asymm less_negtrans l l h (fun _ => rfl)).symm

/-- C17: for entries with pairwise distinct names the sorted list does not depend on
the enumeration order: any permutation of the entries is sorted to the same list.
Sorting the sorted list again leaves it unchanged, and so does sorting any list that
is already in order. -/
theorem sortFiles_order_independent (l1 l2 : List fileEntry)
    (hnodup : (l1.map (fun f => f.name)).Nodup) (hperm : l1.Perm l2) :
    sortFiles l1 = sortFiles l2 ∧
    sortFiles (sortFiles l1) = sortFiles l1 ∧
    (l1.Pairwise (fun a b => less b a = false) → sortFiles l1 = l1) := by
  refine ⟨?_, ?_, sortFiles_of_sorted l1⟩
  · refine sorted_stable_unique less less_asymm _ _
      (SliceStable_sorted less less_asymm less_negtrans l1)
      (SliceStable_sorted less less_asymm less_negtrans l2) (fun e => ?_)
    have hq : ∀ a b : fileEntry, (!less e a && !less a e) = true →
        (!less e b && !less b e) = true → less a b = false := by
      intro a b ha hb
      simp only [Bool.and_eq_true, Bool.not_eq_true'] at ha hb
      exact less_negtrans a e b ha.2 hb.1
    show (SliceStable l1 less).filter _ = (SliceStable l2 less).filter _
    rw [SliceStable_filter less _ hq l1, SliceStable_filter less _ hq l2]
    exact filter_class_eq_of_perm l1 l2 hperm hnodup e
  · exact sortFiles_of_sorted _ (SliceStable_sorted less less_asymm less_negtrans l1)

/-- Witness for C17: three entries and their reversal. -/
theorem sortFiles_order_independent_witness :
    (sampleFiles.map (fun f => f.name)).Nodup ∧ sampleFiles.Perm sampleFiles.reverse ∧
    (sortFiles sampleFiles = sortFiles sampleFiles.reverse ∧
      sortFiles (sortFiles sampleFiles) = sortFiles sampleFiles ∧
      (sampleFiles.Pairwise (fun a b => less b a = false) →
        sortFiles sampleFiles = sampleFiles)) :=
  ⟨by decide, (List.reverse_perm sampleFiles).symm,
    sortFiles_order_independent sampleFiles sampleFiles.reverse (by decide)
      (List.reverse_perm sampleFiles).symm⟩

/-! ## Rounding at the unit boundary, future times, the plural -/

theorem humanSize_kB (b : Nat) (h1 : 1024 ≤ b) (h2 : b < 1024 * 1024) :
    humanSize b = fmtTenths (roundHalfEven (10 * b) 1024) ++ lit " kB" := by
  have n1 : ¬ (b : Int) < 1024 := by omega
  have p2 : (b : Int) < 1024 * 1024 := by omega
  obtain ⟨t, f, ht, _, htf, _, hfb, _, _⟩ := humanSize_unit b 10 (by omega)
  have hf : f = b := hfb (by omega)
  subst hf
  have e10 : (2 ^ 10 : Nat) = 1024 := by norm_num
  rw [e10] at ht htf
  rw [humanSize, if_neg n1, if_pos p2, ht, htf]

/-- C18: there are byte counts below `1024 ^ 2` whose text shows the number 1024.0:
`humanSize 1048575` is `1024.0 kB` and `humanSize 1073741823` is `1024.0 MB`, because
the unit is chosen from the byte count itself and the quotient is rounded afterwards.
The `kB` branch shows `1024.0 kB` for every `b` with `1048525 ≤ b < 1048576` (and
`1023.9 kB` for `b = 1048524`). -/
theorem humanSize_shows_1024 :
    humanSize 1048575 = lit "1024.0 kB" ∧
    humanSize 1073741823 = lit "1024.0 MB" ∧
    (∀ b : Nat, 1048525 ≤ b → b < 1048576 →
      b < 1024 ^ 2 ∧ roundHalfEven (10 * b) 1024 = 10240 ∧
        humanSize b = lit "1024.0 kB") ∧
    humanSize 1048524 = lit "1023.9 kB" := by
  refine ⟨by decide, by decide, ?_, by decide⟩
  intro b h1 h2
  have hr : roundHalfEven (10 * b) 1024 = 10240 := by
    unfold roundHalfEven
    simp only []
    split_ifs <;> omega
  refine ⟨by omega, hr, ?_⟩
  rw [humanSize_kB b (by omega) (by omega), hr]
  decide

set_option maxRecDepth 100000 in
/-- C19, as stated, fails: a file whose modification time is the Unix second
`2 ^ 63 - 1` lies in the future of a clock reading in 2023, but its seconds since
year 1 overflow an `int64`, `time.Since` returns the largest duration and `humanTime`
returns a date, not `just now`. -/
theorem humanTime_far_future_date :
    (⟨1700000000000000000, 0⟩ : Time).unixNano -
        (⟨9223372036854775807000000000, 0⟩ : Time).unixNano < 0 ∧
    timeSince ⟨1700000000000000000, 0⟩ ⟨9223372036854775807000000000, 0⟩ = 2 ^ 63 - 1 ∧
    humanTime ⟨1700000000000000000, 0⟩ ⟨9223372036854775807000000000, 0⟩ =
      lit "Dec 04, 292277026596" := by
  refine ⟨by decide, by decide, by decide⟩

/-- C19, amended: for every modification time in the future of the clock reading,
however far among the instants that the library stores without wrap-around (Unix
seconds up to 9223371974719179007), `humanTime` returns `just now`; and for every
difference of at least one minute and less than two minutes it returns
`1 minutes ago`, with the plural unit word. -/
theorem humanTime_future_and_one_minute (now t : Time) (hnow : now.representable)
    (ht : t.representable) :
    (now.unixNano - t.unixNano < 0 → humanTime now t = lit "just now") ∧
    (Minute ≤ now.unixNano - t.unixNano → now.unixNano - t.unixNano < 2 * Minute →
      humanTime now t = lit "1 minutes ago") := by
  constructor
  · intro h
    apply humanTime_just_now now t hnow ht
    rw [Minute_eq]
    omega
  · intro h1 h2
    rw [Minute_eq] at h1 h2
    obtain ⟨d, hd⟩ := Int.eq_ofNat_of_zero_le (show 0 ≤ now.unixNano - t.unixNano by omega)
    rw [hd] at h1 h2
    rw [humanTime_of_diff now t d hnow ht hd (by omega), if_neg (by omega),
      if_pos (by omega)]
    have hq : d / 60000000000 = 1 := by omega
    rw [hq]
    decide

/-- Witness for C19 (amended): a file modified an hour after the clock reading, one
modified at the last Unix second that is stored without wrap-around, and one modified
ninety seconds before the clock reading. -/
theorem humanTime_future_and_one_minute_witness :
    (⟨1700000000000000000, 0⟩ : Time).representable ∧
    (⟨9223371974719179007999999999, 0⟩ : Time).representable ∧
    humanTime ⟨1700000000000000000, 0⟩ ⟨1700003600000000000, 0⟩ = lit "just now" ∧
    humanTime ⟨1700000000000000000, 0⟩ ⟨9223371974719179007999999999, 0⟩ = lit "just now" ∧
    humanTime ⟨1700000090000000000, 0⟩ ⟨1700000000000000000, 0⟩ = lit "1 minutes ago" :=
  ⟨by decide, by decide,
    (humanTime_future_and_one_minute ⟨1700000000000000000, 0⟩
      ⟨1700003600000000000, 0⟩ (by decide) (by decide)).1 (by decide),
    (humanTime_future_and_one_minute ⟨1700000000000000000, 0⟩
      ⟨9223371974719179007999999999, 0⟩ (by decide) (by decide)).1 (by decide),
    (humanTime_future_and_one_minute ⟨1700000090000000000, 0⟩
      ⟨1700000000000000000, 0⟩ (by decide) (by decide)).2 (by decide) (by decide)⟩
/-! ## The absolute date -/

theorem day_of_year_le (x : Nat) (h : x ≤ 146096) :
    x - (365 * ((x - x / 1460 + x / 36524 - x / 146096) / 365)
      + ((x - x / 1460 + x / 36524 - x / 146096) / 365) / 4
      - ((x - x / 1460 + x / 36524 - x / 146096) / 365) / 100) ≤ 365 := by
  by_cases hx : x < 109572
  · have hb : x / 36524 ≤ 2 := by omega
    generalize hbv : x / 36524 = b at hb ⊢
    interval_cases b <;> omega
  · have hb : x / 36524 = 3 ∨ x / 36524 = 4 := by omega
    have hg1 : 75 ≤ x / 1460 := by omega
    have hg2 : x / 1460 ≤ 100 := by omega
    generalize hgv : x / 1460 = g at hg1 hg2 ⊢
    rcases hb with hb | hb <;> rw [hb] <;> interval_cases g <;> omega

/-- The month and the day computed from a day of the year are a month number and a day
number. -/
theorem month_day_of_day_of_year (doy : Nat) (h : doy ≤ 365) :
    1 ≤ (if (5 * doy + 2) / 153 < 10 then (5 * doy + 2) / 153 + 3
        else (5 * doy + 2) / 153 - 9) ∧
      (if (5 * doy + 2) / 153 < 10 then (5 * doy + 2) / 153 + 3
        else (5 * doy + 2) / 153 - 9) ≤ 12 ∧
      1 ≤ doy - (153 * ((5 * doy + 2) / 153) + 2) / 5 + 1 ∧
      doy - (153 * ((5 * doy + 2) / 153) + 2) / 5 + 1 ≤ 31 := by
  refine ⟨?_, ?_, ?_, ?_⟩
  · split_ifs <;> omega
  · split_ifs <;> omega
  · omega
  · omega

theorem civilFromDays_bounds (days : Int) :
    1 ≤ (civilFromDays days).2.1 ∧ (civilFromDays days).2.1 ≤ 12 ∧
      1 ≤ (civilFromDays days).2.2 ∧ (civilFromDays days).2.2 ≤ 31 := by
  have hdoe : ((days + 719468) - (days + 719468) / 146097 * 146097).toNat ≤ 146096 := by
    omega
  exact month_day_of_day_of_year _ (day_of_year_le _ hdoe)

theorem decimalDigits_small (fuel n : Nat) (acc : GoString) (h : n < 10) (hf : 0 < fuel) :
    decimalDigits fuel n acc = digitByte n :: acc := by
  obtain ⟨k, rfl⟩ : ∃ k, fuel = k + 1 := ⟨fuel - 1, by omega⟩
  rw [decimalDigits, if_pos h]

theorem decimalDigits_big (fuel n : Nat) (acc : GoString) (h : 10 ≤ n) (hf : 0 < fuel) :
    decimalDigits fuel n acc = decimalDigits (fuel - 1) (n / 10) (digitByte n :: acc) := by
  obtain ⟨k, rfl⟩ : ∃ k, fuel = k + 1 := ⟨fuel - 1, by omega⟩
  rw [decimalDigits, if_neg (by omega), Nat.add_sub_cancel]

theorem digitByte_zero_of_eq (n : Nat) (h : n = 0) : digitByte n = digitByte 0 := by rw [h]

theorem zeroPad_two (n : Nat) (h : n < 100) :
    zeroPad 2 n = [digitByte (n / 10), digitByte n] := by
  unfold zeroPad fmtNat
  by_cases h1 : n < 10
  · rw [decimalDigits_small _ _ _ h1 (by omega), digitByte_zero_of_eq (n / 10) (by omega)]
    rfl
  · rw [decimalDigits_big _ _ _ (by omega) (by omega),
      decimalDigits_small _ _ _ (by omega) (by omega)]
    rfl

theorem zeroPad_four (n : Nat) (h : n < 10000) :
    zeroPad 4 n = [digitByte (n / 1000), digitByte (n / 100), digitByte (n / 10), digitByte n] := by
  unfold zeroPad fmtNat
  have e10 : n / 10 / 10 = n / 100 := by omega
  have e100 : n / 10 / 10 / 10 = n / 1000 := by omega
  by_cases h1 : n < 10
  · rw [decimalDigits_small _ _ _ h1 (by omega), digitByte_zero_of_eq (n / 10) (by omega),
      digitByte_zero_of_eq (n / 100) (by omega), digitByte_zero_of_eq (n / 1000) (by omega)]
    rfl
  · by_cases h2 : n < 100
    · rw [decimalDigits_big _ _ _ (by omega) (by omega),
        decimalDigits_small _ _ _ (by omega) (by omega),
        digitByte_zero_of_eq (n / 100) (by omega), digitByte_zero_of_eq (n / 1000) (by omega)]
      rfl
    · by_cases h3 : n < 1000
      · rw [decimalDigits_big _ _ _ (by omega) (by omega),
          decimalDigits_big _ _ _ (by omega) (by omega),
          decimalDigits_small _ _ _ (by omega) (by omega),
          digitByte_zero_of_eq (n / 1000) (by omega), e10]
        rfl
      · rw [decimalDigits_big _ _ _ (by omega) (by omega),
          decimalDigits_big _ _ _ (by omega) (by omega),
          decimalDigits_big _ _ _ (by omega) (by omega),
          decimalDigits_small _ _ _ (by omega) (by omega), e100, e10]
        rfl

theorem monthAbbrev_shape (m : Nat) (h1 : 1 ≤ m) (h2 : m ≤ 12) :
    (monthAbbrev m).length = 3 ∧
      monthAbbrev m ∈ [lit "Jan", lit "Feb", lit "Mar", lit "Apr", lit "May", lit "Jun",
        lit "Jul", lit "Aug", lit "Sep", lit "Oct", lit "Nov", lit "Dec"] := by
  interval_cases m <;> decide

theorem timeSince_ge (now t : Time) (k : Int) (hnow : now.representable)
    (ht : t.representable) (hk : k ≤ 2 ^ 63 - 1)
    (h : k ≤ now.unixNano - t.unixNano) : k ≤ timeSince now t := by
  unfold timeSince
  rw [Sub_eq now t hnow ht]
  split_ifs <;> omega

theorem humanTime_old (now t : Time) (hnow : now.representable) (ht : t.representable)
    (h : 30 * 24 * Hour ≤ now.unixNano - t.unixNano) :
    humanTime now t = formatDate t := by
  have hH : Hour = 3600000000000 := by rw [Hour_eq]; rfl
  have hM : Minute = 60000000000 := by rw [Minute_eq]; rfl
  have hge := timeSince_ge now t (30 * 24 * Hour) hnow ht (by rw [hH]; norm_num) h
  unfold humanTime
  simp only []
  rw [hH, hM] at *
  rw [if_neg (by omega), if_neg (by omega), if_neg (by omega), if_neg (by omega)]

set_option maxRecDepth 100000 in
/-- C15, as stated, fails: a modification time in the last second of the year before
year 0 of the proleptic Gregorian calendar is more than 30 days old for a clock reading
in 2023 and is rendered with the five-character year `-0001`, not with a four-digit
year; and for the smallest Unix second `-2 ^ 63`, which lies before the absolute zero
year of the library, the date shown is not that of the modification time and its year
has twelve digits. -/
theorem humanTime_negative_year :
    30 * 24 * Hour ≤ (⟨1700000000000000000, 0⟩ : Time).unixNano -
        (⟨-62167219201000000000, 0⟩ : Time).unixNano ∧
    humanTime ⟨1700000000000000000, 0⟩ ⟨-62167219201000000000, 0⟩ = lit "Dec 31, -0001" ∧
    30 * 24 * Hour ≤ (⟨1700000000000000000, 0⟩ : Time).unixNano -
        (⟨-9223372036854775808000000000, 0⟩ : Time).unixNano ∧
    humanTime ⟨1700000000000000000, 0⟩ ⟨-9223372036854775808000000000, 0⟩ =
      lit "Dec 04, 292277026596" := by
  refine ⟨by decide, by decide, by decide, by decide⟩

/-- C15, amended: for every modification time with `now - modifiedAt ≥ 30 days`
(for example 400 days), the clock reading and the modification time being stored by
the library without wrap-around (Unix seconds up to 9223371974719179007, and local
time not before the absolute zero year -292277022399), `humanTime` returns the
absolute date of `modifiedAt` in its location, whatever `now` is: the three-letter
English abbreviation of the month, a space, the day of the month as two digits with a
leading zero, a comma and a space, and the year in at least four digits, preceded by a
minus sign when it is negative; for the years 0 to 9999 the year takes exactly four
digits, as in `Jan 02, 2006`. -/
theorem humanTime_absolute_date (now t : Time) (hnow : now.representable)
    (ht : t.representable) (hdate : t.dateRepresentable)
    (hold : 30 * 24 * Hour ≤ now.unixNano - t.unixNano) :
    humanTime now t = formatDate t ∧
    ∃ (y : Int) (m d : Nat),
      civilFromDays ((t.unixNano / 1000000000 + t.zoneOffset) / 86400) = (y, m, d) ∧
      1 ≤ m ∧ m ≤ 12 ∧ 1 ≤ d ∧ d ≤ 31 ∧
      (monthAbbrev m).length = 3 ∧
      monthAbbrev m ∈ [lit "Jan", lit "Feb", lit "Mar", lit "Apr", lit "May", lit "Jun",
        lit "Jul", lit "Aug", lit "Sep", lit "Oct", lit "Nov", lit "Dec"] ∧
      humanTime now t =
        monthAbbrev m ++ lit " " ++ [digitByte (d / 10), digitByte d] ++ lit ", " ++
          (if y < 0 then lit "-" ++ zeroPad 4 y.natAbs else zeroPad 4 y.natAbs) ∧
      4 ≤ (zeroPad 4 y.natAbs).length ∧
      (0 ≤ y → y ≤ 9999 →
        humanTime now t =
          monthAbbrev m ++ lit " " ++ [digitByte (d / 10), digitByte d] ++ lit ", " ++
            [digitByte (y.toNat / 1000), digitByte (y.toNat / 100), digitByte (y.toNat / 10),
              digitByte y.toNat]) := by
  have hfmt := humanTime_old now t hnow ht hold
  obtain ⟨hm1, hm2, hd1, hd2⟩ :=
    civilFromDays_bounds ((t.unixNano / 1000000000 + t.zoneOffset) / 86400)
  obtain ⟨hlen, hmem⟩ := monthAbbrev_shape _ hm1 hm2
  have hgen : humanTime now t =
      monthAbbrev (civilFromDays ((t.unixNano / 1000000000 + t.zoneOffset) / 86400)).2.1
        ++ lit " " ++
        [digitByte ((civilFromDays ((t.unixNano / 1000000000 + t.zoneOffset) / 86400)).2.2 / 10),
          digitByte (civilFromDays ((t.unixNano / 1000000000 + t.zoneOffset) / 86400)).2.2]
        ++ lit ", " ++
        (if (civilFromDays ((t.unixNano / 1000000000 + t.zoneOffset) / 86400)).1 < 0 then
          lit "-" ++ zeroPad 4
            (civilFromDays ((t.unixNano / 1000000000 + t.zoneOffset) / 86400)).1.natAbs
        else zeroPad 4
          (civilFromDays ((t.unixNano / 1000000000 + t.zoneOffset) / 86400)).1.natAbs) := by
    have hz := zeroPad_two
      (civilFromDays ((t.unixNano / 1000000000 + t.zoneOffset) / 86400)).2.2
      (lt_of_le_of_lt hd2 (by decide))
    rw [hfmt, ← hz]
    unfold formatDate
    simp only []
    rw [abs_days t hdate]
  generalize hc : civilFromDays ((t.unixNano / 1000000000 + t.zoneOffset) / 86400) = c
    at hm1 hm2 hd1 hd2 hlen hmem hgen
  obtain ⟨y, m, d⟩ := c
  dsimp only at hm1 hm2 hd1 hd2 hlen hmem hgen
  refine ⟨hfmt, y, m, d, rfl, hm1, hm2, hd1, hd2, hlen, hmem, hgen, ?_, ?_⟩
  · unfold zeroPad
    rw [List.length_append, List.length_replicate]
    omega
  · intro h0 h9
    rw [hgen, if_neg (not_lt.mpr h0)]
    have hn : y.natAbs = y.toNat := by omega
    rw [hn, zeroPad_four _ (by omega)]

set_option maxRecDepth 100000 in
/-- Witness for C15 (amended): a file modified on 2 January 2006, 400 days before the
clock reading. -/
theorem humanTime_absolute_date_witness :
    (⟨1170774245000000000, 0⟩ : Time).representable ∧
    (⟨1136214245000000000, 0⟩ : Time).representable ∧
    (⟨1136214245000000000, 0⟩ : Time).dateRepresentable ∧
    30 * 24 * Hour ≤ (⟨1170774245000000000, 0⟩ : Time).unixNano -
        (⟨1136214245000000000, 0⟩ : Time).unixNano ∧
    humanTime ⟨1170774245000000000, 0⟩ ⟨1136214245000000000, 0⟩ = lit "Jan 02, 2006" :=
  ⟨by decide, by decide, by decide, by decide,
    (humanTime_absolute_date ⟨1170774245000000000, 0⟩ ⟨1136214245000000000, 0⟩
      (by decide) (by decide) (by decide) (by decide)).1.trans (by decide)⟩


end Flist
